import Mathlib

/-!
# Haruki Sekai API: codec, ordered MessagePack decoding, request pipeline

A shallow embedding of the Go sources

* `utils/orderedmsgpack/orderedmsgpack.go` (ordered MessagePack decoder, float rendering),
* `client/cryptor.go` (AES-CBC / PKCS#7 / MessagePack codec),
* `client/clientbase.go`, `client/struct.go`, `client/exceptions.go` (request state machine),
* `client/manager.go` (round-robin dispatch and `GetGameAPI`),

followed by the theorems proved about them.

Conventions.  A byte is a natural number below 256 and a byte string is a list of
bytes.  A Go `string` is represented by a Lean `String` holding one character per
byte.  Go errors are values of small inductive types, one constructor per error
site of the source.  Calls into third-party libraries (the AES block cipher, the
generic MessagePack marshaller, `fmt.Sprint`) are explicit parameters.
-/

namespace Sekai

/-! ## Part I. Definitions -/

/-- A byte string (`[]byte`); every element is meant to be below 256. -/
abbrev Bytes := List Nat

/-- Go `string(b)` for a byte slice: one character per byte. -/
def bytesToString (b : Bytes) : String := String.mk (b.map Char.ofNat)

/-- Big-endian value of a byte string. -/
def beNat (b : Bytes) : Nat := b.foldl (fun acc x => acc * 256 + x) 0

/-- Two's-complement reading of an unsigned `w`-bit number. -/
def toSigned (w : Nat) (n : Nat) : Int :=
  if n < 2 ^ (w - 1) then (n : Int) else (n : Int) - (2 ^ w : Nat)

/-- The Go integer types a decoded value can carry. -/
inductive IntKind
  | int8 | int16 | int32 | int64 | uint8 | uint16 | uint32 | uint64 | int | uint
  deriving DecidableEq, Repr

/-- An IEEE-754 number given by its bit pattern, in single or double width. -/
inductive GoFloat
  | f32 (bits : Nat)
  | f64 (bits : Nat)
  deriving DecidableEq, Repr

/-- Go values of dynamic type (`any`) that occur in the codec and in the restoring of
master data.  An ordered map (`*orderedmap.OrderedMap`) is its entry list in key order;
its keys are pairwise distinct because `Set` never appends an existing key.  The last
four constructors are the dynamic types that only `client/nuverse.go` tells apart: an
`orderedmap.OrderedMap` held by value, a `map[string]interface{}`, a slice
`[]*orderedmap.OrderedMap`, and a `json.Number`. -/
inductive GoVal
  | nil
  | bool (b : Bool)
  | int (k : IntKind) (n : Int)
  | float (f : GoFloat)
  | jsonNum (raw : String)
  | str (s : String)
  | bytes (b : Bytes)
  | arr (xs : List GoVal)
  | omap (entries : List (String × GoVal))
  | omapValue (entries : List (String × GoVal))
  | gomap (entries : List (String × GoVal))
  | omapSlice (maps : List (List (String × GoVal)))
  | jsonNumber (s : String)

/-- An ordered map as the list of its entries in key order. -/
abbrev OrderedMap := List (String × GoVal)

/-- The constructor `orderedmap.New()`. -/
def OrderedMap.new : OrderedMap := []

/-- The method `OrderedMap.Set`: an existing key keeps its position and gets the new
value, a new key is appended. -/
def OrderedMap.set : OrderedMap → String → GoVal → OrderedMap
  | [], key, value => [(key, value)]
  | (k, v) :: rest, key, value =>
    if k = key then (k, value) :: rest else (k, v) :: OrderedMap.set rest key value

/-- The method `OrderedMap.Keys`. -/
def OrderedMap.keys (o : OrderedMap) : List String := o.map Prod.fst

/-- The method `OrderedMap.Get`. -/
def OrderedMap.get : OrderedMap → String → Option GoVal
  | [], _ => none
  | (k, v) :: rest, key => if k = key then some v else OrderedMap.get rest key

/-! ### Float rendering (`orderedmsgpack.go`, `makeJSONFloat`) -/

/-- What the bit pattern of a float denotes: not-a-number, an infinity, or the
finite value `mant * 2 ^ exp` with a sign. -/
inductive FloatClass
  | nan
  | inf (neg : Bool)
  | finite (neg : Bool) (mant : Nat) (exp : Int)
  deriving DecidableEq, Repr

/-- IEEE-754 field decoding, as `strconv.FormatFloat` does before printing. -/
def GoFloat.classify : GoFloat → FloatClass
  | .f64 bits =>
    let neg := decide (bits / 2 ^ 63 % 2 = 1)
    let e : Nat := bits / 2 ^ 52 % 2048
    let m : Nat := bits % 2 ^ 52
    if e = 2047 then (if m ≠ 0 then .nan else .inf neg)
    else if e = 0 then .finite neg m (-1074)
    else .finite neg (m + 2 ^ 52) ((e : Int) - 1075)
  | .f32 bits =>
    let neg := decide (bits / 2 ^ 31 % 2 = 1)
    let e : Nat := bits / 2 ^ 23 % 256
    let m : Nat := bits % 2 ^ 23
    if e = 255 then (if m ≠ 0 then .nan else .inf neg)
    else if e = 0 then .finite neg m (-149)
    else .finite neg (m + 2 ^ 23) ((e : Int) - 150)

/-- The rational value of a finite float. -/
def GoFloat.toRat (f : GoFloat) : Option ℚ :=
  match f.classify with
  | .finite neg mant exp => some ((if neg then -1 else 1) * (mant : ℚ) * (2 : ℚ) ^ exp)
  | _ => none

/-- Nearest integer to `num / den`, ties to even. -/
def roundHalfEven (num den : Nat) : Nat :=
  let q := num / den
  let r := num % den
  if 2 * r < den then q
  else if den < 2 * r then q + 1
  else if q % 2 = 0 then q else q + 1

/-- The integer nearest to `mant * 2 ^ exp * 10 ^ prec`, ties to even. -/
def scaledDecimal (prec : Nat) (mant : Nat) (exp : Int) : Nat :=
  if 0 ≤ exp then mant * 2 ^ exp.toNat * 10 ^ prec
  else roundHalfEven (mant * 10 ^ prec) (2 ^ (-exp).toNat)

/-- The decimal digit character of `d % 10`. -/
def digitChar (d : Nat) : Char := Char.ofNat (48 + d % 10)

/-- Exactly `w` decimal digits of `n`, zero padded on the left. -/
def fixedDigits : Nat → Nat → List Char
  | 0, _ => []
  | w + 1, n => fixedDigits w (n / 10) ++ [digitChar n]

/-- Decimal digits of `n` with a recursion budget. -/
def natDigitsAux : Nat → Nat → List Char
  | 0, n => [digitChar n]
  | fuel + 1, n => if n < 10 then [digitChar n] else natDigitsAux fuel (n / 10) ++ [digitChar n]

/-- Decimal digits of `n`, at least one, no leading zero. -/
def natDigits (n : Nat) : List Char := natDigitsAux n n

/-- The library call `strconv.FormatFloat(f, 'f', prec, bitSize)`: the exact value
rounded to `prec` fractional digits (ties to even), printed as sign, integer part,
point and exactly `prec` digits; `NaN`, `+Inf` and `-Inf` for the special values. -/
def formatFloatF (prec : Nat) (f : GoFloat) : List Char :=
  match f.classify with
  | .nan => ['N', 'a', 'N']
  | .inf neg => if neg then ['-', 'I', 'n', 'f'] else ['+', 'I', 'n', 'f']
  | .finite neg mant exp =>
    let n := scaledDecimal prec mant exp
    (if neg then ['-'] else []) ++ natDigits (n / 10 ^ prec) ++ ['.']
      ++ fixedDigits prec (n % 10 ^ prec)

/-- The library call `strings.TrimRight(s, "0")`. -/
def trimRightZeros (s : List Char) : List Char :=
  (s.reverse.dropWhile (fun c => c == '0')).reverse

/-- The function `makeJSONFloat(f, bits)`; the result is the `Raw` field of the
`JSONNum` it returns. -/
def makeJSONFloat (f : GoFloat) : String :=
  let prec := 17
  let raw := formatFloatF prec f
  if raw.contains '.' then
    let trimmed := trimRightZeros raw
    if trimmed.getLast? = some '.' then String.mk (trimmed ++ ['0']) else String.mk trimmed
  else String.mk (raw ++ ['.', '0'])

/-- The method `JSONNum.MarshalJSON`: the raw text, emitted verbatim. -/
def JSONNum.MarshalJSON (raw : String) : String := raw

/-! ### Ordered MessagePack decoding (`orderedmsgpack.go`) -/

/-- Third-party behaviour used by the decoder and the codec, kept abstract. -/
structure Library where
  /-- The call `fmt.Sprint(k)` on a decoded map key. -/
  sprint : GoVal → String
  /-- The call `dec.Decode(&v)` on a code that is none of nil, bool, float, int,
  string, binary, array or map (extension types and the reserved code). -/
  decodeOther : Bytes → Except String (GoVal × Bytes)
  /-- The call `msgpack.Marshal(v)`. -/
  marshal : GoVal → Except String Bytes
  /-- The call `msgpack.NewDecoder(r).Decode(out)` for `out` of type `*any`. -/
  unmarshal : Bytes → Except String GoVal

/-- Errors of the ordered decoder. -/
inductive DecodeError
  | eof
  | depth
  | lib (msg : String)
  | topLevel
  deriving DecidableEq, Repr

/-- Read `n` bytes from the input. -/
def readBytes (n : Nat) (bs : Bytes) : Except DecodeError (Bytes × Bytes) :=
  if n ≤ bs.length then .ok (bs.take n, bs.drop n) else .error .eof

/-- Read an `n`-byte big-endian unsigned number. -/
def readUint (n : Nat) (bs : Bytes) : Except DecodeError (Nat × Bytes) :=
  match readBytes n bs with
  | .ok (h, r) => .ok (beNat h, r)
  | .error e => .error e

/-- The function `decodeNilOrBool`; `none` stands for `handled = false`.  The input
`rest` is what follows the peeked code. -/
def decodeNilOrBool (rest : Bytes) (code : Nat) : Option (Except DecodeError (GoVal × Bytes)) :=
  if code = 0xc0 then some (.ok (.nil, rest))
  else if code = 0xc2 ∨ code = 0xc3 then some (.ok (.bool (decide (code = 0xc3)), rest))
  else none

/-- The function `decodeFloat`; `none` stands for `handled = false`. -/
def decodeFloat (rest : Bytes) (code : Nat) : Option (Except DecodeError (GoVal × Bytes)) :=
  if code = 0xca then
    some (match readUint 4 rest with
      | .ok (b, r) => .ok (.jsonNum (makeJSONFloat (.f32 b)), r)
      | .error e => .error e)
  else if code = 0xcb then
    some (match readUint 8 rest with
      | .ok (b, r) => .ok (.jsonNum (makeJSONFloat (.f64 b)), r)
      | .error e => .error e)
  else none

/-- The function `isIntCode`. -/
def isIntCode (c : Nat) : Bool :=
  c ≤ 0x7f || c ≥ 0xe0 || (c ≥ 0xcc && c ≤ 0xcf) || (c ≥ 0xd0 && c ≤ 0xd3)

/-- The function `isStringCode`. -/
def isStringCode (c : Nat) : Bool :=
  (c ≥ 0xa0 && c ≤ 0xbf) || c == 0xd9 || c == 0xda || c == 0xdb

/-- The function `isBinaryCode`. -/
def isBinaryCode (c : Nat) : Bool :=
  c == 0xc4 || c == 0xc5 || c == 0xc6

/-- The function `isArrayCode`. -/
def isArrayCode (c : Nat) : Bool :=
  (c ≥ 0x90 && c ≤ 0x9f) || c == 0xdc || c == 0xdd

/-- The function `isMapCode`. -/
def isMapCode (c : Nat) : Bool :=
  (c ≥ 0x80 && c ≤ 0x8f) || c == 0xde || c == 0xdf

/-- The library call `dec.Decode(&v)` on an integer code: the value with the Go
type of its wire format. -/
def decodeInt (code : Nat) (rest : Bytes) : Except DecodeError (GoVal × Bytes) :=
  if code ≤ 0x7f then .ok (.int .int8 code, rest)
  else if code ≥ 0xe0 then .ok (.int .int8 (toSigned 8 code), rest)
  else
    let width : Nat :=
      if code = 0xcc ∨ code = 0xd0 then 1
      else if code = 0xcd ∨ code = 0xd1 then 2
      else if code = 0xce ∨ code = 0xd2 then 4
      else 8
    match readUint width rest with
    | .error e => .error e
    | .ok (n, r) =>
      if code = 0xcc then .ok (.int .uint8 n, r)
      else if code = 0xcd then .ok (.int .uint16 n, r)
      else if code = 0xce then .ok (.int .uint32 n, r)
      else if code = 0xcf then .ok (.int .uint64 n, r)
      else if code = 0xd0 then .ok (.int .int8 (toSigned 8 n), r)
      else if code = 0xd1 then .ok (.int .int16 (toSigned 16 n), r)
      else if code = 0xd2 then .ok (.int .int32 (toSigned 32 n), r)
      else .ok (.int .int64 (toSigned 64 n), r)

/-- The length header of a string code, as read by `dec.DecodeString`. -/
def decodeStringLen (code : Nat) (rest : Bytes) : Except DecodeError (Nat × Bytes) :=
  if code ≥ 0xa0 ∧ code ≤ 0xbf then .ok (code - 0xa0, rest)
  else if code = 0xd9 then readUint 1 rest
  else if code = 0xda then readUint 2 rest
  else readUint 4 rest

/-- The library call `dec.DecodeString()` on a string code. -/
def decodeString (code : Nat) (rest : Bytes) : Except DecodeError (GoVal × Bytes) :=
  match decodeStringLen code rest with
  | .error e => .error e
  | .ok (n, r) =>
    match readBytes n r with
    | .error e => .error e
    | .ok (b, r2) => .ok (.str (bytesToString b), r2)

/-- The library call `dec.DecodeBytes()` on a binary code. -/
def decodeBytes (code : Nat) (rest : Bytes) : Except DecodeError (GoVal × Bytes) :=
  let width : Nat := if code = 0xc4 then 1 else if code = 0xc5 then 2 else 4
  match readUint width rest with
  | .error e => .error e
  | .ok (n, r) =>
    match readBytes n r with
    | .error e => .error e
    | .ok (b, r2) => .ok (.bytes b, r2)

/-- The library call `dec.DecodeArrayLen()` on an array code. -/
def decodeArrayLen (code : Nat) (rest : Bytes) : Except DecodeError (Nat × Bytes) :=
  if code ≥ 0x90 ∧ code ≤ 0x9f then .ok (code - 0x90, rest)
  else if code = 0xdc then readUint 2 rest
  else readUint 4 rest

/-- The library call `dec.DecodeMapLen()` on a map code. -/
def decodeMapLen (code : Nat) (rest : Bytes) : Except DecodeError (Nat × Bytes) :=
  if code ≥ 0x80 ∧ code ≤ 0x8f then .ok (code - 0x80, rest)
  else if code = 0xde then readUint 2 rest
  else readUint 4 rest

/-- The loop of `decodeArray`: decode `n` elements in sequence. -/
def decodeArrayLoop (dec : Bytes → Except DecodeError (GoVal × Bytes)) :
    Nat → Bytes → Except DecodeError (List GoVal × Bytes)
  | 0, bs => .ok ([], bs)
  | n + 1, bs =>
    match dec bs with
    | .error e => .error e
    | .ok (v, r) =>
      match decodeArrayLoop dec n r with
      | .error e => .error e
      | .ok (vs, r2) => .ok (v :: vs, r2)

/-- The string under which `decodeMap` stores a decoded key. -/
def mapKey (lib : Library) : GoVal → String
  | .jsonNum raw => raw
  | k => lib.sprint k

/-- The loop of `decodeMap`: decode `n` key/value pairs and `Set` each into `om`. -/
def decodeMapLoop (lib : Library) (dec : Bytes → Except DecodeError (GoVal × Bytes)) :
    Nat → OrderedMap → Bytes → Except DecodeError (OrderedMap × Bytes)
  | 0, om, bs => .ok (om, bs)
  | n + 1, om, bs =>
    match dec bs with
    | .error e => .error e
    | .ok (k, r) =>
      match dec r with
      | .error e => .error e
      | .ok (v, r2) => decodeMapLoop lib dec n (om.set (mapKey lib k) v) r2

/-- The function `decodeAnyOrdered`, with `decodeArray` and `decodeMap` inlined at
their call sites.  The first argument bounds the nesting depth of the recursion. -/
def decodeAnyOrdered (lib : Library) : Nat → Bytes → Except DecodeError (GoVal × Bytes)
  | 0, _ => .error .depth
  | fuel + 1, bs =>
    match bs with
    | [] => .error .eof
    | code :: rest =>
      match decodeNilOrBool rest code with
      | some r => r
      | none =>
      match decodeFloat rest code with
      | some r => r
      | none =>
      if isIntCode code then decodeInt code rest
      else if isStringCode code then decodeString code rest
      else if isBinaryCode code then decodeBytes code rest
      else if isArrayCode code then
        match decodeArrayLen code rest with
        | .error e => .error e
        | .ok (n, r) =>
          match decodeArrayLoop (decodeAnyOrdered lib fuel) n r with
          | .error e => .error e
          | .ok (out, r2) => .ok (.arr out, r2)
      else if isMapCode code then
        match decodeMapLen code rest with
        | .error e => .error e
        | .ok (n, r) =>
          match decodeMapLoop lib (decodeAnyOrdered lib fuel) n OrderedMap.new r with
          | .error e => .error e
          | .ok (om, r2) => .ok (.omap om, r2)
      else
        match lib.decodeOther bs with
        | .error e => .error (.lib e)
        | .ok r => .ok r

/-- The functions `MsgpackToOrderedMap` and `MsgpackToOrderedMapFromReader`.  A value
nested `d` levels deep occupies at least `d` bytes, so the depth bound
`b.length + 1` is never reached. -/
def MsgpackToOrderedMap (lib : Library) (b : Bytes) : Except DecodeError OrderedMap :=
  match decodeAnyOrdered lib (b.length + 1) b with
  | .error e => .error e
  | .ok (.omap om, _) => .ok om
  | .ok _ => .error .topLevel

/-! ### The MessagePack wire format

A `Wire` tree is one MessagePack encoding of a value: it records, besides the
content, which of the alternative formats each item uses.  An item whose code the
decoder hands to the library (an extension type) is recorded with its bytes and the
value the library returns for them. -/

/-- The width of a length header. -/
inductive LenFmt
  | fix | w8 | w16 | w32
  deriving DecidableEq, Repr

/-- One MessagePack encoding of a value. -/
inductive Wire
  | nil
  | bool (b : Bool)
  | fixint (c : Nat)
  | int (code : Nat) (payload : Bytes)
  | float32 (payload : Bytes)
  | float64 (payload : Bytes)
  | str (f : LenFmt) (data : Bytes)
  | bin (f : LenFmt) (data : Bytes)
  | arr (f : LenFmt) (items : List Wire)
  | map (f : LenFmt) (kvs : List (Wire × Wire))
  | other (raw : Bytes) (val : GoVal)

/-- The `w`-byte big-endian encoding of `n`. -/
def beBytes : Nat → Nat → Bytes
  | 0, _ => []
  | w + 1, n => beBytes w (n / 256) ++ [n % 256]

/-- A length header: the fix format packs the length into the code byte
`fixBase + n`, the others follow the code `c8`, `c16` or `c32` with the length. -/
def lenHeader (fixBase c8 c16 c32 : Nat) (f : LenFmt) (n : Nat) : Bytes :=
  match f with
  | .fix => [fixBase + n]
  | .w8 => c8 :: beBytes 1 n
  | .w16 => c16 :: beBytes 2 n
  | .w32 => c32 :: beBytes 4 n

/-- The largest length a header format can hold, plus one. -/
def LenFmt.bound (fixBound : Nat) : LenFmt → Nat
  | .fix => fixBound
  | .w8 => 256
  | .w16 => 65536
  | .w32 => 4294967296

/-- The payload width of an integer code `0xcc .. 0xd3`. -/
def intWidth (code : Nat) : Nat :=
  if code = 0xcc ∨ code = 0xd0 then 1
  else if code = 0xcd ∨ code = 0xd1 then 2
  else if code = 0xce ∨ code = 0xd2 then 4
  else 8

mutual
/-- The bytes of an encoding. -/
def Wire.encode : Wire → Bytes
  | .nil => [0xc0]
  | .bool b => [if b then 0xc3 else 0xc2]
  | .fixint c => [c]
  | .int code payload => code :: payload
  | .float32 payload => 0xca :: payload
  | .float64 payload => 0xcb :: payload
  | .str f data => lenHeader 0xa0 0xd9 0xda 0xdb f data.length ++ data
  | .bin f data => lenHeader 0 0xc4 0xc5 0xc6 f data.length ++ data
  | .arr f items => lenHeader 0x90 0 0xdc 0xdd f items.length ++ Wire.encodeList items
  | .map f kvs => lenHeader 0x80 0 0xde 0xdf f kvs.length ++ Wire.encodePairs kvs
  | .other raw _ => raw
/-- The bytes of a sequence of encodings. -/
def Wire.encodeList : List Wire → Bytes
  | [] => []
  | w :: ws => w.encode ++ Wire.encodeList ws
/-- The bytes of a sequence of key/value encodings. -/
def Wire.encodePairs : List (Wire × Wire) → Bytes
  | [] => []
  | (k, v) :: kvs => k.encode ++ (v.encode ++ Wire.encodePairs kvs)
end

/-- The codes `decodeAnyOrdered` passes on to the library. -/
def isOtherCode (c : Nat) : Bool :=
  c != 0xc0 && c != 0xc2 && c != 0xc3 && c != 0xca && c != 0xcb && !isIntCode c
    && !isStringCode c && !isBinaryCode c && !isArrayCode c && !isMapCode c

mutual
/-- Well-formedness: every code is one of its format, every length fits its header,
and the library decodes every item that is left to it. -/
def Wire.WellFormed (lib : Library) : Wire → Prop
  | .nil => True
  | .bool _ => True
  | .fixint c => c ≤ 0x7f ∨ (0xe0 ≤ c ∧ c ≤ 0xff)
  | .int code payload => 0xcc ≤ code ∧ code ≤ 0xd3 ∧ payload.length = intWidth code
  | .float32 payload => payload.length = 4
  | .float64 payload => payload.length = 8
  | .str f data => data.length < f.bound 32
  | .bin f data => f ≠ .fix ∧ data.length < f.bound 0
  | .arr f items => f ≠ .w8 ∧ items.length < f.bound 16 ∧ Wire.WellFormedList lib items
  | .map f kvs => f ≠ .w8 ∧ kvs.length < f.bound 16 ∧ Wire.WellFormedPairs lib kvs
  | .other raw val =>
    (∃ code tl, raw = code :: tl ∧ isOtherCode code = true) ∧
    ∀ rest : Bytes, lib.decodeOther (raw ++ rest) = .ok (val, rest)
/-- Well-formedness of every element. -/
def Wire.WellFormedList (lib : Library) : List Wire → Prop
  | [] => True
  | w :: ws => w.WellFormed lib ∧ Wire.WellFormedList lib ws
/-- Well-formedness of every key and value. -/
def Wire.WellFormedPairs (lib : Library) : List (Wire × Wire) → Prop
  | [] => True
  | (k, v) :: kvs => k.WellFormed lib ∧ v.WellFormed lib ∧ Wire.WellFormedPairs lib kvs
end

mutual
/-- Nesting depth of an encoding. -/
def Wire.depth : Wire → Nat
  | .arr _ items => Wire.depthList items + 1
  | .map _ kvs => Wire.depthPairs kvs + 1
  | _ => 0
/-- Largest depth in a sequence. -/
def Wire.depthList : List Wire → Nat
  | [] => 0
  | w :: ws => max w.depth (Wire.depthList ws)
/-- Largest depth among keys and values. -/
def Wire.depthPairs : List (Wire × Wire) → Nat
  | [] => 0
  | (k, v) :: kvs => max k.depth (max v.depth (Wire.depthPairs kvs))
end

mutual
/-- The Go value the ordered decoder produces for an encoding: scalars by format,
arrays element-wise, maps by `Set`-ting the pairs one after the other. -/
def Wire.decoded (lib : Library) : Wire → GoVal
  | .nil => .nil
  | .bool b => .bool b
  | .fixint c => if c ≤ 0x7f then .int .int8 c else .int .int8 (toSigned 8 c)
  | .int code payload =>
    if code = 0xcc then .int .uint8 (beNat payload)
    else if code = 0xcd then .int .uint16 (beNat payload)
    else if code = 0xce then .int .uint32 (beNat payload)
    else if code = 0xcf then .int .uint64 (beNat payload)
    else if code = 0xd0 then .int .int8 (toSigned 8 (beNat payload))
    else if code = 0xd1 then .int .int16 (toSigned 16 (beNat payload))
    else if code = 0xd2 then .int .int32 (toSigned 32 (beNat payload))
    else .int .int64 (toSigned 64 (beNat payload))
  | .float32 payload => .jsonNum (makeJSONFloat (.f32 (beNat payload)))
  | .float64 payload => .jsonNum (makeJSONFloat (.f64 (beNat payload)))
  | .str _ data => .str (bytesToString data)
  | .bin _ data => .bytes data
  | .arr _ items => .arr (Wire.decodedList lib items)
  | .map _ kvs => .omap (Wire.decodedPairs lib kvs OrderedMap.new)
  | .other _ val => val
/-- The decoded elements of an array. -/
def Wire.decodedList (lib : Library) : List Wire → List GoVal
  | [] => []
  | w :: ws => w.decoded lib :: Wire.decodedList lib ws
/-- The ordered map after `Set`-ting the decoded pairs into `om`, in wire order. -/
def Wire.decodedPairs (lib : Library) : List (Wire × Wire) → OrderedMap → OrderedMap
  | [], om => om
  | (k, v) :: kvs, om =>
    Wire.decodedPairs lib kvs (om.set (mapKey lib (k.decoded lib)) (v.decoded lib))
end

/-- The stringified keys of a wire map, in wire order. -/
def Wire.wireKeys (lib : Library) (kvs : List (Wire × Wire)) : List String :=
  kvs.map (fun kv => mapKey lib (kv.1.decoded lib))

mutual
/-- The value the claim describes: every map, at every depth, lists its entries in
wire order under the stringified keys. -/
def Wire.inWireOrder (lib : Library) : Wire → GoVal
  | .arr _ items => .arr (Wire.inWireOrderList lib items)
  | .map _ kvs => .omap (Wire.inWireOrderPairs lib kvs)
  | w => w.decoded lib
/-- Element-wise `inWireOrder`. -/
def Wire.inWireOrderList (lib : Library) : List Wire → List GoVal
  | [] => []
  | w :: ws => w.inWireOrder lib :: Wire.inWireOrderList lib ws
/-- The entries of a wire map in wire order. -/
def Wire.inWireOrderPairs (lib : Library) : List (Wire × Wire) → List (String × GoVal)
  | [] => []
  | (k, v) :: kvs =>
    (mapKey lib (k.decoded lib), v.inWireOrder lib) :: Wire.inWireOrderPairs lib kvs
end

mutual
/-- Every map in the tree, at every depth below array elements and map values, has
keys that are pairwise distinct after stringification. -/
def Wire.DistinctKeys (lib : Library) : Wire → Prop
  | .arr _ items => Wire.DistinctKeysList lib items
  | .map _ kvs => (Wire.wireKeys lib kvs).Nodup ∧ Wire.DistinctKeysPairs lib kvs
  | _ => True
/-- The property `DistinctKeys` for every element. -/
def Wire.DistinctKeysList (lib : Library) : List Wire → Prop
  | [] => True
  | w :: ws => w.DistinctKeys lib ∧ Wire.DistinctKeysList lib ws
/-- The property `DistinctKeys` for every value. -/
def Wire.DistinctKeysPairs (lib : Library) : List (Wire × Wire) → Prop
  | [] => True
  | (_, v) :: kvs => v.DistinctKeys lib ∧ Wire.DistinctKeysPairs lib kvs
end

/-! ### Codec (`client/cryptor.go`) -/

/-- The constant `aes.BlockSize`. -/
def aesBlockSize : Nat := 16

/-- The struct `SekaiCryptor`.  The derived block cipher (`cipher.Block`) is given by
its action on one block in each direction. -/
structure SekaiCryptor where
  key : Bytes
  iv : Bytes
  encryptBlock : Bytes → Bytes
  decryptBlock : Bytes → Bytes

/-- What `NewSekaiCryptorFromHex` guarantees: the IV has the block size, and the block
cipher maps blocks to blocks and is undone by its decryption. -/
def SekaiCryptor.Valid (c : SekaiCryptor) : Prop :=
  c.iv.length = aesBlockSize ∧
  ∀ b : Bytes, b.length = aesBlockSize →
    (c.encryptBlock b).length = aesBlockSize ∧ c.decryptBlock (c.encryptBlock b) = b

/-- Byte-wise exclusive or. -/
def xorBytes (a b : Bytes) : Bytes := List.zipWith Nat.xor a b

/-- The library call `cipher.NewCBCEncrypter(block, iv).CryptBlocks` on `n` blocks. -/
def cbcEncrypt (enc : Bytes → Bytes) : Nat → Bytes → Bytes → Bytes
  | 0, _, _ => []
  | n + 1, iv, src =>
    let c := enc (xorBytes (src.take aesBlockSize) iv)
    c ++ cbcEncrypt enc n c (src.drop aesBlockSize)

/-- The library call `cipher.NewCBCDecrypter(block, iv).CryptBlocks` on `n` blocks. -/
def cbcDecrypt (dec : Bytes → Bytes) : Nat → Bytes → Bytes → Bytes
  | 0, _, _ => []
  | n + 1, iv, src =>
    let blk := src.take aesBlockSize
    xorBytes (dec blk) iv ++ cbcDecrypt dec n blk (src.drop aesBlockSize)

/-- The method `newCBC(encrypt)` applied to a whole number of blocks. -/
def SekaiCryptor.newCBC (c : SekaiCryptor) (encrypt : Bool) (src : Bytes) : Bytes :=
  if encrypt then cbcEncrypt c.encryptBlock (src.length / aesBlockSize) c.iv src
  else cbcDecrypt c.decryptBlock (src.length / aesBlockSize) c.iv src

/-- The library call `pad.PKCS7Pad(message, blockSize)`. -/
def PKCS7Pad (message : Bytes) (blockSize : Nat) : Bytes :=
  let padLen := blockSize - message.length % blockSize
  message ++ List.replicate padLen padLen

/-- The library call `pad.PKCS7Unpad(padded)`: the last byte gives the padding
length, which must be positive, at most the message length, and repeated. -/
def PKCS7Unpad (padded : Bytes) : Except String Bytes :=
  match padded.getLast? with
  | none => .error "empty message"
  | some p =>
    if p = 0 ∨ padded.length < p then .error "invalid padding length"
    else if (padded.drop (padded.length - p)).all (fun x => x == p) then
      .ok (padded.take (padded.length - p))
    else .error "invalid padding"

/-- Errors of the codec: the two sentinel values and one constructor per wrapping
`fmt.Errorf` site. -/
inductive CodecError
  | ErrEmptyContent
  | ErrInvalidBlockSize
  | outNil
  | marshal (e : String)
  | unpad (e : String)
  | orderedDecode (e : DecodeError)
  | orderedPtrDecode (e : DecodeError)
  | msgpackDecode (e : String)
  deriving DecidableEq, Repr

/-- The method `SekaiCryptor.Pack`. -/
def SekaiCryptor.Pack (c : SekaiCryptor) (lib : Library) (content : GoVal) :
    Except CodecError Bytes :=
  match content with
  | .nil => .error .ErrEmptyContent
  | _ =>
    let raw : Except CodecError Bytes :=
      match content with
      | .bytes v => .ok v
      | v =>
        match lib.marshal v with
        | .error e => .error (.marshal e)
        | .ok b => .ok b
    match raw with
    | .error e => .error e
    | .ok raw =>
      if raw.length = 0 then .error .ErrEmptyContent
      else .ok (c.newCBC true (PKCS7Pad raw aesBlockSize))

/-- The dynamic type of the `out` argument of `UnpackInto`. -/
inductive OutTarget
  | nilOut
  | orderedMap
  | orderedMapPtr
  | generic
  deriving DecidableEq, Repr

/-- The method `SekaiCryptor.UnpackInto`; the result is the value stored into `out`. -/
def SekaiCryptor.UnpackInto (c : SekaiCryptor) (lib : Library) (content : Bytes)
    (out : OutTarget) : Except CodecError GoVal :=
  if content.length = 0 then .error .ErrEmptyContent
  else if content.length % aesBlockSize ≠ 0 then .error .ErrInvalidBlockSize
  else if out = .nilOut then .error .outNil
  else
    let decrypted := c.newCBC false content
    match PKCS7Unpad decrypted with
    | .error e => .error (.unpad e)
    | .ok unpadded =>
      match out with
      | .orderedMap =>
        match MsgpackToOrderedMap lib unpadded with
        | .error e => .error (.orderedDecode e)
        | .ok om => .ok (.omap om)
      | .orderedMapPtr =>
        match MsgpackToOrderedMap lib unpadded with
        | .error e => .error (.orderedPtrDecode e)
        | .ok om => .ok (.omap om)
      | _ =>
        match lib.unmarshal unpadded with
        | .error e => .error (.msgpackDecode e)
        | .ok v => .ok v

/-- The method `SekaiCryptor.Unpack`. -/
def SekaiCryptor.Unpack (c : SekaiCryptor) (lib : Library) (content : Bytes) :
    Except CodecError GoVal :=
  c.UnpackInto lib content .generic

/-- The method `SekaiCryptor.UnpackOrdered`. -/
def SekaiCryptor.UnpackOrdered (c : SekaiCryptor) (lib : Library) (content : Bytes) :
    Except CodecError OrderedMap :=
  match c.UnpackInto lib content .orderedMap with
  | .error e => .error e
  | .ok (.omap om) => .ok om
  | .ok _ => .ok OrderedMap.new

/-! ### Instances used in examples -/

/-- Decimal rendering of an integer (`strconv.FormatInt(n, 10)`). -/
def intToString (n : Int) : String :=
  if n < 0 then String.mk ('-' :: natDigits n.natAbs) else String.mk (natDigits n.natAbs)

/-- The call `fmt.Sprint` on the scalar values a map key usually is; other values
are not rendered. -/
def goSprint : GoVal → String
  | .nil => "<nil>"
  | .bool b => if b then "true" else "false"
  | .int _ n => intToString n
  | .str s => s
  | _ => ""

/-- A marshaller for three scalar formats: nil, booleans and strings shorter than
32 bytes. -/
def exampleMarshal : GoVal → Except String Bytes
  | .nil => .ok [0xc0]
  | .bool b => .ok [if b then 0xc3 else 0xc2]
  | .str s =>
    if s.length < 32 then .ok ((0xa0 + s.length) :: s.data.map Char.toNat)
    else .error "unsupported"
  | _ => .error "unsupported"

/-- The decoder matching `exampleMarshal`. -/
def exampleUnmarshal : Bytes → Except String GoVal
  | [] => .error "EOF"
  | code :: rest =>
    if code = 0xc0 then .ok .nil
    else if code = 0xc2 then .ok (.bool false)
    else if code = 0xc3 then .ok (.bool true)
    else if 0xa0 ≤ code ∧ code ≤ 0xbf ∧ rest.length = code - 0xa0 then
      .ok (.str (bytesToString rest))
    else .error "unsupported"

/-- A library instance for examples. -/
def exampleLibrary : Library where
  sprint := goSprint
  decodeOther := fun _ => .error "unknown code"
  marshal := exampleMarshal
  unmarshal := exampleUnmarshal

/-- A cryptor for examples: its block operation reverses the block. -/
def exampleCryptor : SekaiCryptor where
  key := List.replicate 16 0
  iv := List.replicate 16 0
  encryptBlock := List.reverse
  decryptBlock := List.reverse

/-- The pairs of the example map `a: 1, b: 2, c: [a map with keys y then x]`. -/
def examplePairs : List (Wire × Wire) :=
  [(.str .fix [0x61], .fixint 1),
   (.str .fix [0x62], .fixint 2),
   (.str .w8 [0x63], .arr .fix [.map .w16 [(.str .fix [0x79], .nil), (.str .fix [0x78], .bool true)]])]

/-! ### Regions, statuses and errors (`utils/struct.go`, `client/struct.go`,
`client/exceptions.go`) -/

/-- The type `HarukiSekaiServerRegion`. -/
inductive Region
  | jp | en | tw | kr | cn
  deriving DecidableEq, Repr

/-- The call `strings.ToUpper(string(region))`. -/
def Region.upper : Region → String
  | .jp => "JP"
  | .en => "EN"
  | .tw => "TW"
  | .kr => "KR"
  | .cn => "CN"

/-- The type `SekaiApiHttpStatus`. -/
inductive SekaiApiHttpStatus
  | Ok | ClientError | SessionError | NotFound | Conflict | GameUpgrade | ServerError
  | UnderMaintenance
  deriving DecidableEq, Repr

/-- Errors of the transport layer, as `req.Execute` returns them. -/
inductive ExecError
  | deadlineExceeded
  | timeout
  | network (msg : String)
  deriving DecidableEq, Repr

/-- The Go `error` values of the client: the typed exceptions of
`exceptions.go` and the other errors that travel through `CallAPI`. -/
inductive ClientError
  | session
  | cookieExpired
  | upgradeRequired
  | underMaintenance
  | unknown (statusCode : Int) (response : String)
  | invalidStatus (code : Int)
  | codec (e : CodecError)
  | exec (e : ExecError)
  | exhausted
  | sessionNil
  | other (msg : String)
  deriving DecidableEq, Repr

/-- The function `ParseSekaiApiHttpStatus`. -/
def ParseSekaiApiHttpStatus (code : Int) : Except ClientError SekaiApiHttpStatus :=
  if code = 200 then .ok .Ok
  else if code = 400 then .ok .ClientError
  else if code = 403 then .ok .SessionError
  else if code = 404 then .ok .NotFound
  else if code = 409 then .ok .Conflict
  else if code = 426 then .ok .GameUpgrade
  else if code = 500 then .ok .ServerError
  else if code = 503 then .ok .UnderMaintenance
  else .error (.invalidStatus code)

/-- The text of a transport error. -/
def ExecError.message : ExecError → String
  | .deadlineExceeded => "context deadline exceeded"
  | .timeout => "i/o timeout"
  | .network msg => msg

/-- The text of a codec error (`Error()`), with the library texts abbreviated. -/
def CodecError.message : CodecError → String
  | .ErrEmptyContent => "content cannot be empty"
  | .ErrInvalidBlockSize => "content length is not a multiple of AES block size"
  | .outNil => "out must be a non-nil pointer"
  | .marshal e => "msgpack marshal: " ++ e
  | .unpad e => "failed to unpad: " ++ e
  | .orderedDecode _ => "ordered decode: decoding failed"
  | .orderedPtrDecode _ => "ordered (**ptr) decode: decoding failed"
  | .msgpackDecode e => "msgpack decode: " ++ e

/-- The method `Error()` of the client errors. -/
def ClientError.message : ClientError → String
  | .session => "Account session error"
  | .cookieExpired => "Cookie expired."
  | .upgradeRequired => "UpgradeRequiredError"
  | .underMaintenance => "Game server may under maintenance."
  | .unknown statusCode response =>
    "Unknown error: " ++ intToString statusCode ++ ", " ++ response
  | .invalidStatus code => "invalid http status code: " ++ intToString code
  | .codec e => e.message
  | .exec e => e.message
  | .exhausted => "request failed after retries"
  | .sessionNil => "resty client is nil"
  | .other msg => msg

/-! ### The client's request loop (`client/clientbase.go`) -/

/-- What the client reads of a `resty.Response`. -/
structure Response where
  status : Int
  contentType : String
  body : Bytes
  sessionToken : String
  deriving DecidableEq, Repr

/-- The fields of `SekaiClient` that steer a call, with the library calls it makes:
`expandURL` is the URI-template expansion of the request path and `marshalJSON` is
`sonic.Marshal` on a decoded body. -/
structure SekaiClient where
  Server : Region
  Cryptor : SekaiCryptor
  lib : Library
  hasSession : Bool
  expandURL : String → Except String String
  marshalJSON : OrderedMap → String

/-- The outside world of a call: the outcome of the `k`-th executed request, of the
`k`-th `Login`, of the `k`-th cookie fetch, and of the manager's `k`-th version and
cookie re-parse. -/
structure World where
  execute : Nat → Except ExecError Response
  login : Nat → Option ClientError
  cookies : Nat → Option ClientError
  parseVersion : Nat → Option ClientError
  parseCookies : Nat → Option ClientError

/-- What a call does, in order. -/
inductive Event
  | test (retryCount : Int)
  | count (retryCount : Int)
  | request (index : Nat)
  | login
  | cookies
  | sleep
  | get (client : Nat)
  | managerSleep
  | parseVersion
  | parseCookies
  deriving DecidableEq, Repr

/-- The progress of a run: how many requests, logins, cookie fetches and manager
re-parses have been made, and the events so far. -/
structure Run where
  requests : Nat
  logins : Nat
  cookieFetches : Nat
  versionParses : Nat
  cookieParses : Nat
  trace : List Event
  deriving DecidableEq, Repr

/-- The run that has done nothing yet. -/
def Run.start : Run := ⟨0, 0, 0, 0, 0, []⟩

/-- Append an event. -/
def Run.log (r : Run) (e : Event) : Run := { r with trace := r.trace ++ [e] }

/-- The call `strings.ToLower`. -/
def goToLower (s : String) : String := String.mk (s.data.map Char.toLower)

/-- The method `handleResponse`. -/
def SekaiClient.handleResponse (c : SekaiClient) (response : Response) :
    Except ClientError OrderedMap :=
  match ParseSekaiApiHttpStatus response.status with
  | .error e => .error e
  | .ok statusCode =>
    let contentType := goToLower response.contentType
    if contentType = "application/octet-stream" ∨ contentType = "binary/octet-stream" then
      match c.Cryptor.UnpackOrdered c.lib response.body with
      | .error e => .error (.codec e)
      | .ok unpackResponse =>
        match statusCode with
        | .Ok => .ok unpackResponse
        | .ClientError => .ok unpackResponse
        | .NotFound => .ok unpackResponse
        | .Conflict => .ok unpackResponse
        | .SessionError => .error .session
        | .GameUpgrade => .error .upgradeRequired
        | .UnderMaintenance => .error .underMaintenance
        | .ServerError => .error (.unknown response.status (c.marshalJSON unpackResponse))
    else
      if statusCode = .UnderMaintenance then .error .underMaintenance
      else if statusCode = .ServerError then
        .error (.unknown response.status (bytesToString response.body))
      else if statusCode = .SessionError ∧ contentType = "text/xml" then .error .cookieExpired
      else .error (.unknown response.status (bytesToString response.body))

/-- The method `prepareRequest`, as far as it can fail: a non-nil body is packed. -/
def SekaiClient.prepareRequest (c : SekaiClient) (data : GoVal) : Except ClientError Unit :=
  match data with
  | .nil => .ok ()
  | d =>
    match c.Cryptor.Pack c.lib d with
    | .error e => .error (.codec e)
    | .ok _ => .ok ()

/-- The method `handleExecutionError`: both branches return the error unchanged. -/
def SekaiClient.handleExecutionError (_c : SekaiClient) (execErr : ExecError) : ClientError :=
  match execErr with
  | .deadlineExceeded => .exec execErr
  | .timeout => .exec execErr
  | _ => .exec execErr

/-- The call `c.Login(ctx)` seen from the loop: its outcome comes from the world. -/
def SekaiClient.Login (_c : SekaiClient) (w : World) (run : Run) : Option ClientError × Run :=
  (w.login run.logins, { run with logins := run.logins + 1, trace := run.trace ++ [.login] })

/-- The method `ParseCookies`: only the JP client fetches cookies. -/
def SekaiClient.ParseCookies (c : SekaiClient) (w : World) (run : Run) :
    Option ClientError × Run :=
  if c.Server ≠ .jp then (none, run)
  else (w.cookies run.cookieFetches,
    { run with cookieFetches := run.cookieFetches + 1, trace := run.trace ++ [.cookies] })

/-- The method `handleSessionError`. -/
def SekaiClient.handleSessionError (c : SekaiClient) (w : World) (run : Run) :
    Option ClientError × Run :=
  c.Login w run

/-- The method `handleCookieExpiredError`. -/
def SekaiClient.handleCookieExpiredError (c : SekaiClient) (w : World) (run : Run) :
    Option ClientError × Run :=
  c.ParseCookies w run

/-- The method `handleUpgradeError`. -/
def SekaiClient.handleUpgradeError (c : SekaiClient) (w : World) (run : Run) :
    Option ClientError × Run :=
  if c.Server = .jp ∨ c.Server = .en then (some .upgradeRequired, run)
  else c.Login w run

/-- The method `handleResponseError`; the result is `(err, shouldReturn)`. -/
def SekaiClient.handleResponseError (c : SekaiClient) (w : World) (respErr : ClientError)
    (response : Response) (run : Run) : (Option ClientError × Bool) × Run :=
  match respErr with
  | .session =>
    match c.handleSessionError w run with
    | (some err, run) => ((some err, true), run)
    | (none, run) => ((none, false), run)
  | .cookieExpired =>
    match c.handleCookieExpiredError w run with
    | (some err, run) => ((some err, true), run)
    | (none, run) => ((none, false), run)
  | .upgradeRequired =>
    match c.handleUpgradeError w run with
    | (err, run) =>
      if c.Server = .jp ∨ c.Server = .en then ((err, true), run)
      else
        match err with
        | some e => ((some e, true), run)
        | none => ((none, false), run)
  | .underMaintenance => ((some .underMaintenance, true), run)
  | _ =>
    if response.status ≥ 500 then
      ((some (.unknown response.status (bytesToString response.body)), true), run)
    else ((some respErr, true), run)

/-- What `CallAPI` returns: the pair `(response, err)`. -/
structure CallResult where
  response : Option Response
  err : Option ClientError
  deriving DecidableEq, Repr

/-- The constant `maxRetries` of `CallAPI` and of `GetGameAPI`. -/
def maxRetries : Int := 4

/-- The retry loop of `CallAPI`.  The first argument bounds the number of
iterations; `none` means the bound was reached. -/
def SekaiClient.callLoop (c : SekaiClient) (w : World) (data : GoVal) :
    Nat → Int → Option ClientError → Run → Option (CallResult × Run)
  | 0, _, _, _ => none
  | fuel + 1, retryCount, lastErr, run =>
    let run := run.log (.test retryCount)
    if retryCount < maxRetries then
      let retryCount := retryCount + 1
      let run := run.log (.count retryCount)
      match c.prepareRequest data with
      | .error err => some (⟨none, some err⟩, run)
      | .ok _ =>
        let outcome := w.execute run.requests
        let run := { run with requests := run.requests + 1,
                              trace := run.trace ++ [.request run.requests] }
        match outcome with
        | .error execErr =>
          let lastErr := some (c.handleExecutionError execErr)
          let run := if retryCount < maxRetries then run.log .sleep else run
          c.callLoop w data fuel retryCount lastErr run
        | .ok response =>
          match c.handleResponse response with
          | .ok _ => some (⟨some response, none⟩, run)
          | .error respErr =>
            match c.handleResponseError w respErr response run with
            | ((err, shouldReturn), run) =>
              if shouldReturn then some (⟨none, err⟩, run)
              else
                match err with
                | none =>
                  let retryCount := retryCount - 1
                  let run := run.log (.count retryCount)
                  c.callLoop w data fuel retryCount lastErr run
                | some e =>
                  let lastErr := some e
                  let run := if retryCount < maxRetries then run.log .sleep else run
                  c.callLoop w data fuel retryCount lastErr run
    else
      match lastErr with
      | some e => some (⟨none, some e⟩, run)
      | none => some (⟨none, some .exhausted⟩, run)

/-- The method `CallAPI`.  Locking, logging and the session-token header update do
not influence the control flow and are left out; the requests counted are those of
the retry loop (a `Login` sends its own). -/
def SekaiClient.CallAPI (c : SekaiClient) (w : World) (fuel : Nat) (path : String)
    (data : GoVal) (run : Run) : Option (CallResult × Run) :=
  match c.expandURL path with
  | .error e => some (⟨none, some (.other e)⟩, run)
  | .ok _ =>
    if c.hasSession = false then some (⟨none, some .sessionNil⟩, run)
    else c.callLoop w data fuel 0 none run

/-- The method `Get`. -/
def SekaiClient.Get (c : SekaiClient) (w : World) (fuel : Nat) (path : String) (run : Run) :
    Option (CallResult × Run) :=
  c.CallAPI w fuel path .nil run

/-- The content type of a response is one of the two binary types that
`handleResponse` decodes. -/
def Response.OctetStream (r : Response) : Prop :=
  goToLower r.contentType = "application/octet-stream" ∨
    goToLower r.contentType = "binary/octet-stream"

/-- The body of a response decrypts and decodes to an ordered map under the client's
cryptor. -/
def SekaiClient.Decodable (c : SekaiClient) (r : Response) : Prop :=
  ∃ m : OrderedMap, c.Cryptor.UnpackOrdered c.lib r.body = .ok m

/-- The run after one more pass through the loop head and `req.Execute`: the loop
test with counter `retryCount`, the increment, and the request. -/
def Run.attempt (run : Run) (retryCount : Int) : Run :=
  { run with
    requests := run.requests + 1
    trace := run.trace ++ [.test retryCount, .count (retryCount + 1), .request run.requests] }

/-- Number of requests in a trace. -/
def requestCount (t : List Event) : Nat :=
  (t.filter (fun e => match e with | .request _ => true | _ => false)).length

/-- Number of logins in a trace. -/
def loginCount (t : List Event) : Nat := t.count .login

/-- Number of one-second sleeps of `CallAPI` in a trace. -/
def sleepCount (t : List Event) : Nat := t.count .sleep

/-- The values the retry counter takes in a trace, at loop tests and assignments. -/
def counterValues (t : List Event) : List Int :=
  t.filterMap (fun e => match e with | .test r => some r | .count r => some r | _ => none)

/-- A client for examples, with the example cryptor and library. -/
def exampleClient (server : Region) : SekaiClient where
  Server := server
  Cryptor := exampleCryptor
  lib := exampleLibrary
  hasSession := true
  expandURL := fun path => .ok path
  marshalJSON := fun _ => ""

/-- The example map, packed by the example cryptor. -/
def exampleBody : Bytes :=
  exampleCryptor.newCBC true (PKCS7Pad (Wire.map .fix examplePairs).encode aesBlockSize)

/-- A world whose server gives the listed answers in turn and then `last` for ever,
with every login and re-parse succeeding. -/
def scriptedWorld (script : List (Except ExecError Response)) (last : Except ExecError Response) :
    World where
  execute := fun k => script.getD k last
  login := fun _ => none
  cookies := fun _ => none
  parseVersion := fun _ => none
  parseCookies := fun _ => none

/-! ### The manager (`client/manager.go`) -/

/-- The struct `HarukiSekaiAPIFailedResponse`: the failure envelope. -/
structure HarukiSekaiAPIFailedResponse where
  Result : String
  Status : Int
  Message : String
  deriving DecidableEq, Repr

/-- The first result of `GetGameAPI`: a failure envelope or a decoded body. -/
inductive ApiBody
  | failed (resp : HarukiSekaiAPIFailedResponse)
  | decoded (m : OrderedMap)

/-- The three results of `GetGameAPI`: body, HTTP status and error. -/
structure ApiResult where
  body : ApiBody
  status : Int
  err : Option ClientError

/-- The fields of `SekaiClientManager` that steer dispatch. -/
structure SekaiClientManager where
  Server : Region
  Clients : List SekaiClient
  ClientNo : Int

/-- The method `getClient`: the chosen client with its index, and the manager with
the cursor advanced. -/
def SekaiClientManager.getClient (mgr : SekaiClientManager) :
    Option (Nat × SekaiClient) × SekaiClientManager :=
  if mgr.Clients.length = 0 then (none, mgr)
  else
    let clientNo : Int :=
      if mgr.ClientNo ≥ mgr.Clients.length ∨ mgr.ClientNo < 0 then 0 else mgr.ClientNo
    let idx : Int := clientNo % mgr.Clients.length
    match mgr.Clients.get? idx.toNat with
    | none => (none, { mgr with ClientNo := (idx + 1) % mgr.Clients.length })
    | some c => (some (idx.toNat, c), { mgr with ClientNo := (idx + 1) % mgr.Clients.length })

/-- The text `%v` prints for an error that may be nil. -/
def errorText : Option ClientError → String
  | none => "<nil>"
  | some e => e.message

/-- The empty envelope `HarukiSekaiAPIFailedResponse{}`. -/
def emptyEnvelope : HarukiSekaiAPIFailedResponse := ⟨"", 0, ""⟩

/-- The method `SekaiClientManager.handleUpgradeError`: re-parse the version file. -/
def SekaiClientManager.handleUpgradeError (_mgr : SekaiClientManager) (w : World) (run : Run) :
    (HarukiSekaiAPIFailedResponse × Int × Option ClientError) × Run :=
  let run2 : Run := { run with versionParses := run.versionParses + 1,
                               trace := run.trace ++ [.parseVersion] }
  match w.parseVersion run.versionParses with
  | some err =>
    ((⟨"failed", 503, "Failed to parse version after upgrade: " ++ err.message⟩, 503, some err),
      run2)
  | none => ((emptyEnvelope, 0, none), run2)

/-- The method `SekaiClientManager.parseCookies`: only the JP manager re-parses. -/
def SekaiClientManager.parseCookies (mgr : SekaiClientManager) (w : World) (run : Run) :
    Option ClientError × Run :=
  if mgr.Server = .jp then
    (w.parseCookies run.cookieParses,
      { run with cookieParses := run.cookieParses + 1, trace := run.trace ++ [.parseCookies] })
  else (none, run)

/-- The method `SekaiClientManager.handleSessionError`. -/
def SekaiClientManager.handleSessionError (mgr : SekaiClientManager) (w : World) (run : Run) :
    (HarukiSekaiAPIFailedResponse × Int × Option ClientError) × Run :=
  match mgr.parseCookies w run with
  | (some err, run2) =>
    ((⟨"failed", 403, "Failed to parse cookies: " ++ err.message⟩, 403, some err), run2)
  | (none, run2) => ((emptyEnvelope, 0, none), run2)

/-- The method `processSuccessResponse`. -/
def SekaiClientManager.processSuccessResponse (_mgr : SekaiClientManager) (client : SekaiClient)
    (response : Response) (statusCode : Int) : ApiResult :=
  match client.handleResponse response with
  | .error err => ⟨.failed ⟨"failed", statusCode, err.message⟩, statusCode, some err⟩
  | .ok result => ⟨.decoded result, statusCode, none⟩

/-- The method `handleGetError`; the last component is `shouldReturn`. -/
def SekaiClientManager.handleGetError (mgr : SekaiClientManager) (w : World)
    (getErr : Option ClientError) (retryCount maxRetries : Int) (run : Run) :
    (HarukiSekaiAPIFailedResponse × Int × Option ClientError × Bool) × Run :=
  match getErr with
  | some .upgradeRequired =>
    match mgr.handleUpgradeError w run with
    | ((resp, status, some err), run2) => ((resp, status, some err, true), run2)
    | ((_, _, none), run2) => ((emptyEnvelope, 0, none, false), run2)
  | _ =>
    if retryCount ≥ maxRetries - 1 then
      ((⟨"failed", 500, "Failed to get response: " ++ errorText getErr⟩, 500, getErr, true), run)
    else ((emptyEnvelope, 0, none, false), run)

/-- The retry loop of `GetGameAPI`.  The first argument bounds the iterations, the
second is the budget handed to each `Get`; `none` means a budget was used up. -/
def SekaiClientManager.getLoop (w : World) (fuel : Nat) (path : String) :
    Nat → Int → SekaiClientManager → Run → Option (ApiResult × SekaiClientManager × Run)
  | 0, _, _, _ => none
  | budget + 1, retryCount, mgr, run =>
    if retryCount < maxRetries then
      match mgr.getClient with
      | (none, mgr) =>
        some (⟨.failed ⟨"failed", 500, "No client is available, please try again later."⟩,
          500, none⟩, mgr, run)
      | (some (idx, client), mgr) =>
        match client.Get w fuel path (run.log (.get idx)) with
        | none => none
        | some (res, run) =>
          match res.err, res.response with
          | none, some response =>
            match ParseSekaiApiHttpStatus response.status with
            | .error err =>
              some (⟨.failed ⟨"failed", response.status,
                "Unknown status code: " ++ intToString response.status⟩,
                response.status, some err⟩, mgr, run)
            | .ok statusCode =>
              match statusCode with
              | .GameUpgrade =>
                match mgr.handleUpgradeError w run with
                | ((resp, status, some err), run) =>
                  some (⟨.failed resp, status, some err⟩, mgr, run)
                | ((_, _, none), run) =>
                  SekaiClientManager.getLoop w fuel path budget (retryCount + 1) mgr
                    (run.log .managerSleep)
              | .SessionError =>
                match mgr.handleSessionError w run with
                | ((resp, status, some err), run) =>
                  some (⟨.failed resp, status, some err⟩, mgr, run)
                | ((_, _, none), run) =>
                  SekaiClientManager.getLoop w fuel path budget (retryCount + 1) mgr
                    (run.log .managerSleep)
              | .UnderMaintenance =>
                some (⟨.failed ⟨"failed", 503,
                  mgr.Server.upper ++ " Game server is under maintenance."⟩,
                  503, some .underMaintenance⟩, mgr, run)
              | .Ok =>
                some (mgr.processSuccessResponse client response response.status, mgr, run)
              | _ =>
                some (⟨.failed ⟨"failed", response.status,
                  "Game server API return status code: " ++ intToString response.status⟩,
                  response.status,
                  some (.other ("unexpected status code: " ++ intToString response.status))⟩,
                  mgr, run)
          | getErr, _ =>
            match mgr.handleGetError w getErr retryCount maxRetries run with
            | ((resp, status, err, true), run) => some (⟨.failed resp, status, err⟩, mgr, run)
            | ((_, _, _, false), run) =>
              SekaiClientManager.getLoop w fuel path budget (retryCount + 1) mgr
                (run.log .managerSleep)
    else
      some (⟨.failed ⟨"failed", 500, "Max retry attempts reached"⟩, 500,
        some (.other "max retry attempts reached")⟩, mgr, run)

/-- The method `GetGameAPI`.  Every pass through the loop that does not return
increments the counter, so five iterations are never used up. -/
def SekaiClientManager.GetGameAPI (mgr : SekaiClientManager) (w : World) (fuel : Nat)
    (path : String) (run : Run) : Option (ApiResult × SekaiClientManager × Run) :=
  if mgr.Clients.length = 0 then
    some (⟨.failed ⟨"failed", 500, "No client initialized"⟩, 500, none⟩, mgr, run)
  else SekaiClientManager.getLoop w fuel path 5 0 mgr run

/-- Number of `Get` calls in a trace. -/
def getCount (t : List Event) : Nat :=
  (t.filter (fun e => match e with | .get _ => true | _ => false)).length

/-- Number of one-second sleeps of `GetGameAPI` in a trace. -/
def managerSleepCount (t : List Event) : Nat := t.count .managerSleep

/-- The envelope of a result, when it is one. -/
def ApiResult.envelope (r : ApiResult) : Option HarukiSekaiAPIFailedResponse :=
  match r.body with
  | .failed resp => some resp
  | .decoded _ => none

/-- A TW manager with two example clients. -/
def exampleManager : SekaiClientManager := ⟨.tw, [exampleClient .tw, exampleClient .tw], 0⟩

/-! ### Colliding keys: what a sequence of `Set` calls leaves -/

/-- The distinct strings of a list, each at the position of its first occurrence. -/
def firstOccurrences : List String → List String
  | [] => []
  | k :: ks => k :: (firstOccurrences ks).filter (fun x => x ≠ k)

/-- The value paired with the last occurrence of `k` in a list of entries. -/
def lastValue (entries : List (String × GoVal)) (k : String) : Option GoVal :=
  entries.foldl (fun acc e => if e.1 = k then some e.2 else acc) none

/-- The stringified keys of a wire map paired with the decoded values, in wire order. -/
def Wire.wireEntries (lib : Library) (kvs : List (Wire × Wire)) : List (String × GoVal) :=
  kvs.map (fun kv => (mapKey lib (kv.1.decoded lib), kv.2.decoded lib))

/-- The pairs of a map whose first and last key collide: the integer 1 and the
string `1` have the same stringification. -/
def collidingPairs : List (Wire × Wire) :=
  [(.fixint 1, .str .fix [0x61]),
   (.str .fix [0x78], .nil),
   (.str .fix [0x31], .str .fix [0x62])]

/-! ### Counting in a trace of `CallAPI` -/

/-- The values the retry counter has at the loop tests of a trace. -/
def testValues (t : List Event) : List Int :=
  t.filterMap (fun e => match e with | .test r => some r | _ => none)

/-- Number of places of a list at which the next value is smaller. -/
def descents : List Int → Nat
  | a :: b :: rest => (if b < a then 1 else 0) + descents (b :: rest)
  | _ => 0

/-- Number of decrements of the retry counter in a trace.  `CallAPI` decrements the
counter in one place only: after `handleResponseError` returned `(nil, false)`, which
is the case of a recovery that succeeded. -/
def recoveryCount (t : List Event) : Nat := descents (counterValues t)

/-- The answer to the request with index `k` does not lead to a successful recovery:
if it is a response that `handleResponse` rejects, `handleResponseError` says
`shouldReturn`. -/
def SekaiClient.NoRecovery (c : SekaiClient) (w : World) (k : Nat) : Prop :=
  ∀ (r : Response) (e : ClientError) (run : Run), w.execute k = .ok r →
    c.handleResponse r = .error e → (c.handleResponseError w e r run).1.2 = true

/-- A binary response with the packed example map as body. -/
def exampleResponse (status : Int) : Response :=
  ⟨status, "application/octet-stream", exampleBody, ""⟩

/-- The result is a failure envelope with result `failed` and status 500, returned
with HTTP status 500. -/
def ApiResult.Failed500 (r : ApiResult) : Prop :=
  r.status = 500 ∧ ∃ msg, r.envelope = some ⟨"failed", 500, msg⟩

/-- The failure envelope and error that the `default` branch of `GetGameAPI` builds for
a status code. -/
def unexpectedStatusResult (status : Int) : ApiResult :=
  ⟨.failed ⟨"failed", status, "Game server API return status code: " ++ intToString status⟩,
    status, some (.other ("unexpected status code: " ++ intToString status))⟩

/-- The results of `n` consecutive `getClient` calls, and the manager after them. -/
def SekaiClientManager.getClients :
    Nat → SekaiClientManager → List (Option (Nat × SekaiClient)) × SekaiClientManager
  | 0, mgr => ([], mgr)
  | n + 1, mgr =>
    ((mgr.getClient.1 :: (SekaiClientManager.getClients n mgr.getClient.2).1),
      (SekaiClientManager.getClients n mgr.getClient.2).2)

/-- The client at index `i` of a manager, with that index. -/
def SekaiClientManager.clientAt (mgr : SekaiClientManager) (i : Nat) :
    Option (Nat × SekaiClient) :=
  (mgr.Clients.get? i).map (fun cl => (i, cl))

/-- A TW manager with three example clients and the cursor at the second. -/
def exampleManager3 : SekaiClientManager :=
  ⟨.tw, [exampleClient .tw, exampleClient .kr, exampleClient .cn], 1⟩

/-! ### Restoring compact master data (`client/nuverse.go`) -/

/-- The number written by a list of decimal digits. -/
def digitsToNat (cs : List Char) : Nat :=
  cs.foldl (fun n c => 10 * n + (c.toNat - 48)) 0

/-- The integer written by an optional sign and one or more decimal digits; `none`
for any other text. -/
def parseSigned (s : String) : Option Int :=
  let signed : Bool × List Char :=
    match s.data with
    | '-' :: rest => (true, rest)
    | '+' :: rest => (false, rest)
    | cs => (false, cs)
  if signed.2.isEmpty || !signed.2.all Char.isDigit then none
  else if signed.1 then some (-(digitsToNat signed.2 : Int))
  else some (digitsToNat signed.2 : Int)

/-- The call `strconv.Atoi`: an optional sign and one or more decimal digits, with a
value in the range of the 64-bit `int`; anything else is an error. -/
def atoi (s : String) : Option Int :=
  match parseSigned s with
  | none => none
  | some v => if -(2 ^ 63) ≤ v ∧ v < 2 ^ 63 then some v else none

/-- The conversion `int(t)` of an integer of the given type: values of `uint` and
`uint64` above `MaxInt64` wrap around, every other value is kept. -/
def intOfKind (k : IntKind) (n : Int) : Int :=
  match k with
  | .uint64 => if n ≥ 2 ^ 63 then n - 2 ^ 64 else n
  | .uint => if n ≥ 2 ^ 63 then n - 2 ^ 64 else n
  | _ => n

/-- The conversion `int(t)` of a float: truncation toward zero.  For a value outside
the range of `int`, and for NaN and the infinities, Go leaves the result to the
platform; here it is `MinInt64`, as on amd64. -/
def floatToInt (f : GoFloat) : Int :=
  match f.classify with
  | .finite neg mant exp =>
    let mag : Nat := if 0 ≤ exp then mant * 2 ^ exp.toNat else mant / 2 ^ (-exp).toNat
    let v : Int := if neg then -(mag : Int) else (mag : Int)
    if -(2 ^ 63) ≤ v ∧ v < 2 ^ 63 then v else -(2 ^ 63)
  | _ => -(2 ^ 63)

/-- The function `convertIntType`; `none` is the result `(0, false)`. -/
def convertIntType : GoVal → Option Int
  | .int k n => some (intOfKind k n)
  | _ => none

/-- The function `convertFloatType`. -/
def convertFloatType : GoVal → Option Int
  | .float f => some (floatToInt f)
  | _ => none

/-- The function `convertStringType`. -/
def convertStringType : GoVal → Option Int
  | .str t => atoi t
  | .jsonNumber t => atoi t
  | _ => none

/-- The function `convertValueToIndex`. -/
def convertValueToIndex (v : GoVal) : Int :=
  match convertIntType v with
  | some idx => idx
  | none =>
    match convertFloatType v with
    | some idx => idx
    | none =>
      match convertStringType v with
      | some idx => idx
      | none => -1

/-- The function `mapEnumValue`. -/
def mapEnumValue (v : GoVal) (enumSlice : List GoVal) : GoVal :=
  match v with
  | .nil => .nil
  | v =>
    let idx := convertValueToIndex v
    if 0 ≤ idx ∧ idx < enumSlice.length then enumSlice.getD idx.toNat .nil else v

/-- The value `v` of `v, _ := e.Get(k)`: nil for an absent key. -/
def OrderedMap.getOrNil (e : OrderedMap) (k : String) : GoVal :=
  (OrderedMap.get e k).getD .nil

/-- The function `convertStringEnumToSlice`. -/
def convertStringEnumToSlice (e : OrderedMap) (keys : List String) : List GoVal :=
  keys.map (fun k => OrderedMap.getOrNil e k)

/-- The function `convertNumericEnumToSlice`.  `sort.Slice` is taken as the insertion
sort, which is what it runs on fewer than twelve elements; the order it gives to keys
of equal value is not specified.  The slice is as long as the greatest key value
requires; the limit of `make` is not modelled. -/
def convertNumericEnumToSlice (e : OrderedMap) (keys : List String) (idx : List Int) :
    List GoVal :=
  let order := List.insertionSort (fun i j => idx.getD i 0 ≤ idx.getD j 0)
    (List.range keys.length)
  let kMax := idx.foldl (fun m n => if n > m then n else m) (-1)
  let enumSlice := List.replicate (kMax + 1).toNat GoVal.nil
  order.foldl
    (fun sl oi =>
      let k := keys.getD oi ""
      let v := OrderedMap.getOrNil e k
      let n := idx.getD oi 0
      if 0 ≤ n ∧ n < sl.length then sl.set n.toNat v else sl)
    enumSlice

/-- The loop of `convertEnumToSlice` that parses the keys; `none` when one of them is
not a number. -/
def atoiAll : List String → Option (List Int)
  | [] => some []
  | k :: ks =>
    match atoi k with
    | none => none
    | some n =>
      match atoiAll ks with
      | none => none
      | some ns => some (n :: ns)

/-- The function `convertEnumToSlice`. -/
def convertEnumToSlice (e : OrderedMap) : List GoVal :=
  match atoiAll (OrderedMap.keys e) with
  | some idx => convertNumericEnumToSlice e (OrderedMap.keys e) idx
  | none => convertStringEnumToSlice e (OrderedMap.keys e)

/-- The function `processEnumColumn`. -/
def processEnumColumn (dataColumn : List GoVal) (enumColRaw : GoVal) : List GoVal :=
  match enumColRaw with
  | .arr e => dataColumn.map (fun v => mapEnumValue v e)
  | .omap e => dataColumn.map (fun v => mapEnumValue v (convertEnumToSlice e))
  | _ => dataColumn

/-- The entries of a `map[string]any` put into an ordered map in the order of
`sort.Strings` on the keys. -/
def sortedEntries (em : List (String × GoVal)) : OrderedMap :=
  (List.insertionSort (fun a b => ¬ b.1 < a.1) em).foldl
    (fun om kv => OrderedMap.set om kv.1 kv.2) OrderedMap.new

/-- The function `extractEnumOM`. -/
def extractEnumOM (data : OrderedMap) : Option OrderedMap :=
  match OrderedMap.get data "__ENUM__" with
  | some (.omap em) => some em
  | some (.gomap em) => some (sortedEntries em)
  | _ => none

/-- The column labels of `RestoreCompactData`: the keys without `__ENUM__`. -/
def columnLabels (data : OrderedMap) : List String :=
  (OrderedMap.keys data).filter (fun key => key ≠ "__ENUM__")

/-- The column that `RestoreCompactData` builds for a key. -/
def dataColumn (data : OrderedMap) (enumOM : Option OrderedMap) (key : String) : List GoVal :=
  let column : List GoVal :=
    match OrderedMap.get data key with
    | some (.arr vSlice) => vSlice
    | _ => []
  match enumOM with
  | none => column
  | some em =>
    match OrderedMap.get em key with
    | some enumColRaw => processEnumColumn column enumColRaw
    | none => column

/-- The row with index `i` that `RestoreCompactData` builds from labels and columns. -/
def compactRow (labels : List String) (columns : List (List GoVal)) (i : Nat) : OrderedMap :=
  (labels.zip columns).foldl
    (fun entry kc => OrderedMap.set entry kc.1 (if i < kc.2.length then kc.2.getD i .nil else .nil))
    OrderedMap.new

/-- The function `RestoreCompactData`. -/
def RestoreCompactData (data : OrderedMap) : List OrderedMap :=
  let enumOM := extractEnumOM data
  let labels := columnLabels data
  let columns := labels.map (dataColumn data enumOM)
  match columns with
  | [] => []
  | c0 :: _ =>
    let numEntries := columns.foldl (fun m col => if col.length < m then col.length else m)
      c0.length
    (List.range numEntries).map (compactRow labels columns)

/-! ### Restoring tuples (`RestoreDict`) -/

/-- The function `extractTupleKeys`; `none` is the nil slice. -/
def extractTupleKeys (v : GoVal) : Option (List GoVal) :=
  match v with
  | .omap s =>
    match OrderedMap.get s "__tuple__" with
    | some (.arr keys) => some keys
    | _ => none
  | .omapValue s =>
    match OrderedMap.get s "__tuple__" with
    | some (.arr keys) => some keys
    | _ => none
  | .gomap s =>
    match OrderedMap.get s "__tuple__" with
    | some (.arr keys) => some keys
    | _ => none
  | _ => none

/-- The body of the loop of `buildDictFromTuple` for the key and value at one
position. -/
def tupleStep (dict : OrderedMap) (kv : GoVal × GoVal) : OrderedMap :=
  match kv.2, kv.1 with
  | .nil, _ => dict
  | v, .str keyStr => OrderedMap.set dict keyStr v
  | _, _ => dict

/-- The function `buildDictFromTuple`: the loop stops at the end of the shorter
list. -/
def buildDictFromTuple (tupleKeys tupleVals : List GoVal) : OrderedMap :=
  (tupleKeys.zip tupleVals).foldl tupleStep OrderedMap.new

/-- The function `handleSimpleTuple`; `none` is the result `(nil, false)`. -/
def handleSimpleTuple (keyStructure arrayData : List GoVal) : Option OrderedMap :=
  match keyStructure with
  | [.str keyName, second] =>
    match extractTupleKeys second with
    | none => none
    | some tupleKeys =>
      let tupleVals : List GoVal :=
        match arrayData with
        | [.arr innerArr] => innerArr
        | _ => arrayData
      some (OrderedMap.set OrderedMap.new keyName (.omap (buildDictFromTuple tupleKeys tupleVals)))
  | _ => none

/-- The function `processTupleField`; `none` is the nil map. -/
def processTupleField (second : GoVal) (arrayData : List GoVal) (i : Nat) : Option OrderedMap :=
  match extractTupleKeys second with
  | none => none
  | some tupleKeys =>
    match arrayData.get? i with
    | some (.arr tupleVals) => some (buildDictFromTuple tupleKeys tupleVals)
    | _ => none

/-- The type assertion `v.([]interface{})`; `none` when it fails. -/
def GoVal.asList : GoVal → Option (List GoVal)
  | .arr xs => some xs
  | _ => none

/-- The sub-lists that the loop of `processNestedArray` visits: the elements of
`arrayData[i]` that are lists. -/
def nestedRows (arrayData : List GoVal) (i : Nat) : List (List GoVal) :=
  match arrayData.get? i with
  | some (.arr arr) => arr.filterMap GoVal.asList
  | _ => []

mutual
/-- The loop of `RestoreDict` over the key structure, from position `i` on. -/
def restoreKeys (arrayData : List GoVal) (i : Nat) (keys : List GoVal) (result : OrderedMap) :
    OrderedMap :=
  match keys with
  | [] => result
  | key :: rest => restoreKeys arrayData (i + 1) rest (restoreKey arrayData i key result)
termination_by structural keys
/-- The body of the loop of `RestoreDict` for the element `key`: the type switch. -/
def restoreKey (arrayData : List GoVal) (i : Nat) (key : GoVal) (result : OrderedMap) :
    OrderedMap :=
  match key with
  | .str k =>
    match arrayData.get? i with
    | none => result
    | some .nil => result
    | some v => OrderedMap.set result k v
  | .arr k => restorePair arrayData i k result
  | _ => result
termination_by structural key
/-- The case of a list `k` in the loop of `RestoreDict`: it needs two elements, the
first a string. -/
def restorePair (arrayData : List GoVal) (i : Nat) (k : List GoVal) (result : OrderedMap) :
    OrderedMap :=
  match k with
  | .str keyName :: second :: _ => restoreSecond arrayData i keyName second result
  | _ => result
termination_by structural k
/-- The type switch on `k[1]` in the loop of `RestoreDict`. -/
def restoreSecond (arrayData : List GoVal) (i : Nat) (keyName : String) (second : GoVal)
    (result : OrderedMap) : OrderedMap :=
  match second with
  | .arr second =>
    OrderedMap.set result keyName
      (.omapSlice ((nestedRows arrayData i).map (fun subArr => restoreNested subArr second)))
  | .omap s =>
    match processTupleField (.omap s) arrayData i with
    | some dict => OrderedMap.set result keyName (.omap dict)
    | none => result
  | .omapValue s =>
    match processTupleField (.omapValue s) arrayData i with
    | some dict => OrderedMap.set result keyName (.omap dict)
    | none => result
  | .gomap s =>
    match processTupleField (.gomap s) arrayData i with
    | some dict => OrderedMap.set result keyName (.omap dict)
    | none => result
  | _ => result
termination_by structural second
/-- The body of the loop of `processNestedArray` for the sub-list `subArr`: the
structure is `second[0]` when that is a list of two or more elements, else `second`. -/
def restoreNested (subArr : List GoVal) (second : List GoVal) : OrderedMap :=
  match second with
  | [] => OrderedMap.new
  | first :: rest =>
    match restoreInner subArr first with
    | some r => r
    | none =>
      match handleSimpleTuple (first :: rest) subArr with
      | some r => r
      | none => restoreKeys subArr 1 rest (restoreKey subArr 0 first OrderedMap.new)
termination_by structural second
/-- The call `RestoreDict(subArr, innerStruct)` of `processNestedArray`, made when
`second[0]` is a list of two or more elements. -/
def restoreInner (subArr : List GoVal) (first : GoVal) : Option OrderedMap :=
  match first with
  | .arr innerStruct =>
    if innerStruct.length ≥ 2 then
      match handleSimpleTuple innerStruct subArr with
      | some r => some r
      | none => some (restoreKeys subArr 0 innerStruct OrderedMap.new)
    else none
  | _ => none
termination_by structural first
end

/-- The function `RestoreDict`. -/
def RestoreDict (arrayData keyStructure : List GoVal) : OrderedMap :=
  match handleSimpleTuple keyStructure arrayData with
  | some simpleResult => simpleResult
  | none => restoreKeys arrayData 0 keyStructure OrderedMap.new

/-- The function `processNestedArray`. -/
def processNestedArray (arrayData : List GoVal) (i : Nat) (second : List GoVal) :
    List OrderedMap :=
  (nestedRows arrayData i).map (fun subArr =>
    match second with
    | .arr innerStruct :: _ =>
      if innerStruct.length ≥ 2 then RestoreDict subArr innerStruct
      else RestoreDict subArr second
    | _ => RestoreDict subArr second)

/-! ### Structured data and merging by id (`client/nuverse.go`) -/

/-- The function `restoreStructuredData`: the returned value and the master map after
the call. -/
def restoreStructuredData (key : String) (value : GoVal) (structures masterData : OrderedMap) :
    GoVal × OrderedMap :=
  match OrderedMap.get structures key with
  | none => (value, masterData)
  | some structDefVal =>
    match value with
    | .arr arr =>
      match structDefVal with
      | .arr structDef =>
        let newArr : List OrderedMap :=
          arr.filterMap (fun v => v.asList.map (fun subArr => RestoreDict subArr structDef))
        if newArr.length = 0 ∧ arr.length > 0 then (value, masterData)
        else (.omapSlice newArr, OrderedMap.set masterData key (.omapSlice newArr))
      | _ => (value, masterData)
    | _ => (value, masterData)

/-- The function `toInt64`. -/
def toInt64 : GoVal → Int
  | .int .int n => n
  | .int .int32 n => n
  | .int .int64 n => n
  | .int .uint n => if n ≥ 2 ^ 63 then n - 2 ^ 64 else n
  | .int .uint32 n => n
  | .int .uint64 n => if n > 2 ^ 63 - 1 then 2 ^ 63 - 1 else n
  | .float (.f64 bits) => floatToInt (.f64 bits)
  | _ => 0

/-- Equality of two ids as keys of the Go map `map[any]bool`: the same dynamic type
and the same value.  Two map or slice values are never found equal here (a pointer is
compared by identity; a slice key makes Go panic, which is not modelled); floats are
compared by bit pattern. -/
def idEq : GoVal → GoVal → Bool
  | .nil, .nil => true
  | .bool a, .bool b => a == b
  | .int k n, .int k2 n2 => k == k2 && n == n2
  | .float f, .float g => f == g
  | .str a, .str b => a == b
  | .jsonNum a, .jsonNum b => a == b
  | .jsonNumber a, .jsonNumber b => a == b
  | _, _ => false

/-- The function `extractValueIDs`: the ids that are keys of the returned map. -/
def extractValueIDs (arr : List OrderedMap) (idKey : String) : List GoVal :=
  arr.filterMap (fun item => OrderedMap.get item idKey)

/-- The function `convertToOrderedMap`; `none` is the nil map. -/
def convertToOrderedMap : GoVal → Option OrderedMap
  | .omap t => some t
  | .gomap t => some (sortedEntries t)
  | _ => none

/-- The entries of the prior value that `mergeAndSortData` keeps: the maps that have
an id which is not among `valueIDs`. -/
def keptPrior (value : GoVal) (valueIDs : List GoVal) (idKey : String) : List OrderedMap :=
  match value with
  | .arr vs =>
    vs.filterMap (fun x =>
      match convertToOrderedMap x with
      | none => none
      | some m =>
        match OrderedMap.get m idKey with
        | none => none
        | some id => if valueIDs.any (idEq id) then none else some m)
  | _ => []

/-- The function `mergeAndSortData`; `sort.SliceStable` is the stable insertion
sort. -/
def mergeAndSortData (value : GoVal) (arr : List OrderedMap) (valueIDs : List GoVal)
    (idKey : String) : List OrderedMap :=
  List.insertionSort
    (fun a b => toInt64 (OrderedMap.getOrNil a idKey) ≤ toInt64 (OrderedMap.getOrNil b idKey))
    (keptPrior value valueIDs idKey ++ arr)

/-- The function `handleIDMerging`: the master map after the call. -/
def handleIDMerging (key : String) (value : GoVal) (idKey : String) (masterData : OrderedMap) :
    OrderedMap :=
  if idKey = "" then masterData
  else
    match OrderedMap.get masterData key with
    | some (.omapSlice arr) =>
      if arr.length = 0 then masterData
      else
        OrderedMap.set masterData key
          (.omapSlice (mergeAndSortData value arr (extractValueIDs arr idKey) idKey))
    | _ => masterData

/-- The conversion `string(b)` of a byte `b`: the UTF-8 encoding of the code point `b`,
one character per byte of the result. -/
def byteToString (b : Nat) : List Char :=
  if b < 128 then [Char.ofNat b]
  else [Char.ofNat (192 + b / 64), Char.ofNat (128 + b % 64)]

/-- The expression `string(newKeyOriginal[0]+32) + newKeyOriginal[1:]`, for a
non-empty `newKeyOriginal`; byte addition wraps at 256. -/
def restoredKey (newKeyOriginal : List Char) : String :=
  match newKeyOriginal with
  | [] => ""
  | c :: rest => String.mk (byteToString ((c.toNat + 32) % 256) ++ rest)

/-- The test `len(key) >= 7 && key[:7] == "compact"`. -/
def isCompactKey (key : String) : Bool :=
  decide (key.data.length ≥ 7) && decide (key.data.take 7 = "compact".data)

/-- The state of `NuverseMasterRestorer`: the master map, which it updates in place,
the map it builds, and the keys marked in `restoredFromCompact`. -/
structure RestorerState where
  masterData : OrderedMap
  restoredCompactMaster : OrderedMap
  restoredFromCompact : List String

/-- The body of the first loop of `NuverseMasterRestorer`. -/
def restoreCompactKey (st : RestorerState) (key : String) : RestorerState :=
  let value := OrderedMap.getOrNil st.masterData key
  if key.data.length = 0 then st
  else if ¬ isCompactKey key then st
  else
    let st := { st with restoredCompactMaster := OrderedMap.set st.restoredCompactMaster key value }
    match value with
    | .omap vOm =>
      let data := RestoreCompactData vOm
      let newKeyOriginal := key.data.drop 7
      if newKeyOriginal.length > 0 then
        let newKey := restoredKey newKeyOriginal
        let idKey := if newKey = "eventCards" then "cardId" else ""
        if idKey ≠ "" then
          let masterData := OrderedMap.set st.masterData newKey (.omapSlice data)
          let masterData := handleIDMerging newKey (.omapSlice data) idKey masterData
          let structuredData := OrderedMap.getOrNil masterData newKey
          { masterData := masterData
            restoredCompactMaster := OrderedMap.set st.restoredCompactMaster newKey structuredData
            restoredFromCompact := newKey :: st.restoredFromCompact }
        else
          { st with
            restoredCompactMaster := OrderedMap.set st.restoredCompactMaster newKey (.omapSlice data)
            restoredFromCompact := newKey :: st.restoredFromCompact }
      else st
    | _ => st

/-- The body of the second loop of `NuverseMasterRestorer`. -/
def restoreStructuredKey (structures : OrderedMap) (st : RestorerState) (key : String) :
    RestorerState :=
  let value := OrderedMap.getOrNil st.masterData key
  if key.data.length = 0 then st
  else if isCompactKey key then st
  else if key ∈ st.restoredFromCompact then st
  else
    let idKey := if key = "eventCards" then "cardId" else ""
    let restored := restoreStructuredData key value structures st.masterData
    let masterData := handleIDMerging key restored.1 idKey restored.2
    match OrderedMap.get masterData key with
    | some finalValue =>
      { st with masterData := masterData
                restoredCompactMaster := OrderedMap.set st.restoredCompactMaster key finalValue }
    | none =>
      { st with masterData := masterData
                restoredCompactMaster := OrderedMap.set st.restoredCompactMaster key restored.1 }

/-- The function `NuverseMasterRestorer`, given the structures that `loadStructures`
read: the map it returns. -/
def NuverseMasterRestorer (masterData structures : OrderedMap) : OrderedMap :=
  let masterDataKeys := OrderedMap.keys masterData
  let st := masterDataKeys.foldl restoreCompactKey ⟨masterData, OrderedMap.new, []⟩
  (masterDataKeys.foldl (restoreStructuredKey structures) st).restoredCompactMaster

/-- The elements of a value that is a list, none for any other value. -/
def GoVal.elems : GoVal → List GoVal
  | .arr xs => xs
  | _ => []

/-- The cell that a row with index `i` takes from a column: its `i`-th element, nil
beyond its end. -/
def cellAt (i : Nat) (col : List GoVal) : GoVal :=
  if i < col.length then col.getD i .nil else .nil

/-- The compact map of the specification's enum example, with a ragged fourth cell. -/
def enumExample : OrderedMap :=
  [("__ENUM__", .omap [("b", .arr [.str "A", .str "B", .str "C"])]),
   ("a", .arr [.int .int8 1, .int .int8 2, .int .int8 3]),
   ("b", .arr [.int .int8 0, .str "1", .int .uint64 2, .int .int8 7])]

/-- The keys of an enum mapping are all numbers, of pairwise distinct values. -/
def OrderedMap.NumericKeys (e : OrderedMap) : Prop :=
  (∀ key ∈ OrderedMap.keys e, ∃ n, atoi key = some n) ∧ ((OrderedMap.keys e).map atoi).Nodup

/-- An enum mapping with a gap: the keys 0 and 2. -/
def gapEnum : OrderedMap := [("2", .str "C"), ("0", .str "A")]

/-- An enum mapping with a negative key. -/
def negativeEnum : OrderedMap := [("-1", .str "neg"), ("0", .str "zero")]

/-- The value is the nil interface. -/
def GoVal.isNil : GoVal → Bool
  | .nil => true
  | _ => false

/-- The positional reading of the specification: the names paired with the values at
the same positions, up to the end of the shorter list, without the nil values. -/
def positionalFields (names : List String) (values : List GoVal) : OrderedMap :=
  (names.zip values).filter (fun kv => !kv.2.isNil)

/-- The key structure that `processNestedArray` restores the sub-lists against: the
first element of `second` when that is a list of two or more elements, else `second`
itself. -/
def nestedStructure (second : List GoVal) : List GoVal :=
  match second with
  | .arr innerStruct :: _ => if innerStruct.length ≥ 2 then innerStruct else second
  | _ => second

/-- The key that an element of a key structure can set in the result of `RestoreDict`:
a string is its own name, a list of two or more elements names its first element when
that is a string. -/
def keyName : GoVal → Option String
  | .str k => some k
  | .arr (.str k :: _ :: _) => some k
  | _ => none

/-- The number by which `mergeAndSortData` orders a map: `toInt64` of its id. -/
def sortKey (idKey : String) (m : OrderedMap) : Int :=
  toInt64 (OrderedMap.getOrNil m idKey)

/-- A master payload with a prior `eventCards` list of one record and a compact entry
with one row of another id. -/
def eventCardsExample : OrderedMap :=
  [("eventCards", .arr [.omap [("cardId", .int .int8 1), ("x", .str "old")]]),
   ("compactEventCards", .omap [("cardId", .arr [.int .int8 2]), ("x", .arr [.str "new"])])]

/-! ### The user id of a login response (`client/clientcall.go`) -/

/-- The text that `%T` prints for a value. -/
def typeName : GoVal → String
  | .nil => "<nil>"
  | .bool _ => "bool"
  | .int .int8 _ => "int8"
  | .int .int16 _ => "int16"
  | .int .int32 _ => "int32"
  | .int .int64 _ => "int64"
  | .int .uint8 _ => "uint8"
  | .int .uint16 _ => "uint16"
  | .int .uint32 _ => "uint32"
  | .int .uint64 _ => "uint64"
  | .int .int _ => "int"
  | .int .uint _ => "uint"
  | .float (.f32 _) => "float32"
  | .float (.f64 _) => "float64"
  | .jsonNum _ => "orderedmsgpack.JSONNum"
  | .str _ => "string"
  | .bytes _ => "[]uint8"
  | .arr _ => "[]interface {}"
  | .omap _ => "*orderedmap.OrderedMap"
  | .omapValue _ => "orderedmap.OrderedMap"
  | .gomap _ => "map[string]interface {}"
  | .omapSlice _ => "[]*orderedmap.OrderedMap"
  | .jsonNumber _ => "json.Number"

/-- The function `extractUserID`. -/
def extractUserID : GoVal → Except String String
  | .str v => .ok v
  | .int .int64 v => .ok (intToString v)
  | .int .uint64 v => .ok (intToString v)
  | .int .int v => .ok (intToString v)
  | .float (.f64 bits) => .ok (intToString (floatToInt (.f64 bits)))
  | v => .error ("unexpected userId type " ++ typeName v)

/-! ### The photo of a Nuverse account (`client/clientcall.go`) -/

/-- What the `any` that `handleResponse` returns can hold, as far as
`GetNuverseMySekaiImage` tells values apart: the pointer `&unpackResponse`, whose type
is `**orderedmap.OrderedMap`, or a non-nil `*interface{}` with the value it points
to. -/
inductive ResponseValue
  | orderedMapPtrPtr (m : OrderedMap)
  | interfacePtr (v : GoVal)

/-- The value `handleResponse` returns besides its error: for every accepted response
it is `&unpackResponse`. -/
def SekaiClient.handleResponseAny (c : SekaiClient) (response : Response) :
    Except ClientError ResponseValue :=
  match c.handleResponse response with
  | .error e => .error e
  | .ok unpackResponse => .ok (.orderedMapPtrPtr unpackResponse)

/-- The errors of `GetNuverseMySekaiImage`: one passed on from the client, one made
with `fmt.Errorf`, or the nil dereference of `*responseRaw`. -/
inductive ImageError
  | client (e : ClientError)
  | message (msg : String)
  | nilDereference

/-- The method `GetNuverseMySekaiImage`; `base64Decode` is
`base64.StdEncoding.DecodeString`. -/
def SekaiClient.GetNuverseMySekaiImage (c : SekaiClient) (w : World)
    (base64Decode : String → Except String Bytes) (fuel : Nat) (userID index : String)
    (run : Run) : Option (Except ImageError Bytes × Run) :=
  match c.Get w fuel ("/user/" ++ userID ++ "/mysekai/photo/" ++ index) run with
  | none => none
  | some (res, run) =>
    match res.err with
    | some err => some (.error (.client err), run)
    | none =>
      match res.response with
      | none => some (.error .nilDereference, run)
      | some responseRaw =>
        match c.handleResponseAny responseRaw with
        | .error err => some (.error (.client err), run)
        | .ok (.interfacePtr (.gomap m)) =>
          let b64 : String :=
            match OrderedMap.get m "thumbnail" with
            | some (.str s) => s
            | _ => ""
          if b64 = "" then some (.error (.message "missing thumbnail base64 in response"), run)
          else
            match base64Decode b64 with
            | .error e =>
              some (.error (.message ("decode thumbnail base64 failed: " ++ e)), run)
            | .ok img => some (.ok img, run)
        | .ok (.interfacePtr inner) =>
          some (.error (.message ("unexpected inner type: " ++ typeName inner)), run)
        | .ok (.orderedMapPtrPtr _) =>
          some (.error (.message "unexpected response type: **orderedmap.OrderedMap"), run)

/-- A response map with a thumbnail: the base64 text `AQID` of the bytes 1, 2, 3. -/
def thumbnailPairs : List (Wire × Wire) :=
  [(.str .fix [0x74, 0x68, 0x75, 0x6d, 0x62, 0x6e, 0x61, 0x69, 0x6c],
    .str .fix [0x41, 0x51, 0x49, 0x44])]

/-- The thumbnail map, packed by the example cryptor. -/
def thumbnailBody : Bytes :=
  exampleCryptor.newCBC true (PKCS7Pad (Wire.map .fix thumbnailPairs).encode aesBlockSize)

/-- A decoder for the example: it knows the text `AQID`. -/
def exampleBase64 (s : String) : Except String Bytes :=
  if s = "AQID" then .ok [1, 2, 3] else .error "illegal base64 data"

/-! ### The version file of the app-hash updater (`utils/apphash/apphash.go`) -/

/-- The struct `HarukiSekaiAppInfo`. -/
structure HarukiSekaiAppInfo where
  AppVersion : String
  AppHash : String

/-- The outcome of `os.ReadFile`. -/
inductive ReadOutcome
  | content (b : Bytes)
  | notExist
  | failed (msg : String)

/-- The file system and the JSON library as `SaveNewAppHash` uses them: the error of
`os.MkdirAll`, the outcome of `os.ReadFile`, the map `om` after
`sonic.Unmarshal(b, om)`, the result of `sonic.MarshalIndent`, and the error of
`os.WriteFile`. -/
structure SaveEnv where
  mkdirAll : Option String
  readFile : ReadOutcome
  unmarshal : Bytes → OrderedMap → OrderedMap
  marshalIndent : OrderedMap → Except String Bytes
  writeFile : Bytes → Option String

/-- What `SaveNewAppHash` does: the error it returns, the map it marshals, and the
bytes it hands to `os.WriteFile`. -/
structure SaveOutcome where
  err : Option String
  marshalled : Option OrderedMap
  written : Option Bytes

/-- The method `SaveNewAppHash`. -/
def SaveNewAppHash (env : SaveEnv) (app : HarukiSekaiAppInfo) : SaveOutcome :=
  match env.mkdirAll with
  | some err => ⟨some err, none, none⟩
  | none =>
    let loaded : Except String OrderedMap :=
      match env.readFile with
      | .content b => if b.length > 0 then .ok (env.unmarshal b OrderedMap.new) else .ok OrderedMap.new
      | .notExist => .ok OrderedMap.new
      | .failed msg => .error msg
    match loaded with
    | .error err => ⟨some err, none, none⟩
    | .ok om =>
      let om := OrderedMap.set om "appVersion" (.str app.AppVersion)
      let om := OrderedMap.set om "appHash" (.str app.AppHash)
      match env.marshalIndent om with
      | .error err => ⟨some err, some om, none⟩
      | .ok raw => ⟨env.writeFile raw, some om, some raw⟩

/-! ### The updater tick (`client/updater.go`, `utils/utils.go`) -/

/-- The fields of `HarukiSekaiLoginResponse` that the updater reads;
`SuiteMasterSplitPath` is `none` for the nil slice. -/
structure HarukiSekaiLoginResponse where
  DataVersion : String
  AssetVersion : String
  AssetHash : String
  SuiteMasterSplitPath : Option (List String)
  CDNVersion : Int

/-- Library calls of the updater: `version.NewVersion` with `GreaterThan` as used by
`CompareVersion`, the verb `%g` of `fmt.Sprintf`, and `fmt.Sscanf(t, "%d", &n)`. -/
structure UpdaterLibrary where
  compareVersion : String → String → Except String Bool
  formatG : GoFloat → String
  sscanInt : String → Option Int

/-- The function `CompareVersion`. -/
def CompareVersion (lib : UpdaterLibrary) (newVersion currentVersion : String) :
    Except String Bool :=
  lib.compareVersion newVersion currentVersion

/-- The function `GetString`; of the values a map holds only a `json.Number` is a
`fmt.Stringer`. -/
def GetString (lib : UpdaterLibrary) (om : OrderedMap) (key : String) : String :=
  match OrderedMap.get om key with
  | some (.str t) => t
  | some (.jsonNumber t) => t
  | some (.int .int t) => intToString t
  | some (.int .int64 t) => intToString t
  | some (.float (.f64 bits)) => lib.formatG (.f64 bits)
  | _ => ""

/-- The function `GetInt`. -/
def GetInt (lib : UpdaterLibrary) (om : OrderedMap) (key : String) : Int :=
  match OrderedMap.get om key with
  | some (.int .int t) => t
  | some (.int .int64 t) => t
  | some (.float (.f64 bits)) => floatToInt (.f64 bits)
  | some (.str t) =>
    match lib.sscanInt t with
    | some n => n
    | none => 0
  | _ => 0

/-- The method `checkCPServerVersions`: `(requireUpdateMasterData, requireUpdateAsset,
splitMasterDataList)` or the error. -/
def checkCPServerVersions (lib : UpdaterLibrary) (loginResponse : HarukiSekaiLoginResponse)
    (currentLocalVersion : OrderedMap) : Except String (Bool × Bool × List String) :=
  let currentLocalDataVersion := GetString lib currentLocalVersion "dataVersion"
  let currentLocalAssetVersion := GetString lib currentLocalVersion "assetVersion"
  match CompareVersion lib loginResponse.DataVersion currentLocalDataVersion with
  | .error err => .error err
  | .ok newerData =>
    let splitMasterDataList : List String :=
      if newerData then loginResponse.SuiteMasterSplitPath.getD [] else []
    match CompareVersion lib loginResponse.AssetVersion currentLocalAssetVersion with
    | .error err => .error err
    | .ok newerAsset => .ok (newerData, newerAsset, splitMasterDataList)

/-- The method `checkNuverseServerVersions`. -/
def checkNuverseServerVersions (lib : UpdaterLibrary) (loginResponse : HarukiSekaiLoginResponse)
    (currentLocalVersion : OrderedMap) : Bool × Bool × Int :=
  let currentLocalCDNVersion := GetInt lib currentLocalVersion "cdnVersion"
  let currentServerCDNVersion := loginResponse.CDNVersion
  if currentLocalCDNVersion < currentServerCDNVersion then (true, true, currentServerCDNVersion)
  else (false, false, currentServerCDNVersion)

/-- The files `saveVersionFiles` writes: the version file and the snapshot
`<dataVersion>.json` beside it. -/
inductive VersionTarget
  | versionFile
  | snapshot (dataVersion : String)
  deriving DecidableEq, Repr

/-- The surroundings of one updater tick: the result of `loadVersionFile`, the result
of `Login`, whether the `updateMasterData` that the tick starts in the background
completes (fetching, restoring and writing the master data all succeed), and the
error of the `k`-th `saveFile`. -/
structure UpdaterWorld where
  loadVersionFile : Except String OrderedMap
  login : Except ClientError HarukiSekaiLoginResponse
  masterUpdateSucceeds : Bool
  saveFile : Nat → Option String

/-- What a tick has done: the goroutines it started, whether the master-data update it
started completes, and the files it wrote with their content, in order. -/
structure TickOutcome where
  assetUpdateStarted : Bool
  masterUpdateStarted : Bool
  masterUpdateCompleted : Bool
  written : List (VersionTarget × OrderedMap)

/-- The tick that does nothing. -/
def TickOutcome.idle : TickOutcome := ⟨false, false, false, []⟩

/-- The method `saveVersionFiles`: the files written. -/
def saveVersionFiles (w : UpdaterWorld) (currentLocalVersion : OrderedMap)
    (currentServerDataVersion : String) : List (VersionTarget × OrderedMap) :=
  match w.saveFile 0 with
  | some _ => []
  | none =>
    match w.saveFile 1 with
    | some _ => [(.versionFile, currentLocalVersion)]
    | none =>
      [(.versionFile, currentLocalVersion),
       (.snapshot currentServerDataVersion, currentLocalVersion)]

/-- The version map that the tick saves: the local one with the server's versions
set. -/
def newLocalVersion (server : Region) (currentLocalVersion : OrderedMap)
    (loginResponse : HarukiSekaiLoginResponse) (currentServerCDNVersion : Int) : OrderedMap :=
  let v := OrderedMap.set currentLocalVersion "dataVersion" (.str loginResponse.DataVersion)
  let v := OrderedMap.set v "assetVersion" (.str loginResponse.AssetVersion)
  let v := OrderedMap.set v "assetHash" (.str loginResponse.AssetHash)
  if server ≠ .jp ∧ server ≠ .en then
    OrderedMap.set v "cdnVersion" (.int .int currentServerCDNVersion)
  else v

/-- The branch of `CheckSekaiMasterUpdate` on the region:
`(requireUpdateMasterData, requireUpdateAsset, currentServerCDNVersion)`, or the error
of `checkCPServerVersions`. -/
def SekaiClientManager.checkServerVersions (mgr : SekaiClientManager) (lib : UpdaterLibrary)
    (loginResponse : HarukiSekaiLoginResponse) (currentLocalVersion : OrderedMap) :
    Except String (Bool × Bool × Int) :=
  if mgr.Server = .jp ∨ mgr.Server = .en then
    match checkCPServerVersions lib loginResponse currentLocalVersion with
    | .error err => .error err
    | .ok r => .ok (r.1, r.2.1, 0)
  else .ok (checkNuverseServerVersions lib loginResponse currentLocalVersion)

/-- The end of `CheckSekaiMasterUpdate`, from the two `go` statements on. -/
def SekaiClientManager.startAndSave (mgr : SekaiClientManager) (w : UpdaterWorld)
    (currentLocalVersion : OrderedMap) (loginResponse : HarukiSekaiLoginResponse)
    (requireUpdateMasterData requireUpdateAsset : Bool) (currentServerCDNVersion : Int) :
    TickOutcome :=
  { assetUpdateStarted := requireUpdateAsset
    masterUpdateStarted := requireUpdateMasterData
    masterUpdateCompleted := requireUpdateMasterData && w.masterUpdateSucceeds
    written :=
      if requireUpdateMasterData ∨ requireUpdateAsset then
        saveVersionFiles w
          (newLocalVersion mgr.Server currentLocalVersion loginResponse currentServerCDNVersion)
          loginResponse.DataVersion
      else [] }

/-- The method `CheckSekaiMasterUpdate`.  The two updates are started with `go`; the
tick neither waits for them nor receives a result from them. -/
def SekaiClientManager.CheckSekaiMasterUpdate (mgr : SekaiClientManager)
    (lib : UpdaterLibrary) (w : UpdaterWorld) : TickOutcome :=
  match w.loadVersionFile with
  | .error _ => TickOutcome.idle
  | .ok currentLocalVersion =>
    match mgr.getClient.1 with
    | none => TickOutcome.idle
    | some _ =>
      match w.login with
      | .error _ => TickOutcome.idle
      | .ok loginResponse =>
        match mgr.checkServerVersions lib loginResponse currentLocalVersion with
        | .error _ => TickOutcome.idle
        | .ok r => mgr.startAndSave w currentLocalVersion loginResponse r.1 r.2.1 r.2.2

/-- A library for examples: a version is newer when it differs. -/
def exampleUpdaterLibrary : UpdaterLibrary :=
  ⟨fun a b => .ok (decide (a ≠ b)), fun _ => "", fun _ => none⟩

/-- A tick that finds the data version 2 on the server while the version file says 1,
and whose master-data update fails. -/
def failingUpdateWorld : UpdaterWorld :=
  ⟨.ok [("dataVersion", .str "1"), ("assetVersion", .str "1")],
   .ok ⟨"2", "1", "h", none, 0⟩, false, fun _ => none⟩

/-! ## Part II. Theorems -/

/-! ### Length validation of `UnpackInto` -/

theorem UnpackInto_of_length (c : SekaiCryptor) (lib : Library) (b : Bytes) (out : OutTarget)
    (h0 : b.length ≠ 0) (hm : b.length % aesBlockSize = 0) :
    c.UnpackInto lib b out ≠ .error .ErrEmptyContent ∧
    c.UnpackInto lib b out ≠ .error .ErrInvalidBlockSize := by
  unfold SekaiCryptor.UnpackInto
  rw [if_neg h0, if_neg (by simpa using hm)]
  cases out <;> simp only [reduceCtorEq, if_true, if_false]
  · simp
  all_goals
    cases PKCS7Unpad (c.newCBC false b) with
    | error e => simp
    | ok u =>
      simp only []
      constructor <;> (split <;> simp)

theorem UnpackInto_eq_empty_iff (c : SekaiCryptor) (lib : Library) (b : Bytes) (out : OutTarget) :
    c.UnpackInto lib b out = .error .ErrEmptyContent ↔ b.length = 0 := by
  constructor
  · intro h
    by_contra h0
    by_cases hm : b.length % aesBlockSize = 0
    · exact (UnpackInto_of_length c lib b out h0 hm).1 h
    · unfold SekaiCryptor.UnpackInto at h
      rw [if_neg h0, if_pos hm] at h
      cases h
  · intro h
    unfold SekaiCryptor.UnpackInto
    rw [if_pos h]

theorem UnpackInto_eq_blockSize_iff (c : SekaiCryptor) (lib : Library) (b : Bytes) (out : OutTarget) :
    c.UnpackInto lib b out = .error .ErrInvalidBlockSize ↔
      b.length ≠ 0 ∧ b.length % aesBlockSize ≠ 0 := by
  constructor
  · intro h
    by_cases h0 : b.length = 0
    · unfold SekaiCryptor.UnpackInto at h
      rw [if_pos h0] at h; cases h
    · refine ⟨h0, fun hm => (UnpackInto_of_length c lib b out h0 hm).2 h⟩
  · rintro ⟨h0, hm⟩
    unfold SekaiCryptor.UnpackInto
    rw [if_neg h0, if_pos hm]

theorem UnpackOrdered_eq_error_iff (c : SekaiCryptor) (lib : Library) (b : Bytes) (e : CodecError) :
    c.UnpackOrdered lib b = .error e ↔ c.UnpackInto lib b .orderedMap = .error e := by
  unfold SekaiCryptor.UnpackOrdered
  cases h : c.UnpackInto lib b .orderedMap with
  | error e2 => simp
  | ok v => cases v <;> simp

/-- Claim C4.  `Unpack`, `UnpackInto` and `UnpackOrdered` fail with `ErrEmptyContent`
exactly on the empty input and with `ErrInvalidBlockSize` exactly on a non-empty
input whose length is not a multiple of 16; on such inputs the outcome is the same
for every cipher, so it is decided from the length before any decryption. -/
theorem unpack_length_validation (c : SekaiCryptor) (lib : Library) (b : Bytes) :
    (∀ out, c.UnpackInto lib b out = .error .ErrEmptyContent ↔ b.length = 0) ∧
    (∀ out, c.UnpackInto lib b out = .error .ErrInvalidBlockSize ↔
      (b.length ≠ 0 ∧ b.length % 16 ≠ 0)) ∧
    (c.Unpack lib b = .error .ErrEmptyContent ↔ b.length = 0) ∧
    (c.Unpack lib b = .error .ErrInvalidBlockSize ↔ (b.length ≠ 0 ∧ b.length % 16 ≠ 0)) ∧
    (c.UnpackOrdered lib b = .error .ErrEmptyContent ↔ b.length = 0) ∧
    (c.UnpackOrdered lib b = .error .ErrInvalidBlockSize ↔
      (b.length ≠ 0 ∧ b.length % 16 ≠ 0)) ∧
    (∀ (c2 : SekaiCryptor) (lib2 : Library) (out : OutTarget),
      (b.length = 0 ∨ b.length % 16 ≠ 0) →
        c.UnpackInto lib b out = c2.UnpackInto lib2 b out) := by
  refine ⟨fun out => UnpackInto_eq_empty_iff c lib b out,
    fun out => UnpackInto_eq_blockSize_iff c lib b out,
    UnpackInto_eq_empty_iff c lib b _, UnpackInto_eq_blockSize_iff c lib b _,
    (UnpackOrdered_eq_error_iff c lib b _).trans (UnpackInto_eq_empty_iff c lib b _),
    (UnpackOrdered_eq_error_iff c lib b _).trans (UnpackInto_eq_blockSize_iff c lib b _), ?_⟩
  intro c2 lib2 out h
  unfold SekaiCryptor.UnpackInto
  by_cases h0 : b.length = 0
  · rw [if_pos h0, if_pos h0]
  · have hm : b.length % aesBlockSize ≠ 0 := by
      rcases h with h | h
      · exact absurd h h0
      · exact h
    rw [if_neg h0, if_neg h0, if_pos hm, if_pos hm]

/-! ### Round trip of padding and CBC -/

theorem xorBytes_length (a b : Bytes) : (xorBytes a b).length = min a.length b.length := by
  simp [xorBytes]

theorem xorBytes_cancel : ∀ (a b : Bytes), a.length ≤ b.length → xorBytes (xorBytes a b) b = a
  | [], _, _ => by simp [xorBytes]
  | x :: a, [], h => by simp at h
  | x :: a, y :: b, h => by
    have ih := xorBytes_cancel a b (by simpa using h)
    simp only [xorBytes, List.zipWith_cons_cons, List.cons.injEq] at ih ⊢
    exact ⟨Nat.xor_cancel_right y x, ih⟩

theorem cbcEncrypt_length (enc : Bytes → Bytes)
    (henc : ∀ b : Bytes, b.length = aesBlockSize → (enc b).length = aesBlockSize) :
    ∀ (n : Nat) (iv src : Bytes), iv.length = aesBlockSize → src.length = aesBlockSize * n →
      (cbcEncrypt enc n iv src).length = aesBlockSize * n
  | 0, _, _, _, _ => by simp [cbcEncrypt]
  | n + 1, iv, src, hiv, hsrc => by
    have hblk : (xorBytes (src.take aesBlockSize) iv).length = aesBlockSize := by
      rw [xorBytes_length, List.length_take, hiv, hsrc]
      simp only [aesBlockSize]; omega
    have hc := henc _ hblk
    have ih := cbcEncrypt_length enc henc n (enc (xorBytes (src.take aesBlockSize) iv))
      (src.drop aesBlockSize) hc (by rw [List.length_drop, hsrc]; simp only [aesBlockSize]; omega)
    simp only [cbcEncrypt, List.length_append, hc, ih]
    simp only [aesBlockSize]; omega

theorem cbc_roundtrip (enc dec : Bytes → Bytes)
    (h : ∀ b : Bytes, b.length = aesBlockSize →
      (enc b).length = aesBlockSize ∧ dec (enc b) = b) :
    ∀ (n : Nat) (iv src : Bytes), iv.length = aesBlockSize → src.length = aesBlockSize * n →
      cbcDecrypt dec n iv (cbcEncrypt enc n iv src) = src
  | 0, _, src, _, hsrc => by
    have : src = [] := List.eq_nil_of_length_eq_zero (by simpa using hsrc)
    simp [cbcDecrypt, this]
  | n + 1, iv, src, hiv, hsrc => by
    have htake : (src.take aesBlockSize).length = aesBlockSize := by
      rw [List.length_take, hsrc]; simp only [aesBlockSize]; omega
    have hblk : (xorBytes (src.take aesBlockSize) iv).length = aesBlockSize := by
      rw [xorBytes_length, htake, hiv]; simp
    obtain ⟨hc, hdec⟩ := h _ hblk
    have ih := cbc_roundtrip enc dec h n (enc (xorBytes (src.take aesBlockSize) iv))
      (src.drop aesBlockSize) hc (by rw [List.length_drop, hsrc]; simp only [aesBlockSize]; omega)
    simp only [cbcEncrypt, cbcDecrypt]
    rw [List.take_left' hc, List.drop_left' hc, hdec, ih,
      xorBytes_cancel _ _ (by rw [htake, hiv]), List.take_append_drop]

theorem PKCS7Pad_length (m : Bytes) :
    (PKCS7Pad m aesBlockSize).length = aesBlockSize * (m.length / aesBlockSize + 1) := by
  simp only [PKCS7Pad, aesBlockSize, List.length_append, List.length_replicate]
  omega

theorem PKCS7Unpad_Pad (m : Bytes) : PKCS7Unpad (PKCS7Pad m aesBlockSize) = .ok m := by
  have hp : 0 < aesBlockSize - m.length % aesBlockSize := by
    simp only [aesBlockSize]; omega
  obtain ⟨p, hpe⟩ : ∃ p, aesBlockSize - m.length % aesBlockSize = p + 1 :=
    ⟨aesBlockSize - m.length % aesBlockSize - 1, by omega⟩
  simp only [PKCS7Pad, PKCS7Unpad, hpe]
  have hlast : (m ++ List.replicate (p + 1) (p + 1)).getLast? = some (p + 1) := by
    rw [List.replicate_succ', ← List.append_assoc, List.getLast?_append]
    simp
  rw [hlast]
  simp only [List.length_append, List.length_replicate]
  have h1 : ¬ (p + 1 = 0 ∨ m.length + (p + 1) < p + 1) := by omega
  rw [if_neg h1]
  have h2 : m.length + (p + 1) - (p + 1) = m.length := by omega
  rw [h2, List.drop_left, List.take_left]
  simp

theorem newCBC_roundtrip (c : SekaiCryptor) (hc : c.Valid) (raw : Bytes) :
    c.newCBC false (c.newCBC true (PKCS7Pad raw aesBlockSize)) = PKCS7Pad raw aesBlockSize := by
  obtain ⟨hiv, hblock⟩ := hc
  have hlen := PKCS7Pad_length raw
  have hdiv : (PKCS7Pad raw aesBlockSize).length / aesBlockSize = raw.length / aesBlockSize + 1 := by
    rw [hlen]; simp [aesBlockSize]
  have hlen2 := cbcEncrypt_length c.encryptBlock (fun b hb => (hblock b hb).1)
    (raw.length / aesBlockSize + 1) c.iv (PKCS7Pad raw aesBlockSize) hiv hlen
  simp only [SekaiCryptor.newCBC, if_true, Bool.false_eq_true, if_false, hdiv, hlen2]
  have : aesBlockSize * (raw.length / aesBlockSize + 1) / aesBlockSize
      = raw.length / aesBlockSize + 1 := by simp [aesBlockSize]
  rw [this]
  exact cbc_roundtrip c.encryptBlock c.decryptBlock hblock _ c.iv _ hiv hlen

theorem newCBC_encrypt_length (c : SekaiCryptor) (hc : c.Valid) (raw : Bytes) :
    (c.newCBC true (PKCS7Pad raw aesBlockSize)).length
      = aesBlockSize * (raw.length / aesBlockSize + 1) := by
  obtain ⟨hiv, hblock⟩ := hc
  have hlen := PKCS7Pad_length raw
  have hdiv : (PKCS7Pad raw aesBlockSize).length / aesBlockSize = raw.length / aesBlockSize + 1 := by
    rw [hlen]; simp [aesBlockSize]
  simp only [SekaiCryptor.newCBC, if_true, hdiv]
  exact cbcEncrypt_length c.encryptBlock (fun b hb => (hblock b hb).1) _ c.iv _ hiv hlen

/-- Unpacking an encrypted padded message: the length checks pass, decryption and
unpadding give the message back, and the outcome is that of the decoder for `out`. -/
theorem UnpackInto_encrypted (c : SekaiCryptor) (lib : Library) (hc : c.Valid) (raw : Bytes)
    (out : OutTarget) (hout : out ≠ .nilOut) :
    c.UnpackInto lib (c.newCBC true (PKCS7Pad raw aesBlockSize)) out =
      match out with
      | .orderedMap =>
        match MsgpackToOrderedMap lib raw with
        | .error e => .error (.orderedDecode e)
        | .ok om => .ok (.omap om)
      | .orderedMapPtr =>
        match MsgpackToOrderedMap lib raw with
        | .error e => .error (.orderedPtrDecode e)
        | .ok om => .ok (.omap om)
      | _ =>
        match lib.unmarshal raw with
        | .error e => .error (.msgpackDecode e)
        | .ok v => .ok v := by
  have hlen := newCBC_encrypt_length c hc raw
  unfold SekaiCryptor.UnpackInto
  have h0 : ¬ (c.newCBC true (PKCS7Pad raw aesBlockSize)).length = 0 := by
    rw [hlen]; simp [aesBlockSize]
  have hm : ¬ (c.newCBC true (PKCS7Pad raw aesBlockSize)).length % aesBlockSize ≠ 0 := by
    rw [hlen]; simp
  rw [if_neg h0, if_neg hm, if_neg hout]
  simp only [newCBC_roundtrip c hc raw, PKCS7Unpad_Pad]
  cases out <;> rfl

/-! ### Codec round trip -/

theorem exampleCryptor_valid : exampleCryptor.Valid := by
  refine ⟨by simp [exampleCryptor, aesBlockSize], fun b hb => ?_⟩
  simp [exampleCryptor, hb]

/-- Claim C1, as amended.  For a codec built from a valid key and a 16-byte IV:
every value other than nil and other than a raw byte string that the MessagePack
library encodes (to a non-empty encoding) and decodes back to itself is packed
successfully and `Unpack` returns it from the packed bytes; `Pack(nil)` fails with
`ErrEmptyContent`; and a non-empty raw byte string is encrypted as it is, so `Unpack`
returns what the MessagePack decoder makes of its content. -/
theorem pack_unpack_roundtrip (c : SekaiCryptor) (lib : Library) (hc : c.Valid) :
    (∀ (v : GoVal) (raw : Bytes), v ≠ .nil → (∀ b, v ≠ .bytes b) →
      lib.marshal v = .ok raw → raw ≠ [] → lib.unmarshal raw = .ok v →
      ∃ packed, c.Pack lib v = .ok packed ∧ c.Unpack lib packed = .ok v) ∧
    c.Pack lib .nil = .error .ErrEmptyContent ∧
    (∀ b : Bytes, b ≠ [] →
      ∃ packed, c.Pack lib (.bytes b) = .ok packed ∧
        c.Unpack lib packed =
          match lib.unmarshal b with
          | .error e => .error (.msgpackDecode e)
          | .ok v => .ok v) := by
  refine ⟨?_, rfl, ?_⟩
  · intro v raw hnil hbytes hm hraw hu
    refine ⟨c.newCBC true (PKCS7Pad raw aesBlockSize), ?_, ?_⟩
    · have hlen : ¬ raw.length = 0 := fun h => hraw (List.eq_nil_of_length_eq_zero h)
      cases v <;> simp only [SekaiCryptor.Pack, hm, if_neg hlen]
      · exact absurd rfl hnil
      · exact absurd rfl (hbytes _)
    · rw [SekaiCryptor.Unpack, UnpackInto_encrypted c lib hc raw .generic (by decide)]
      simp only [hu]
  · intro b hb
    refine ⟨c.newCBC true (PKCS7Pad b aesBlockSize), ?_, ?_⟩
    · have hlen : ¬ b.length = 0 := fun h => hb (List.eq_nil_of_length_eq_zero h)
      simp only [SekaiCryptor.Pack, if_neg hlen]
    · rw [SekaiCryptor.Unpack, UnpackInto_encrypted c lib hc b .generic (by decide)]

/-- Witness for C1: the string `hi` under the example cryptor and library. -/
theorem pack_unpack_roundtrip_witness :
    exampleCryptor.Valid ∧
    ∃ packed, exampleCryptor.Pack exampleLibrary (.str "hi") = .ok packed ∧
      exampleCryptor.Unpack exampleLibrary packed = .ok (.str "hi") :=
  ⟨exampleCryptor_valid,
    (pack_unpack_roundtrip exampleCryptor exampleLibrary exampleCryptor_valid).1
      (.str "hi") [0xa2, 0x68, 0x69] (by simp) (by simp) (by rfl) (by simp) (by rfl)⟩

/-- Counterexample to C1 as stated: nil is MessagePack-encodable and round-trips
through the library, but `Pack(nil)` fails, so not every encodable value is packed. -/
theorem pack_nil_not_roundtrip :
    ¬ (∀ (c : SekaiCryptor) (lib : Library) (v : GoVal) (raw : Bytes),
        c.Valid → lib.marshal v = .ok raw → lib.unmarshal raw = .ok v →
        ∃ packed, c.Pack lib v = .ok packed ∧ c.Unpack lib packed = .ok v) := by
  intro h
  obtain ⟨packed, hp, _⟩ :=
    h exampleCryptor exampleLibrary .nil [0xc0] exampleCryptor_valid rfl rfl
  simp [SekaiCryptor.Pack] at hp

/-! ### Float rendering -/

theorem digitChar_isDigit (d : Nat) : (digitChar d).isDigit = true := by
  have h : d % 10 < 10 := Nat.mod_lt _ (by decide)
  unfold digitChar
  generalize d % 10 = k at h
  interval_cases k <;> decide

theorem fixedDigits_isDigit : ∀ (w n : Nat) (c : Char), c ∈ fixedDigits w n → c.isDigit = true
  | 0, _, c, h => by simp [fixedDigits] at h
  | w + 1, n, c, h => by
    simp only [fixedDigits, List.mem_append, List.mem_singleton] at h
    rcases h with h | h
    · exact fixedDigits_isDigit w _ c h
    · rw [h]; exact digitChar_isDigit n

theorem natDigitsAux_isDigit : ∀ (fuel n : Nat) (c : Char), c ∈ natDigitsAux fuel n → c.isDigit = true
  | 0, n, c, h => by
    simp only [natDigitsAux, List.mem_singleton] at h
    rw [h]; exact digitChar_isDigit n
  | fuel + 1, n, c, h => by
    simp only [natDigitsAux] at h
    split at h
    · simp only [List.mem_singleton] at h
      rw [h]; exact digitChar_isDigit n
    · simp only [List.mem_append, List.mem_singleton] at h
      rcases h with h | h
      · exact natDigitsAux_isDigit fuel _ c h
      · rw [h]; exact digitChar_isDigit n

theorem dropWhile_append_stop {α : Type} (p : α → Bool) (x : α) (hx : p x = false) :
    ∀ (l r : List α), (l ++ x :: r).dropWhile p = l.dropWhile p ++ x :: r
  | [], r => by simp [List.dropWhile, hx]
  | y :: l, r => by
    cases hy : p y
    · simp [List.dropWhile, hy]
    · simp [List.dropWhile, hy, dropWhile_append_stop p x hx l r]

theorem dropWhile_head_false {α : Type} (p : α → Bool) :
    ∀ (l : List α) (y : α) (r : List α), l.dropWhile p = y :: r → p y = false
  | [], y, r, h => by simp at h
  | z :: l, y, r, h => by
    cases hz : p z
    · simp only [List.dropWhile, hz, List.cons.injEq] at h
      rw [← h.1]; exact hz
    · simp only [List.dropWhile, hz] at h
      exact dropWhile_head_false p l y r h

theorem trimRightZeros_append_stop (a d : List Char) (x : Char) (hx : x ≠ '0') :
    trimRightZeros (a ++ x :: d) = a ++ x :: trimRightZeros d := by
  unfold trimRightZeros
  rw [List.reverse_append, List.reverse_cons, List.append_assoc, List.singleton_append,
    dropWhile_append_stop _ x (by simpa using hx)]
  simp

theorem trimRightZeros_mem (d : List Char) (c : Char) (h : c ∈ trimRightZeros d) : c ∈ d := by
  unfold trimRightZeros at h
  rw [List.mem_reverse] at h
  exact List.mem_reverse.mp ((List.dropWhile_sublist _).subset h)

theorem trimRightZeros_last (d : List Char) :
    trimRightZeros d = [] ∨ ∃ r y, trimRightZeros d = r ++ [y] ∧ y ≠ '0' := by
  unfold trimRightZeros
  cases h : d.reverse.dropWhile (fun c => c == '0') with
  | nil => left; rfl
  | cons y r =>
    right
    refine ⟨r.reverse, y, by simp, ?_⟩
    have := dropWhile_head_false _ _ _ _ h
    simpa using this

/-- The shape of every literal `makeJSONFloat` produces: a part without a point, a
point, and a non-empty run of digits that ends in a zero only when it is `0`. -/
theorem makeJSONFloat_shape (f : GoFloat) :
    ∃ pre frac : List Char, makeJSONFloat f = String.mk (pre ++ '.' :: frac) ∧
      '.' ∉ pre ∧ frac ≠ [] ∧ (∀ c ∈ frac, c.isDigit = true) ∧
      (frac.getLast? = some '0' → frac = ['0']) := by
  unfold makeJSONFloat formatFloatF
  cases hcl : f.classify with
  | nan =>
    refine ⟨['N', 'a', 'N'], ['0'], ?_, by decide, by decide, by decide, fun _ => rfl⟩
    rfl
  | inf neg =>
    cases neg
    · exact ⟨['+', 'I', 'n', 'f'], ['0'], rfl, by decide, by decide, by decide, fun _ => rfl⟩
    · exact ⟨['-', 'I', 'n', 'f'], ['0'], rfl, by decide, by decide, by decide, fun _ => rfl⟩
  | finite neg mant exp =>
    simp only []
    generalize scaledDecimal 17 mant exp = n
    generalize hpre : (if neg = true then ['-'] else []) ++ natDigits (n / 10 ^ 17) = pre
    generalize hd : fixedDigits 17 (n % 10 ^ 17) = d
    have hpre_nodot : '.' ∉ pre := by
      rw [← hpre]
      intro hmem
      rw [List.mem_append] at hmem
      rcases hmem with hmem | hmem
      · cases neg <;> simp at hmem
      · have := natDigitsAux_isDigit _ _ _ hmem
        exact absurd this (by decide)
    have hd_digit : ∀ c ∈ d, c.isDigit = true := by
      rw [← hd]; exact fixedDigits_isDigit _ _
    have hcontains : (pre ++ ['.'] ++ d).contains '.' = true := by simp
    rw [if_pos hcontains]
    have htrim : trimRightZeros (pre ++ ['.'] ++ d) = pre ++ '.' :: trimRightZeros d := by
      rw [List.append_assoc, List.singleton_append]
      exact trimRightZeros_append_stop pre d '.' (by decide)
    rw [htrim]
    rcases trimRightZeros_last d with hnil | ⟨r, y, hr, hy⟩
    · rw [hnil]
      refine ⟨pre, ['0'], ?_, hpre_nodot, by decide, by decide, fun _ => rfl⟩
      simp
    · have hyd : y.isDigit = true :=
        hd_digit y (trimRightZeros_mem d y (by rw [hr]; simp))
      have hydot : y ≠ '.' := by
        intro h; rw [h] at hyd; exact absurd hyd (by decide)
      have hlast : (pre ++ '.' :: trimRightZeros d).getLast? = some y := by
        rw [hr, ← List.cons_append, ← List.append_assoc, List.getLast?_append]
        simp
      rw [hlast, if_neg (by simpa using hydot)]
      refine ⟨pre, trimRightZeros d, rfl, hpre_nodot, ?_, ?_, ?_⟩
      · rw [hr]; simp
      · intro c hc; exact hd_digit c (trimRightZeros_mem d c hc)
      · intro h0
        rw [hr, List.getLast?_append] at h0
        simp at h0
        exact absurd h0 hy

theorem roundHalfEven_nearest (num den : Nat) (hden : 0 < den) :
    2 * (roundHalfEven num den * den) ≤ 2 * num + den ∧
    2 * num ≤ 2 * (roundHalfEven num den * den) + den := by
  have hdm := Nat.div_add_mod num den
  have hlt := Nat.mod_lt num hden
  have hc : den * (num / den) = num / den * den := Nat.mul_comm _ _
  unfold roundHalfEven
  simp only []
  split_ifs <;> (try simp only [Nat.add_mul, Nat.one_mul]) <;> omega

theorem readBytes_append (p rest : Bytes) : readBytes p.length (p ++ rest) = .ok (p, rest) := by
  simp [readBytes]

theorem readUint_append (p rest : Bytes) : readUint p.length (p ++ rest) = .ok (beNat p, rest) := by
  simp [readUint, readBytes_append]

/-- The literal of a finite float: sign, integer digits, point, and the 17 fraction
digits without their trailing zeros (a single `0` when all are zero). -/
theorem makeJSONFloat_finite (f : GoFloat) (neg : Bool) (mant : Nat) (exp : Int)
    (hcl : f.classify = .finite neg mant exp) :
    makeJSONFloat f =
      String.mk ((if neg = true then ['-'] else [])
        ++ natDigits (scaledDecimal 17 mant exp / 10 ^ 17)
        ++ '.' :: (if trimRightZeros (fixedDigits 17 (scaledDecimal 17 mant exp % 10 ^ 17)) = []
            then ['0']
            else trimRightZeros (fixedDigits 17 (scaledDecimal 17 mant exp % 10 ^ 17)))) := by
  unfold makeJSONFloat formatFloatF
  rw [hcl]
  simp only []
  generalize scaledDecimal 17 mant exp = n
  generalize (if neg = true then ['-'] else []) ++ natDigits (n / 10 ^ 17) = pre
  generalize hd : fixedDigits 17 (n % 10 ^ 17) = d
  have hd_digit : ∀ c ∈ d, c.isDigit = true := by
    rw [← hd]; exact fixedDigits_isDigit _ _
  have hcontains : (pre ++ ['.'] ++ d).contains '.' = true := by simp
  rw [if_pos hcontains]
  have htrim : trimRightZeros (pre ++ ['.'] ++ d) = pre ++ '.' :: trimRightZeros d := by
    rw [List.append_assoc, List.singleton_append]
    exact trimRightZeros_append_stop pre d '.' (by decide)
  rw [htrim]
  rcases trimRightZeros_last d with hnil | ⟨r, y, hr, _⟩
  · rw [hnil]; simp
  · have hyd : y.isDigit = true :=
      hd_digit y (trimRightZeros_mem d y (by rw [hr]; simp))
    have hydot : y ≠ '.' := by
      intro h; rw [h] at hyd; exact absurd hyd (by decide)
    have hlast : (pre ++ '.' :: trimRightZeros d).getLast? = some y := by
      rw [hr, ← List.cons_append, ← List.append_assoc, List.getLast?_append]
      simp
    rw [hlast, if_neg (by simpa using hydot), if_neg (by rw [hr]; simp)]

theorem scaledDecimal_nearest (mant : Nat) (exp : Int) :
    (0 ≤ exp → scaledDecimal 17 mant exp = mant * 2 ^ exp.toNat * 10 ^ 17) ∧
    (exp < 0 →
      2 * (scaledDecimal 17 mant exp * 2 ^ (-exp).toNat)
        ≤ 2 * (mant * 10 ^ 17) + 2 ^ (-exp).toNat ∧
      2 * (mant * 10 ^ 17)
        ≤ 2 * (scaledDecimal 17 mant exp * 2 ^ (-exp).toNat) + 2 ^ (-exp).toNat) := by
  constructor
  · intro h; simp [scaledDecimal, h]
  · intro h
    have h2 : ¬ 0 ≤ exp := by omega
    simp only [scaledDecimal, if_neg h2]
    exact roundHalfEven_nearest _ _ (Nat.pos_pow_of_pos _ (by decide))

/-- Claim C3, as amended.  A float decoded by the ordered decoder is emitted as its
value rounded to 17 fractional digits (ties to even) with the trailing zeros
trimmed down to at least one fractional digit, which is not always the shortest
literal: the double nearest 3.14 yields `3.14000000000000012`, 1.0 yields `1.0` and
the double nearest 1e-9 yields `0.000000001`.  In every case the literal contains a
decimal point followed by at least one digit and has no trailing zero other than a
single zero directly after the point. -/
theorem makeJSONFloat_literals :
    (∃ v : ℚ, GoFloat.toRat (.f64 0x40091EB851EB851F) = some v ∧
      |v - 314 / 100| ≤ 1 / 2 ^ 52) ∧
    JSONNum.MarshalJSON (makeJSONFloat (.f64 0x40091EB851EB851F)) = "3.14000000000000012" ∧
    GoFloat.toRat (.f64 0x3FF0000000000000) = some 1 ∧
    JSONNum.MarshalJSON (makeJSONFloat (.f64 0x3FF0000000000000)) = "1.0" ∧
    (∃ v : ℚ, GoFloat.toRat (.f64 0x3E112E0BE826D695) = some v ∧
      |v - 1 / 10 ^ 9| ≤ 1 / 2 ^ 83) ∧
    JSONNum.MarshalJSON (makeJSONFloat (.f64 0x3E112E0BE826D695)) = "0.000000001" ∧
    (∀ (lib : Library) (fuel : Nat) (payload rest : Bytes), payload.length = 8 →
      decodeAnyOrdered lib (fuel + 1) (0xcb :: (payload ++ rest))
        = .ok (.jsonNum (makeJSONFloat (.f64 (beNat payload))), rest)) ∧
    (∀ (f : GoFloat) (neg : Bool) (mant : Nat) (exp : Int),
      f.classify = .finite neg mant exp →
      ((0 ≤ exp → scaledDecimal 17 mant exp = mant * 2 ^ exp.toNat * 10 ^ 17) ∧
       (exp < 0 →
        2 * (scaledDecimal 17 mant exp * 2 ^ (-exp).toNat)
          ≤ 2 * (mant * 10 ^ 17) + 2 ^ (-exp).toNat ∧
        2 * (mant * 10 ^ 17)
          ≤ 2 * (scaledDecimal 17 mant exp * 2 ^ (-exp).toNat) + 2 ^ (-exp).toNat)) ∧
      JSONNum.MarshalJSON (makeJSONFloat f) =
        String.mk ((if neg = true then ['-'] else [])
          ++ natDigits (scaledDecimal 17 mant exp / 10 ^ 17)
          ++ '.' :: (if trimRightZeros (fixedDigits 17 (scaledDecimal 17 mant exp % 10 ^ 17)) = []
              then ['0']
              else trimRightZeros (fixedDigits 17 (scaledDecimal 17 mant exp % 10 ^ 17))))) ∧
    (∀ f : GoFloat, ∃ pre frac : List Char,
      JSONNum.MarshalJSON (makeJSONFloat f) = String.mk (pre ++ '.' :: frac) ∧
      '.' ∉ pre ∧ frac ≠ [] ∧ (∀ c ∈ frac, c.isDigit = true) ∧
      (frac.getLast? = some '0' → frac = ['0'])) := by
  refine ⟨⟨7070651414971679 / 2 ^ 51, ?_, ?_⟩, by decide, ?_, by decide,
    ⟨4835703278458517 / 2 ^ 82, ?_, ?_⟩, by decide, ?_, ?_, makeJSONFloat_shape⟩
  · simp [GoFloat.toRat, GoFloat.classify]; norm_num
  · rw [abs_le]; constructor <;> norm_num
  · simp [GoFloat.toRat, GoFloat.classify]; norm_num
  · simp [GoFloat.toRat, GoFloat.classify]; norm_num
  · rw [abs_le]; constructor <;> norm_num
  · intro lib fuel payload rest hlen
    have h := readUint_append payload rest
    rw [hlen] at h
    simp [decodeAnyOrdered, decodeNilOrBool, decodeFloat, h]
  · intro f neg mant exp hcl
    exact ⟨scaledDecimal_nearest mant exp, makeJSONFloat_finite f neg mant exp hcl⟩

/-- Counterexample to C3 as stated: the double nearest 3.14 is not emitted as the
shortest faithful literal `3.14`. -/
theorem makeJSONFloat_not_shortest :
    (∃ v : ℚ, GoFloat.toRat (.f64 0x40091EB851EB851F) = some v ∧
      |v - 314 / 100| ≤ 1 / 2 ^ 52) ∧
    JSONNum.MarshalJSON (makeJSONFloat (.f64 0x40091EB851EB851F)) ≠ "3.14" := by
  refine ⟨⟨7070651414971679 / 2 ^ 51, ?_, ?_⟩, by decide⟩
  · simp [GoFloat.toRat, GoFloat.classify]; norm_num
  · rw [abs_le]; constructor <;> norm_num

/-! ### The ordered decoder on MessagePack encodings -/

theorem beBytes_length : ∀ (w n : Nat), (beBytes w n).length = w
  | 0, _ => rfl
  | w + 1, n => by simp [beBytes, beBytes_length w]

theorem beNat_append_singleton (l : Bytes) (x : Nat) : beNat (l ++ [x]) = beNat l * 256 + x := by
  simp [beNat]

theorem beNat_beBytes : ∀ (w n : Nat), n < 256 ^ w → beNat (beBytes w n) = n
  | 0, n, h => by
    have : n = 0 := by simpa using h
    simp [beBytes, beNat, this]
  | w + 1, n, h => by
    have h2 : n / 256 < 256 ^ w := by
      rw [Nat.div_lt_iff_lt_mul (by decide)]
      rw [pow_succ] at h; exact h
    rw [beBytes, beNat_append_singleton, beNat_beBytes w _ h2]
    omega

theorem readUint_beBytes (w n : Nat) (h : n < 256 ^ w) (rest : Bytes) :
    readUint w (beBytes w n ++ rest) = .ok (n, rest) := by
  have := readUint_append (beBytes w n) rest
  rw [beBytes_length, beNat_beBytes w n h] at this
  exact this

theorem decodeAnyOrdered_string (lib : Library) (fuel code : Nat) (rest : Bytes)
    (h : isStringCode code = true) :
    decodeAnyOrdered lib (fuel + 1) (code :: rest) = decodeString code rest := by
  have h1 : decodeNilOrBool rest code = none := by
    simp only [isStringCode, Bool.or_eq_true, Bool.and_eq_true, decide_eq_true_eq, beq_iff_eq] at h
    simp only [decodeNilOrBool]
    rw [if_neg (by omega), if_neg (by omega)]
  have h2 : decodeFloat rest code = none := by
    simp only [isStringCode, Bool.or_eq_true, Bool.and_eq_true, decide_eq_true_eq, beq_iff_eq] at h
    simp only [decodeFloat]
    rw [if_neg (by omega), if_neg (by omega)]
  have h3 : isIntCode code = false := by
    simp only [isStringCode, Bool.or_eq_true, Bool.and_eq_true, decide_eq_true_eq, beq_iff_eq] at h
    simp only [isIntCode, Bool.or_eq_false_iff, Bool.and_eq_false_iff, decide_eq_false_iff_not]
    omega
  simp only [decodeAnyOrdered, h1, h2, h3, h, if_true, Bool.false_eq_true, if_false]


theorem decodeAnyOrdered_plain (lib : Library) (fuel code : Nat) (rest : Bytes)
    (h : code ≠ 0xc0 ∧ code ≠ 0xc2 ∧ code ≠ 0xc3 ∧ code ≠ 0xca ∧ code ≠ 0xcb) :
    decodeAnyOrdered lib (fuel + 1) (code :: rest) =
      if isIntCode code then decodeInt code rest
      else if isStringCode code then decodeString code rest
      else if isBinaryCode code then decodeBytes code rest
      else if isArrayCode code then
        match decodeArrayLen code rest with
        | .error e => .error e
        | .ok (n, r) =>
          match decodeArrayLoop (decodeAnyOrdered lib fuel) n r with
          | .error e => .error e
          | .ok (out, r2) => .ok (.arr out, r2)
      else if isMapCode code then
        match decodeMapLen code rest with
        | .error e => .error e
        | .ok (n, r) =>
          match decodeMapLoop lib (decodeAnyOrdered lib fuel) n OrderedMap.new r with
          | .error e => .error e
          | .ok (om, r2) => .ok (.omap om, r2)
      else
        match lib.decodeOther (code :: rest) with
        | .error e => .error (.lib e)
        | .ok r => .ok r := by
  obtain ⟨a, b, c, d, e⟩ := h
  have h1 : decodeNilOrBool rest code = none := by
    simp only [decodeNilOrBool]
    rw [if_neg a, if_neg (by omega)]
  have h2 : decodeFloat rest code = none := by
    simp only [decodeFloat]
    rw [if_neg d, if_neg e]
  simp only [decodeAnyOrdered, h1, h2]

theorem decode_str (lib : Library) (fuel : Nat) (f : LenFmt) (data rest : Bytes)
    (h : data.length < f.bound 32) :
    decodeAnyOrdered lib (fuel + 1) ((lenHeader 0xa0 0xd9 0xda 0xdb f data.length ++ data) ++ rest)
      = .ok (.str (bytesToString data), rest) := by
  cases f
  · simp only [LenFmt.bound] at h
    simp only [lenHeader, List.singleton_append, List.cons_append]
    rw [decodeAnyOrdered_plain lib fuel _ _ (by omega)]
    have hi : isIntCode (0xa0 + data.length) = false := by
      simp only [isIntCode, Bool.or_eq_false_iff, Bool.and_eq_false_iff, decide_eq_false_iff_not]
      omega
    have hs : isStringCode (0xa0 + data.length) = true := by
      simp only [isStringCode, Bool.or_eq_true, Bool.and_eq_true, decide_eq_true_eq]
      omega
    simp only [hi, hs, if_true, Bool.false_eq_true, if_false, decodeString, decodeStringLen]
    rw [if_pos (by omega)]
    simp only [Nat.add_sub_cancel_left, List.nil_append, readBytes_append]
  · have hb : data.length < 256 ^ 1 := by simpa [LenFmt.bound] using h
    simp only [lenHeader, List.cons_append, List.append_assoc]
    rw [decodeAnyOrdered_plain lib fuel _ _ (by decide)]
    simp [isIntCode, isStringCode, decodeString, decodeStringLen, readUint_beBytes _ _ hb,
      readBytes_append]
  · have hb : data.length < 256 ^ 2 := by simpa [LenFmt.bound] using h
    simp only [lenHeader, List.cons_append, List.append_assoc]
    rw [decodeAnyOrdered_plain lib fuel _ _ (by decide)]
    simp [isIntCode, isStringCode, decodeString, decodeStringLen, readUint_beBytes _ _ hb,
      readBytes_append]
  · have hb : data.length < 256 ^ 4 := by simpa [LenFmt.bound] using h
    simp only [lenHeader, List.cons_append, List.append_assoc]
    rw [decodeAnyOrdered_plain lib fuel _ _ (by decide)]
    simp [isIntCode, isStringCode, decodeString, decodeStringLen, readUint_beBytes _ _ hb,
      readBytes_append]

theorem decode_bin (lib : Library) (fuel : Nat) (f : LenFmt) (data rest : Bytes)
    (hf : f ≠ .fix) (h : data.length < f.bound 0) :
    decodeAnyOrdered lib (fuel + 1) ((lenHeader 0 0xc4 0xc5 0xc6 f data.length ++ data) ++ rest)
      = .ok (.bytes data, rest) := by
  cases f
  · exact absurd rfl hf
  · have hb : data.length < 256 ^ 1 := by simpa [LenFmt.bound] using h
    simp only [lenHeader, List.cons_append, List.append_assoc]
    rw [decodeAnyOrdered_plain lib fuel _ _ (by decide)]
    simp [isIntCode, isStringCode, isBinaryCode, decodeBytes, readUint_beBytes _ _ hb,
      readBytes_append]
  · have hb : data.length < 256 ^ 2 := by simpa [LenFmt.bound] using h
    simp only [lenHeader, List.cons_append, List.append_assoc]
    rw [decodeAnyOrdered_plain lib fuel _ _ (by decide)]
    simp [isIntCode, isStringCode, isBinaryCode, decodeBytes, readUint_beBytes _ _ hb,
      readBytes_append]
  · have hb : data.length < 256 ^ 4 := by simpa [LenFmt.bound] using h
    simp only [lenHeader, List.cons_append, List.append_assoc]
    rw [decodeAnyOrdered_plain lib fuel _ _ (by decide)]
    simp [isIntCode, isStringCode, isBinaryCode, decodeBytes, readUint_beBytes _ _ hb,
      readBytes_append]

theorem decode_arr_header (lib : Library) (fuel : Nat) (f : LenFmt) (n : Nat) (tail : Bytes)
    (hf : f ≠ .w8) (h : n < f.bound 16) :
    decodeAnyOrdered lib (fuel + 1) (lenHeader 0x90 0 0xdc 0xdd f n ++ tail) =
      match decodeArrayLoop (decodeAnyOrdered lib fuel) n tail with
      | .error e => .error e
      | .ok (out, r2) => .ok (.arr out, r2) := by
  cases f
  · simp only [LenFmt.bound] at h
    simp only [lenHeader, List.singleton_append]
    rw [decodeAnyOrdered_plain lib fuel _ _ (by omega)]
    have hi : isIntCode (0x90 + n) = false := by
      simp only [isIntCode, Bool.or_eq_false_iff, Bool.and_eq_false_iff, decide_eq_false_iff_not]
      omega
    have hs : isStringCode (0x90 + n) = false := by
      simp only [isStringCode, Bool.or_eq_false_iff, Bool.and_eq_false_iff,
        decide_eq_false_iff_not, beq_eq_false_iff_ne]
      omega
    have hb : isBinaryCode (0x90 + n) = false := by
      simp only [isBinaryCode, Bool.or_eq_false_iff, beq_eq_false_iff_ne]
      omega
    have ha : isArrayCode (0x90 + n) = true := by
      simp only [isArrayCode, Bool.or_eq_true, Bool.and_eq_true, decide_eq_true_eq]
      omega
    simp only [hi, hs, hb, ha, if_true, Bool.false_eq_true, if_false, decodeArrayLen]
    rw [if_pos (by omega)]
    simp only [Nat.add_sub_cancel_left]
  · exact absurd rfl hf
  · have hb : n < 256 ^ 2 := by simpa [LenFmt.bound] using h
    simp only [lenHeader, List.cons_append, List.append_assoc]
    rw [decodeAnyOrdered_plain lib fuel _ _ (by decide)]
    simp [isIntCode, isStringCode, isBinaryCode, isArrayCode, decodeArrayLen,
      readUint_beBytes _ _ hb]
  · have hb : n < 256 ^ 4 := by simpa [LenFmt.bound] using h
    simp only [lenHeader, List.cons_append, List.append_assoc]
    rw [decodeAnyOrdered_plain lib fuel _ _ (by decide)]
    simp [isIntCode, isStringCode, isBinaryCode, isArrayCode, decodeArrayLen,
      readUint_beBytes _ _ hb]

theorem decode_map_header (lib : Library) (fuel : Nat) (f : LenFmt) (n : Nat) (tail : Bytes)
    (hf : f ≠ .w8) (h : n < f.bound 16) :
    decodeAnyOrdered lib (fuel + 1) (lenHeader 0x80 0 0xde 0xdf f n ++ tail) =
      match decodeMapLoop lib (decodeAnyOrdered lib fuel) n OrderedMap.new tail with
      | .error e => .error e
      | .ok (om, r2) => .ok (.omap om, r2) := by
  cases f
  · simp only [LenFmt.bound] at h
    simp only [lenHeader, List.singleton_append]
    rw [decodeAnyOrdered_plain lib fuel _ _ (by omega)]
    have hi : isIntCode (0x80 + n) = false := by
      simp only [isIntCode, Bool.or_eq_false_iff, Bool.and_eq_false_iff, decide_eq_false_iff_not]
      omega
    have hs : isStringCode (0x80 + n) = false := by
      simp only [isStringCode, Bool.or_eq_false_iff, Bool.and_eq_false_iff,
        decide_eq_false_iff_not, beq_eq_false_iff_ne]
      omega
    have hb : isBinaryCode (0x80 + n) = false := by
      simp only [isBinaryCode, Bool.or_eq_false_iff, beq_eq_false_iff_ne]
      omega
    have ha : isArrayCode (0x80 + n) = false := by
      simp only [isArrayCode, Bool.or_eq_false_iff, Bool.and_eq_false_iff,
        decide_eq_false_iff_not, beq_eq_false_iff_ne]
      omega
    have hm : isMapCode (0x80 + n) = true := by
      simp only [isMapCode, Bool.or_eq_true, Bool.and_eq_true, decide_eq_true_eq]
      omega
    simp only [hi, hs, hb, ha, hm, if_true, Bool.false_eq_true, if_false, decodeMapLen]
    rw [if_pos (by omega)]
    simp only [Nat.add_sub_cancel_left]
  · exact absurd rfl hf
  · have hb : n < 256 ^ 2 := by simpa [LenFmt.bound] using h
    simp only [lenHeader, List.cons_append, List.append_assoc]
    rw [decodeAnyOrdered_plain lib fuel _ _ (by decide)]
    simp [isIntCode, isStringCode, isBinaryCode, isArrayCode, isMapCode, decodeMapLen,
      readUint_beBytes _ _ hb]
  · have hb : n < 256 ^ 4 := by simpa [LenFmt.bound] using h
    simp only [lenHeader, List.cons_append, List.append_assoc]
    rw [decodeAnyOrdered_plain lib fuel _ _ (by decide)]
    simp [isIntCode, isStringCode, isBinaryCode, isArrayCode, isMapCode, decodeMapLen,
      readUint_beBytes _ _ hb]

theorem decode_fixint (lib : Library) (fuel c : Nat) (rest : Bytes)
    (h : c ≤ 0x7f ∨ (0xe0 ≤ c ∧ c ≤ 0xff)) :
    decodeAnyOrdered lib (fuel + 1) (c :: rest)
      = .ok (if c ≤ 0x7f then .int .int8 c else .int .int8 (toSigned 8 c), rest) := by
  rw [decodeAnyOrdered_plain lib fuel _ _ (by omega)]
  have hi : isIntCode c = true := by
    simp only [isIntCode, Bool.or_eq_true, Bool.and_eq_true, decide_eq_true_eq]
    omega
  simp only [hi, if_true, decodeInt]
  by_cases hc : c ≤ 0x7f
  · simp only [if_pos hc]
  · simp only [if_neg hc]
    rw [if_pos (by omega)]

theorem decode_int (lib : Library) (fuel code : Nat) (payload rest : Bytes)
    (h : 0xcc ≤ code ∧ code ≤ 0xd3 ∧ payload.length = intWidth code) :
    decodeAnyOrdered lib (fuel + 1) (code :: (payload ++ rest))
      = .ok (Wire.decoded lib (.int code payload), rest) := by
  obtain ⟨h1, h2, h3⟩ := h
  rw [decodeAnyOrdered_plain lib fuel _ _ (by omega)]
  have hi : isIntCode code = true := by
    simp only [isIntCode, Bool.or_eq_true, Bool.and_eq_true, decide_eq_true_eq]
    omega
  have hr := readUint_append payload rest
  rw [h3] at hr
  simp only [hi, if_true, decodeInt]
  rw [if_neg (by omega), if_neg (by omega)]
  simp only [intWidth] at hr
  simp only [hr, Wire.decoded]
  split_ifs <;> rfl


mutual
/-- Adequacy: on the bytes of a well-formed encoding, followed by anything, the
decoder returns the decoded value and leaves what follows. -/
theorem decode_encode (lib : Library) : ∀ (w : Wire), w.WellFormed lib →
    ∀ (fuel : Nat) (rest : Bytes), w.depth < fuel →
      decodeAnyOrdered lib fuel (w.encode ++ rest) = .ok (w.decoded lib, rest)
  | .nil, _, fuel, rest, hf => by
    obtain ⟨k, rfl⟩ : ∃ k, fuel = k + 1 := ⟨fuel - 1, by omega⟩
    simp [Wire.encode, Wire.decoded, decodeAnyOrdered, decodeNilOrBool]
  | .bool b, _, fuel, rest, hf => by
    obtain ⟨k, rfl⟩ : ∃ k, fuel = k + 1 := ⟨fuel - 1, by omega⟩
    cases b <;> simp [Wire.encode, Wire.decoded, decodeAnyOrdered, decodeNilOrBool]
  | .fixint c, hw, fuel, rest, hf => by
    obtain ⟨k, rfl⟩ : ∃ k, fuel = k + 1 := ⟨fuel - 1, by omega⟩
    simp only [Wire.WellFormed] at hw
    simp only [Wire.encode, Wire.decoded, List.singleton_append]
    exact decode_fixint lib k c rest hw
  | .int code payload, hw, fuel, rest, hf => by
    obtain ⟨k, rfl⟩ : ∃ k, fuel = k + 1 := ⟨fuel - 1, by omega⟩
    simp only [Wire.WellFormed] at hw
    simp only [Wire.encode, List.cons_append]
    exact decode_int lib k code payload rest hw
  | .float32 payload, hw, fuel, rest, hf => by
    obtain ⟨k, rfl⟩ : ∃ k, fuel = k + 1 := ⟨fuel - 1, by omega⟩
    simp only [Wire.WellFormed] at hw
    have h := readUint_append payload rest
    rw [hw] at h
    simp [Wire.encode, Wire.decoded, decodeAnyOrdered, decodeNilOrBool, decodeFloat, h]
  | .float64 payload, hw, fuel, rest, hf => by
    obtain ⟨k, rfl⟩ : ∃ k, fuel = k + 1 := ⟨fuel - 1, by omega⟩
    simp only [Wire.WellFormed] at hw
    have h := readUint_append payload rest
    rw [hw] at h
    simp [Wire.encode, Wire.decoded, decodeAnyOrdered, decodeNilOrBool, decodeFloat, h]
  | .str f data, hw, fuel, rest, hf => by
    obtain ⟨k, rfl⟩ : ∃ k, fuel = k + 1 := ⟨fuel - 1, by omega⟩
    simp only [Wire.WellFormed] at hw
    simp only [Wire.encode, Wire.decoded]
    exact decode_str lib k f data rest hw
  | .bin f data, hw, fuel, rest, hf => by
    obtain ⟨k, rfl⟩ : ∃ k, fuel = k + 1 := ⟨fuel - 1, by omega⟩
    simp only [Wire.WellFormed] at hw
    simp only [Wire.encode, Wire.decoded]
    exact decode_bin lib k f data rest hw.1 hw.2
  | .arr f items, hw, fuel, rest, hf => by
    obtain ⟨k, rfl⟩ : ∃ k, fuel = k + 1 := ⟨fuel - 1, by omega⟩
    simp only [Wire.WellFormed] at hw
    simp only [Wire.depth] at hf
    simp only [Wire.encode, Wire.decoded, List.append_assoc]
    rw [decode_arr_header lib k f _ _ hw.1 hw.2.1,
      decode_encodeList lib items hw.2.2 k rest (by omega)]
  | .map f kvs, hw, fuel, rest, hf => by
    obtain ⟨k, rfl⟩ : ∃ k, fuel = k + 1 := ⟨fuel - 1, by omega⟩
    simp only [Wire.WellFormed] at hw
    simp only [Wire.depth] at hf
    simp only [Wire.encode, Wire.decoded, List.append_assoc]
    rw [decode_map_header lib k f _ _ hw.1 hw.2.1,
      decode_encodePairs lib kvs hw.2.2 k OrderedMap.new rest (by omega)]
  | .other raw val, hw, fuel, rest, hf => by
    obtain ⟨k, rfl⟩ : ∃ k, fuel = k + 1 := ⟨fuel - 1, by omega⟩
    simp only [Wire.WellFormed] at hw
    obtain ⟨⟨code, tl, rfl, hc⟩, hlib⟩ := hw
    have hl := hlib rest
    simp only [isOtherCode, Bool.and_eq_true, bne_iff_ne, ne_eq, Bool.not_eq_true'] at hc
    obtain ⟨⟨⟨⟨⟨⟨⟨⟨⟨h1, h2⟩, h3⟩, h4⟩, h5⟩, h6⟩, h7⟩, h8⟩, h9⟩, h10⟩ := hc
    simp only [Wire.encode, Wire.decoded, List.cons_append] at hl ⊢
    rw [decodeAnyOrdered_plain lib k _ _ ⟨h1, h2, h3, h4, h5⟩]
    simp only [h6, h7, h8, h9, h10, Bool.false_eq_true, if_false, hl]
/-- Adequacy of the array loop. -/
theorem decode_encodeList (lib : Library) : ∀ (ws : List Wire), Wire.WellFormedList lib ws →
    ∀ (fuel : Nat) (rest : Bytes), Wire.depthList ws < fuel →
      decodeArrayLoop (decodeAnyOrdered lib fuel) ws.length (Wire.encodeList ws ++ rest)
        = .ok (Wire.decodedList lib ws, rest)
  | [], _, _, _, _ => rfl
  | w :: ws, hw, fuel, rest, hf => by
    simp only [Wire.WellFormedList] at hw
    simp only [Wire.depthList] at hf
    simp only [Wire.encodeList, Wire.decodedList, List.length_cons, decodeArrayLoop,
      List.append_assoc]
    rw [decode_encode lib w hw.1 fuel _ (by omega)]
    simp only []
    rw [decode_encodeList lib ws hw.2 fuel rest (by omega)]
/-- Adequacy of the map loop. -/
theorem decode_encodePairs (lib : Library) : ∀ (kvs : List (Wire × Wire)),
    Wire.WellFormedPairs lib kvs →
    ∀ (fuel : Nat) (om : OrderedMap) (rest : Bytes), Wire.depthPairs kvs < fuel →
      decodeMapLoop lib (decodeAnyOrdered lib fuel) kvs.length om (Wire.encodePairs kvs ++ rest)
        = .ok (Wire.decodedPairs lib kvs om, rest)
  | [], _, _, _, _, _ => rfl
  | (k, v) :: kvs, hw, fuel, om, rest, hf => by
    simp only [Wire.WellFormedPairs] at hw
    simp only [Wire.depthPairs] at hf
    simp only [Wire.encodePairs, Wire.decodedPairs, List.length_cons, decodeMapLoop,
      List.append_assoc]
    rw [decode_encode lib k hw.1 fuel _ (by omega)]
    simp only []
    rw [decode_encode lib v hw.2.1 fuel _ (by omega)]
    simp only []
    exact decode_encodePairs lib kvs hw.2.2 fuel _ rest (by omega)
end


theorem lenHeader_length_pos (a b c d : Nat) (f : LenFmt) (n : Nat) :
    0 < (lenHeader a b c d f n).length := by
  cases f <;> simp [lenHeader]

mutual
/-- A value nested `d` levels deep occupies at least `d` bytes. -/
theorem depth_le_encode_length : ∀ (w : Wire), w.depth ≤ w.encode.length
  | .nil => by simp [Wire.depth, Wire.encode]
  | .bool _ => by simp [Wire.depth, Wire.encode]
  | .fixint _ => by simp [Wire.depth, Wire.encode]
  | .int _ _ => by simp [Wire.depth, Wire.encode]
  | .float32 _ => by simp [Wire.depth, Wire.encode]
  | .float64 _ => by simp [Wire.depth, Wire.encode]
  | .str f data => by
    have := lenHeader_length_pos 0xa0 0xd9 0xda 0xdb f data.length
    simp only [Wire.depth, Wire.encode, List.length_append]; omega
  | .bin f data => by
    have := lenHeader_length_pos 0 0xc4 0xc5 0xc6 f data.length
    simp only [Wire.depth, Wire.encode, List.length_append]; omega
  | .arr f items => by
    have := lenHeader_length_pos 0x90 0 0xdc 0xdd f items.length
    have := depthList_le_encode_length items
    simp only [Wire.depth, Wire.encode, List.length_append]; omega
  | .map f kvs => by
    have := lenHeader_length_pos 0x80 0 0xde 0xdf f kvs.length
    have := depthPairs_le_encode_length kvs
    simp only [Wire.depth, Wire.encode, List.length_append]; omega
  | .other _ _ => by simp [Wire.depth]
/-- The depth bound for a sequence. -/
theorem depthList_le_encode_length : ∀ (ws : List Wire),
    Wire.depthList ws ≤ (Wire.encodeList ws).length
  | [] => by simp [Wire.depthList]
  | w :: ws => by
    have := depth_le_encode_length w
    have := depthList_le_encode_length ws
    simp only [Wire.depthList, Wire.encodeList, List.length_append]; omega
/-- The depth bound for a sequence of pairs. -/
theorem depthPairs_le_encode_length : ∀ (kvs : List (Wire × Wire)),
    Wire.depthPairs kvs ≤ (Wire.encodePairs kvs).length
  | [] => by simp [Wire.depthPairs]
  | (k, v) :: kvs => by
    have := depth_le_encode_length k
    have := depth_le_encode_length v
    have := depthPairs_le_encode_length kvs
    simp only [Wire.depthPairs, Wire.encodePairs, List.length_append]; omega
end

theorem OrderedMap.set_of_not_mem : ∀ (om : OrderedMap) (key : String) (v : GoVal),
    key ∉ OrderedMap.keys om → OrderedMap.set om key v = om ++ [(key, v)]
  | [], _, _, _ => rfl
  | (k, x) :: rest, key, v, h => by
    simp only [OrderedMap.keys, List.map_cons, List.mem_cons, not_or] at h
    have hk : ¬ k = key := fun e => h.1 e.symm
    simp only [OrderedMap.set, if_neg hk, List.cons_append, List.cons.injEq, true_and]
    exact OrderedMap.set_of_not_mem rest key v h.2

/-- With pairwise distinct stringified keys, none of them present yet, the map loop
appends the pairs in wire order. -/
theorem decodedPairs_of_nodup (lib : Library) : ∀ (kvs : List (Wire × Wire)) (om : OrderedMap),
    (Wire.wireKeys lib kvs).Nodup → (∀ k ∈ Wire.wireKeys lib kvs, k ∉ OrderedMap.keys om) →
    Wire.decodedPairs lib kvs om =
      om ++ kvs.map (fun kv => (mapKey lib (kv.1.decoded lib), kv.2.decoded lib))
  | [], om, _, _ => by simp [Wire.decodedPairs]
  | (k, v) :: kvs, om, hnd, hfresh => by
    simp only [Wire.wireKeys, List.map_cons, List.nodup_cons] at hnd
    have hk : mapKey lib (k.decoded lib) ∉ OrderedMap.keys om :=
      hfresh _ (by simp [Wire.wireKeys])
    simp only [Wire.decodedPairs]
    rw [OrderedMap.set_of_not_mem om _ _ hk,
      decodedPairs_of_nodup lib kvs _ hnd.2 (by
        intro key hkey
        have h1 := hfresh key (by simp only [Wire.wireKeys, List.map_cons, List.mem_cons]; right; exact hkey)
        simp only [OrderedMap.keys, List.map_append, List.map_cons, List.map_nil,
          List.mem_append, List.mem_singleton, not_or]
        refine ⟨h1, ?_⟩
        intro e
        rw [e] at hkey
        exact hnd.1 hkey)]
    simp

theorem decodedPairs_keys (lib : Library) (kvs : List (Wire × Wire))
    (hnd : (Wire.wireKeys lib kvs).Nodup) :
    OrderedMap.keys (Wire.decodedPairs lib kvs OrderedMap.new) = Wire.wireKeys lib kvs := by
  rw [decodedPairs_of_nodup lib kvs OrderedMap.new hnd (by simp [OrderedMap.new, OrderedMap.keys])]
  simp [OrderedMap.new, OrderedMap.keys, Wire.wireKeys]

mutual
/-- When every map of the tree has distinct keys, the decoded value lists every map
in wire order. -/
theorem decoded_eq_inWireOrder (lib : Library) : ∀ (w : Wire), w.DistinctKeys lib →
    w.decoded lib = w.inWireOrder lib
  | .nil, _ => rfl
  | .bool _, _ => rfl
  | .fixint _, _ => rfl
  | .int _ _, _ => rfl
  | .float32 _, _ => rfl
  | .float64 _, _ => rfl
  | .str _ _, _ => rfl
  | .bin _ _, _ => rfl
  | .other _ _, _ => rfl
  | .arr f items, h => by
    simp only [Wire.DistinctKeys] at h
    simp only [Wire.decoded, Wire.inWireOrder, decodedList_eq_inWireOrder lib items h]
  | .map f kvs, h => by
    simp only [Wire.DistinctKeys] at h
    simp only [Wire.decoded, Wire.inWireOrder]
    rw [decodedPairs_of_nodup lib kvs OrderedMap.new h.1
      (by simp [OrderedMap.new, OrderedMap.keys]),
      pairs_eq_inWireOrder lib kvs h.2]
    simp [OrderedMap.new]
/-- The element-wise form. -/
theorem decodedList_eq_inWireOrder (lib : Library) : ∀ (ws : List Wire),
    Wire.DistinctKeysList lib ws → Wire.decodedList lib ws = Wire.inWireOrderList lib ws
  | [], _ => rfl
  | w :: ws, h => by
    simp only [Wire.DistinctKeysList] at h
    simp only [Wire.decodedList, Wire.inWireOrderList, decoded_eq_inWireOrder lib w h.1,
      decodedList_eq_inWireOrder lib ws h.2]
/-- The form for the values of a map. -/
theorem pairs_eq_inWireOrder (lib : Library) : ∀ (kvs : List (Wire × Wire)),
    Wire.DistinctKeysPairs lib kvs →
    kvs.map (fun kv => (mapKey lib (kv.1.decoded lib), kv.2.decoded lib))
      = Wire.inWireOrderPairs lib kvs
  | [], _ => rfl
  | (k, v) :: kvs, h => by
    simp only [Wire.DistinctKeysPairs] at h
    simp only [List.map_cons, Wire.inWireOrderPairs, decoded_eq_inWireOrder lib v h.1,
      pairs_eq_inWireOrder lib kvs h.2]
end

theorem MsgpackToOrderedMap_encode (lib : Library) (f : LenFmt) (kvs : List (Wire × Wire))
    (hw : (Wire.map f kvs).WellFormed lib) :
    MsgpackToOrderedMap lib (Wire.map f kvs).encode
      = .ok (Wire.decodedPairs lib kvs OrderedMap.new) := by
  have h := decode_encode lib (Wire.map f kvs) hw ((Wire.map f kvs).encode.length + 1) []
    (by have := depth_le_encode_length (Wire.map f kvs); omega)
  rw [List.append_nil] at h
  simp only [MsgpackToOrderedMap, h, Wire.decoded]

/-- Claim C2.  For every MessagePack encoding of a map, `MsgpackToOrderedMap` returns
an ordered map; when the keys of the wire map are pairwise distinct after
stringification its key list is the wire key sequence; when this holds for every
map of the encoding, the result lists every nested map, in map values and in array
elements at any depth, in wire order; and `UnpackOrdered` returns the same map from
the encrypted padded bytes. -/
theorem ordered_decode_preserves_wire_order (lib : Library) (f : LenFmt)
    (kvs : List (Wire × Wire)) (hw : (Wire.map f kvs).WellFormed lib) :
    ∃ om : OrderedMap, MsgpackToOrderedMap lib (Wire.map f kvs).encode = .ok om ∧
      ((Wire.wireKeys lib kvs).Nodup → OrderedMap.keys om = Wire.wireKeys lib kvs) ∧
      ((Wire.map f kvs).DistinctKeys lib → GoVal.omap om = (Wire.map f kvs).inWireOrder lib) ∧
      (∀ c : SekaiCryptor, c.Valid →
        c.UnpackOrdered lib (c.newCBC true (PKCS7Pad (Wire.map f kvs).encode aesBlockSize))
          = .ok om) := by
  refine ⟨Wire.decodedPairs lib kvs OrderedMap.new, MsgpackToOrderedMap_encode lib f kvs hw,
    decodedPairs_keys lib kvs, ?_, ?_⟩
  · intro h
    have := decoded_eq_inWireOrder lib (Wire.map f kvs) h
    simpa only [Wire.decoded] using this
  · intro c hc
    simp only [SekaiCryptor.UnpackOrdered,
      UnpackInto_encrypted c lib hc _ .orderedMap (by decide),
      MsgpackToOrderedMap_encode lib f kvs hw]

theorem examplePairs_wellFormed : (Wire.map .fix examplePairs).WellFormed exampleLibrary := by
  simp [examplePairs, Wire.WellFormed, Wire.WellFormedPairs, Wire.WellFormedList, LenFmt.bound]

theorem examplePairs_wireKeys : Wire.wireKeys exampleLibrary examplePairs = ["a", "b", "c"] := by
  rfl

theorem examplePairs_distinct : (Wire.map .fix examplePairs).DistinctKeys exampleLibrary := by
  simp only [examplePairs, Wire.DistinctKeys, Wire.DistinctKeysPairs, Wire.DistinctKeysList,
    and_true, true_and]
  exact ⟨by decide, by decide⟩

/-- Witness for C2: the example map, with a nested map inside an array. -/
theorem ordered_decode_preserves_wire_order_witness :
    (Wire.map .fix examplePairs).WellFormed exampleLibrary ∧
    (Wire.map .fix examplePairs).DistinctKeys exampleLibrary ∧
    (Wire.map .fix examplePairs).encode =
      [0x83, 0xa1, 0x61, 1, 0xa1, 0x62, 2, 0xd9, 1, 0x63, 0x91, 0xde, 0, 2,
        0xa1, 0x79, 0xc0, 0xa1, 0x78, 0xc3] ∧
    (Wire.map .fix examplePairs).inWireOrder exampleLibrary =
      .omap [("a", .int .int8 1), ("b", .int .int8 2),
        ("c", .arr [.omap [("y", .nil), ("x", .bool true)]])] ∧
    ∃ om : OrderedMap,
      MsgpackToOrderedMap exampleLibrary (Wire.map .fix examplePairs).encode = .ok om ∧
      ((Wire.wireKeys exampleLibrary examplePairs).Nodup →
        OrderedMap.keys om = Wire.wireKeys exampleLibrary examplePairs) ∧
      ((Wire.map .fix examplePairs).DistinctKeys exampleLibrary →
        GoVal.omap om = (Wire.map .fix examplePairs).inWireOrder exampleLibrary) ∧
      (∀ c : SekaiCryptor, c.Valid →
        c.UnpackOrdered exampleLibrary
          (c.newCBC true (PKCS7Pad (Wire.map .fix examplePairs).encode aesBlockSize)) = .ok om) :=
  ⟨examplePairs_wellFormed, examplePairs_distinct, rfl, rfl,
    ordered_decode_preserves_wire_order exampleLibrary .fix examplePairs examplePairs_wellFormed⟩

/-! ### The request loop -/

theorem callLoop_attempt (c : SekaiClient) (w : World) (data : GoVal) (fuel : Nat)
    (retryCount : Int) (lastErr : Option ClientError) (run : Run)
    (hlt : retryCount < maxRetries) (hprep : c.prepareRequest data = .ok ()) :
    c.callLoop w data (fuel + 1) retryCount lastErr run =
      match w.execute run.requests with
      | .error execErr =>
        c.callLoop w data fuel (retryCount + 1) (some (.exec execErr))
          (if retryCount + 1 < maxRetries then (run.attempt retryCount).log .sleep
           else run.attempt retryCount)
      | .ok response =>
        match c.handleResponse response with
        | .ok _ => some (⟨some response, none⟩, run.attempt retryCount)
        | .error respErr =>
          match c.handleResponseError w respErr response (run.attempt retryCount) with
          | ((err, true), run2) => some (⟨none, err⟩, run2)
          | ((none, false), run2) =>
            c.callLoop w data fuel retryCount lastErr (run2.log (.count retryCount))
          | ((some e, false), run2) =>
            c.callLoop w data fuel (retryCount + 1) (some e)
              (if retryCount + 1 < maxRetries then run2.log .sleep else run2) := by
  simp only [SekaiClient.callLoop, if_pos hlt, hprep, Run.log, Run.attempt, List.append_assoc,
    List.singleton_append, List.cons_append, List.nil_append, SekaiClient.handleExecutionError]
  cases hex : w.execute run.requests with
  | error execErr =>
    cases execErr <;> rfl
  | ok response =>
    simp only []
    cases hr : c.handleResponse response with
    | ok m => rfl
    | error respErr =>
      simp only []
      rcases hre : c.handleResponseError w respErr response _ with ⟨⟨err, b⟩, run2⟩
      cases b
      · cases err
        · simp only [Bool.false_eq_true, if_false, add_sub_cancel_right]
        · simp only [Bool.false_eq_true, if_false]
      · simp only [if_true]

theorem handleResponse_octet_decoded (c : SekaiClient) (r : Response) (m : OrderedMap)
    (st : SekaiApiHttpStatus) (hct : r.OctetStream)
    (hb : c.Cryptor.UnpackOrdered c.lib r.body = .ok m)
    (hst : ParseSekaiApiHttpStatus r.status = .ok st) :
    c.handleResponse r =
      match st with
      | .Ok => .ok m
      | .ClientError => .ok m
      | .NotFound => .ok m
      | .Conflict => .ok m
      | .SessionError => .error .session
      | .GameUpgrade => .error .upgradeRequired
      | .UnderMaintenance => .error .underMaintenance
      | .ServerError => .error (.unknown r.status (c.marshalJSON m)) := by
  unfold Response.OctetStream at hct
  simp only [SekaiClient.handleResponse, hst, if_pos hct, hb]
  cases st <;> rfl

theorem handleResponse_octet_undecodable (c : SekaiClient) (r : Response) (e : CodecError)
    (st : SekaiApiHttpStatus) (hct : r.OctetStream)
    (hb : c.Cryptor.UnpackOrdered c.lib r.body = .error e)
    (hst : ParseSekaiApiHttpStatus r.status = .ok st) :
    c.handleResponse r = .error (.codec e) := by
  unfold Response.OctetStream at hct
  simp only [SekaiClient.handleResponse, hst, if_pos hct, hb]

theorem handleResponse_not_octet (c : SekaiClient) (r : Response)
    (st : SekaiApiHttpStatus) (hct : ¬ r.OctetStream)
    (hst : ParseSekaiApiHttpStatus r.status = .ok st) :
    c.handleResponse r =
      if st = .UnderMaintenance then .error .underMaintenance
      else if st = .ServerError then .error (.unknown r.status (bytesToString r.body))
      else if st = .SessionError ∧ goToLower r.contentType = "text/xml" then
        .error .cookieExpired
      else .error (.unknown r.status (bytesToString r.body)) := by
  unfold Response.OctetStream at hct
  simp only [SekaiClient.handleResponse, hst, if_neg hct]

/-- A call whose first answer is a decodable binary 403 and whose second answer is a
decodable binary 200, with a successful login in between. -/
theorem callLoop_session_recovery (c : SekaiClient) (w : World) (data : GoVal)
    (r1 r2 : Response) (run : Run) (fuel : Nat)
    (hprep : c.prepareRequest data = .ok ())
    (h1 : w.execute run.requests = .ok r1) (h1s : r1.status = 403)
    (h1c : r1.OctetStream) (h1b : c.Decodable r1)
    (hlogin : w.login run.logins = none)
    (h2 : w.execute (run.requests + 1) = .ok r2) (h2s : r2.status = 200)
    (h2c : r2.OctetStream) (h2b : c.Decodable r2) (hfuel : 2 ≤ fuel) :
    c.callLoop w data fuel 0 none run =
      some (⟨some r2, none⟩,
        { run with
          requests := run.requests + 2
          logins := run.logins + 1
          trace := run.trace ++ [.test 0, .count 1, .request run.requests, .login, .count 0,
            .test 0, .count 1, .request (run.requests + 1)] }) := by
  obtain ⟨k, rfl⟩ : ∃ k, fuel = k + 2 := ⟨fuel - 2, by omega⟩
  obtain ⟨m1, hm1⟩ := h1b
  obtain ⟨m2, hm2⟩ := h2b
  have hr1 : c.handleResponse r1 = .error .session := by
    rw [handleResponse_octet_decoded c r1 m1 .SessionError h1c hm1 (by rw [h1s]; rfl)]
  have hr2 : c.handleResponse r2 = .ok m2 := by
    rw [handleResponse_octet_decoded c r2 m2 .Ok h2c hm2 (by rw [h2s]; rfl)]
  rw [callLoop_attempt c w data (k + 1) 0 none run (by decide) hprep, h1]
  simp only [hr1, SekaiClient.handleResponseError, SekaiClient.handleSessionError,
    SekaiClient.Login, Run.attempt, hlogin]
  rw [callLoop_attempt c w data k 0 none _ (by decide) hprep]
  simp only [Run.log, Run.attempt, h2, hr2, List.append_assoc, List.cons_append,
    List.nil_append, Int.zero_add]


theorem exampleBody_decodable (server : Region) (status : Int) (ct token : String) :
    (exampleClient server).Decodable ⟨status, ct, exampleBody, token⟩ :=
  ⟨_, by
    show exampleCryptor.UnpackOrdered exampleLibrary exampleBody = _
    rfl⟩

/-- Claim C5, as amended.  If the server answers the first request with a session
error (status 403, octet-stream content type, decodable body) and the second with a
status 200 response that also has an octet-stream content type and a decodable
body, and `Login` succeeds, then `CallAPI` performs exactly one `Login`, executes
exactly two requests, performs no sleep and returns the 200 response; the retry
counter is never below 0 during the call. -/
theorem CallAPI_session_recovery (c : SekaiClient) (w : World) (path url : String)
    (data : GoVal) (r1 r2 : Response) (fuel : Nat)
    (hurl : c.expandURL path = .ok url) (hsess : c.hasSession = true)
    (hprep : c.prepareRequest data = .ok ())
    (h1 : w.execute 0 = .ok r1) (h1s : r1.status = 403)
    (h1c : r1.OctetStream) (h1b : c.Decodable r1)
    (hlogin : w.login 0 = none)
    (h2 : w.execute 1 = .ok r2) (h2s : r2.status = 200)
    (h2c : r2.OctetStream) (h2b : c.Decodable r2) (hfuel : 2 ≤ fuel) :
    ∃ run : Run, c.CallAPI w fuel path data Run.start = some (⟨some r2, none⟩, run) ∧
      run.trace = [.test 0, .count 1, .request 0, .login, .count 0,
        .test 0, .count 1, .request 1] ∧
      loginCount run.trace = 1 ∧ requestCount run.trace = 2 ∧ sleepCount run.trace = 0 ∧
      ∀ v ∈ counterValues run.trace, 0 ≤ v := by
  refine ⟨⟨2, 1, 0, 0, 0, [.test 0, .count 1, .request 0, .login, .count 0,
    .test 0, .count 1, .request 1]⟩, ?_, rfl, by decide, by decide, by decide, by decide⟩
  simp only [SekaiClient.CallAPI, hurl, hsess, Bool.true_eq_false, if_false]
  exact callLoop_session_recovery c w data r1 r2 Run.start fuel hprep h1 h1s h1c h1b hlogin
    h2 h2s h2c h2b hfuel

/-- Witness for C5: the example client against a server that answers 403 and then
200, both with the packed example map. -/
theorem CallAPI_session_recovery_witness :
    ∃ run : Run,
      (exampleClient .tw).CallAPI
        (scriptedWorld [.ok ⟨403, "application/octet-stream", exampleBody, ""⟩]
          (.ok ⟨200, "application/octet-stream", exampleBody, ""⟩))
        2 "/system" .nil Run.start
        = some (⟨some ⟨200, "application/octet-stream", exampleBody, ""⟩, none⟩, run) ∧
      run.trace = [.test 0, .count 1, .request 0, .login, .count 0,
        .test 0, .count 1, .request 1] ∧
      loginCount run.trace = 1 ∧ requestCount run.trace = 2 ∧ sleepCount run.trace = 0 ∧
      ∀ v ∈ counterValues run.trace, 0 ≤ v :=
  CallAPI_session_recovery (exampleClient .tw) _ "/system" "/system" .nil
    ⟨403, "application/octet-stream", exampleBody, ""⟩
    ⟨200, "application/octet-stream", exampleBody, ""⟩ 2 rfl rfl rfl rfl rfl
    (Or.inl (by decide)) (exampleBody_decodable _ _ _ _) rfl rfl rfl
    (Or.inl (by decide)) (exampleBody_decodable _ _ _ _) (by decide)

/-- Counterexample to C5 as stated: a second answer with status 200 whose content
type is not octet-stream is not returned; the call fails after the two requests. -/
theorem CallAPI_session_recovery_plain_200 :
    (exampleClient .tw).CallAPI
      (scriptedWorld [.ok ⟨403, "application/octet-stream", exampleBody, ""⟩]
        (.ok ⟨200, "text/plain", [0x4f, 0x4b], ""⟩))
      2 "/system" .nil Run.start
      = some (⟨none, some (.unknown 200 "OK")⟩,
          ⟨2, 1, 0, 0, 0, [.test 0, .count 1, .request 0, .login, .count 0,
            .test 0, .count 1, .request 1]⟩) := by
  rfl

theorem handleResponse_server_error (c : SekaiClient) (r : Response) (hs : r.status = 500) :
    (∃ e, c.handleResponse r = .error (.codec e)) ∨
    (∃ body, c.handleResponse r = .error (.unknown 500 body)) := by
  have hst : ParseSekaiApiHttpStatus r.status = .ok .ServerError := by rw [hs]; rfl
  by_cases hct : r.OctetStream
  · cases hb : c.Cryptor.UnpackOrdered c.lib r.body with
    | error e => exact Or.inl ⟨e, handleResponse_octet_undecodable c r e .ServerError hct hb hst⟩
    | ok m =>
      right
      refine ⟨c.marshalJSON m, ?_⟩
      rw [handleResponse_octet_decoded c r m .ServerError hct hb hst]
      simp only [hs]
  · right
    refine ⟨bytesToString r.body, ?_⟩
    rw [handleResponse_not_octet c r .ServerError hct hst]
    simp [hs]

/-- An answer with status 500 ends the loop at once: `handleResponseError` returns
`shouldReturn = true` for it. -/
theorem callLoop_server_error (c : SekaiClient) (w : World) (data : GoVal) (r : Response)
    (run : Run) (fuel : Nat) (retryCount : Int) (lastErr : Option ClientError)
    (hlt : retryCount < maxRetries) (hprep : c.prepareRequest data = .ok ())
    (h : w.execute run.requests = .ok r) (hs : r.status = 500) :
    c.callLoop w data (fuel + 1) retryCount lastErr run =
      some (⟨none, some (.unknown 500 (bytesToString r.body))⟩, run.attempt retryCount) := by
  rw [callLoop_attempt c w data fuel retryCount lastErr run hlt hprep, h]
  rcases handleResponse_server_error c r hs with ⟨e, he⟩ | ⟨body, he⟩
  · simp only [he, SekaiClient.handleResponseError, hs]
    simp
  · simp only [he, SekaiClient.handleResponseError, hs]
    simp

/-- An answer with status 503 ends the loop at once. -/
theorem callLoop_maintenance (c : SekaiClient) (w : World) (data : GoVal) (r : Response)
    (run : Run) (fuel : Nat) (retryCount : Int) (lastErr : Option ClientError)
    (hlt : retryCount < maxRetries) (hprep : c.prepareRequest data = .ok ())
    (h : w.execute run.requests = .ok r) (hs : r.status = 503) :
    ((¬ r.OctetStream ∨ c.Decodable r) →
      c.callLoop w data (fuel + 1) retryCount lastErr run =
        some (⟨none, some .underMaintenance⟩, run.attempt retryCount)) ∧
    (∀ e, r.OctetStream → c.Cryptor.UnpackOrdered c.lib r.body = .error e →
      c.callLoop w data (fuel + 1) retryCount lastErr run =
        some (⟨none, some (.unknown 503 (bytesToString r.body))⟩, run.attempt retryCount)) := by
  have hst : ParseSekaiApiHttpStatus r.status = .ok .UnderMaintenance := by rw [hs]; rfl
  rw [callLoop_attempt c w data fuel retryCount lastErr run hlt hprep, h]
  constructor
  · intro hcase
    have hr : c.handleResponse r = .error .underMaintenance := by
      by_cases hct : r.OctetStream
      · rcases hcase with hn | ⟨m, hm⟩
        · exact absurd hct hn
        · rw [handleResponse_octet_decoded c r m .UnderMaintenance hct hm hst]
      · rw [handleResponse_not_octet c r .UnderMaintenance hct hst]; simp
    simp only [hr, SekaiClient.handleResponseError]
  · intro e hct hb
    simp only [handleResponse_octet_undecodable c r e .UnderMaintenance hct hb hst,
      SekaiClient.handleResponseError, hs]
    simp

/-- An answer with status 426 to a JP or EN client ends the loop at once, without a
login. -/
theorem callLoop_upgrade_cp (c : SekaiClient) (w : World) (data : GoVal) (r : Response)
    (run : Run) (fuel : Nat) (retryCount : Int) (lastErr : Option ClientError)
    (hlt : retryCount < maxRetries) (hprep : c.prepareRequest data = .ok ())
    (hcp : c.Server = .jp ∨ c.Server = .en)
    (h : w.execute run.requests = .ok r) (hs : r.status = 426) :
    ((r.OctetStream ∧ c.Decodable r) →
      c.callLoop w data (fuel + 1) retryCount lastErr run =
        some (⟨none, some .upgradeRequired⟩, run.attempt retryCount)) ∧
    (¬ r.OctetStream →
      c.callLoop w data (fuel + 1) retryCount lastErr run =
        some (⟨none, some (.unknown 426 (bytesToString r.body))⟩, run.attempt retryCount)) ∧
    (∀ e, r.OctetStream → c.Cryptor.UnpackOrdered c.lib r.body = .error e →
      c.callLoop w data (fuel + 1) retryCount lastErr run =
        some (⟨none, some (.codec e)⟩, run.attempt retryCount)) := by
  have hst : ParseSekaiApiHttpStatus r.status = .ok .GameUpgrade := by rw [hs]; rfl
  rw [callLoop_attempt c w data fuel retryCount lastErr run hlt hprep, h]
  refine ⟨?_, ?_, ?_⟩
  · rintro ⟨hct, m, hm⟩
    simp only [handleResponse_octet_decoded c r m .GameUpgrade hct hm hst,
      SekaiClient.handleResponseError, SekaiClient.handleUpgradeError, if_pos hcp]
  · intro hct
    simp only [handleResponse_not_octet c r .GameUpgrade hct hst, reduceCtorEq, if_false,
      false_and, SekaiClient.handleResponseError, hs]
    simp
  · intro e hct hb
    simp only [handleResponse_octet_undecodable c r e .GameUpgrade hct hb hst,
      SekaiClient.handleResponseError, hs]
    simp

/-- Four failed executions in a row: the loop sleeps after the first three and
returns the last error. -/
theorem callLoop_exec_errors (c : SekaiClient) (w : World) (data : GoVal) (run : Run)
    (fuel : Nat) (e : Nat → ExecError) (hprep : c.prepareRequest data = .ok ())
    (h : ∀ k, k < 4 → w.execute (run.requests + k) = .error (e k)) (hfuel : 5 ≤ fuel) :
    c.callLoop w data fuel 0 none run =
      some (⟨none, some (.exec (e 3))⟩,
        { run with
          requests := run.requests + 4
          trace := run.trace ++ [.test 0, .count 1, .request run.requests, .sleep,
            .test 1, .count 2, .request (run.requests + 1), .sleep,
            .test 2, .count 3, .request (run.requests + 2), .sleep,
            .test 3, .count 4, .request (run.requests + 3), .test 4] }) := by
  obtain ⟨k, rfl⟩ : ∃ k, fuel = k + 5 := ⟨fuel - 5, by omega⟩
  have h0 := h 0 (by decide)
  have h1 := h 1 (by decide)
  have h2 := h 2 (by decide)
  have h3 := h 3 (by decide)
  rw [Nat.add_zero] at h0
  rw [callLoop_attempt c w data _ 0 none run (by decide) hprep, h0]
  simp only [show ((0 : Int) + 1 < maxRetries) = True by decide, if_true]
  rw [callLoop_attempt c w data _ (0 + 1) _ _ (by decide) hprep]
  simp only [Run.log, Run.attempt, h1]
  simp only [show ((0 : Int) + 1 + 1 < maxRetries) = True by decide, if_true]
  rw [callLoop_attempt c w data _ (0 + 1 + 1) _ _ (by decide) hprep]
  simp only [Run.log, Run.attempt, Nat.add_assoc, Nat.reduceAdd, h2]
  simp only [show ((0 : Int) + 1 + 1 + 1 < maxRetries) = True by decide, if_true]
  rw [callLoop_attempt c w data _ (0 + 1 + 1 + 1) _ _ (by decide) hprep]
  simp only [Run.log, Run.attempt, Nat.add_assoc, Nat.reduceAdd, h3]
  simp only [show ((0 : Int) + 1 + 1 + 1 + 1 < maxRetries) = False by decide, if_false]
  simp [SekaiClient.callLoop, Run.log, maxRetries]


/-- Claim C6 (the code departs from it).  When the first answer has status 500,
`CallAPI` returns the failure `UnknownSekaiClientException(500, body)` after that one
request, without sleeping and without a further attempt: `handleResponseError`
returns `shouldReturn = true` for every status of 500 and above. -/
theorem CallAPI_server_error_single_attempt (c : SekaiClient) (w : World) (path url : String)
    (data : GoVal) (r : Response) (fuel : Nat)
    (hurl : c.expandURL path = .ok url) (hsess : c.hasSession = true)
    (hprep : c.prepareRequest data = .ok ())
    (h : w.execute 0 = .ok r) (hs : r.status = 500) (hfuel : 1 ≤ fuel) :
    c.CallAPI w fuel path data Run.start =
        some (⟨none, some (.unknown 500 (bytesToString r.body))⟩,
          ⟨1, 0, 0, 0, 0, [.test 0, .count 1, .request 0]⟩) ∧
      requestCount [Event.test 0, .count 1, .request 0] = 1 ∧
      sleepCount [Event.test 0, .count 1, .request 0] = 0 := by
  obtain ⟨k, rfl⟩ : ∃ k, fuel = k + 1 := ⟨fuel - 1, by omega⟩
  refine ⟨?_, by decide, by decide⟩
  simp only [SekaiClient.CallAPI, hurl, hsess, Bool.true_eq_false, if_false]
  exact callLoop_server_error c w data r Run.start k 0 none (by decide) hprep h hs

/-- Witness for C6: a server that answers every request with status 500. -/
theorem CallAPI_server_error_single_attempt_witness :
    (exampleClient .jp).CallAPI (scriptedWorld [] (.ok ⟨500, "text/plain", [], ""⟩)) 8
        "/system" .nil Run.start =
        some (⟨none, some (.unknown 500 (bytesToString []))⟩,
          ⟨1, 0, 0, 0, 0, [.test 0, .count 1, .request 0]⟩) ∧
      requestCount [Event.test 0, .count 1, .request 0] = 1 ∧
      sleepCount [Event.test 0, .count 1, .request 0] = 0 :=
  CallAPI_server_error_single_attempt (exampleClient .jp) _ "/system" "/system" .nil
    ⟨500, "text/plain", [], ""⟩ 8 rfl rfl rfl rfl rfl (by decide)

/-- Claim C7, as amended.  Every response with status 503 makes `CallAPI` return a
failure after exactly one request, with no sleep, no `Login` and no further attempt.
The failure is `UnderMaintenanceError` when the content type is not octet-stream or
the body is decodable; for an octet-stream body that does not decode it is the
unknown-status exception carrying 503. -/
theorem CallAPI_maintenance (c : SekaiClient) (w : World) (path url : String)
    (data : GoVal) (r : Response) (fuel : Nat)
    (hurl : c.expandURL path = .ok url) (hsess : c.hasSession = true)
    (hprep : c.prepareRequest data = .ok ())
    (h : w.execute 0 = .ok r) (hs : r.status = 503) (hfuel : 1 ≤ fuel) :
    ∃ err : ClientError,
      c.CallAPI w fuel path data Run.start =
        some (⟨none, some err⟩, ⟨1, 0, 0, 0, 0, [.test 0, .count 1, .request 0]⟩) ∧
      ((¬ r.OctetStream ∨ c.Decodable r) → err = .underMaintenance) ∧
      (r.OctetStream → ¬ c.Decodable r → err = .unknown 503 (bytesToString r.body)) := by
  obtain ⟨k, rfl⟩ : ∃ k, fuel = k + 1 := ⟨fuel - 1, by omega⟩
  have hm := callLoop_maintenance c w data r Run.start k 0 none (by decide) hprep h hs
  simp only [SekaiClient.CallAPI, hurl, hsess, Bool.true_eq_false, if_false]
  by_cases hcase : ¬ r.OctetStream ∨ c.Decodable r
  · refine ⟨.underMaintenance, hm.1 hcase, fun _ => rfl, ?_⟩
    intro hct hnd
    rcases hcase with hn | hd
    · exact absurd hct hn
    · exact absurd hd hnd
  · have hct : r.OctetStream := by
      by_contra hn; exact hcase (Or.inl hn)
    have hnd : ¬ c.Decodable r := fun hd => hcase (Or.inr hd)
    cases hb : c.Cryptor.UnpackOrdered c.lib r.body with
    | ok m => exact absurd ⟨m, hb⟩ hnd
    | error e =>
      exact ⟨_, hm.2 e hct hb, fun hc => absurd hc hcase, fun _ _ => rfl⟩

/-- Witness for C7: a 503 answer with an HTML body. -/
theorem CallAPI_maintenance_witness :
    ∃ err : ClientError,
      (exampleClient .tw).CallAPI (scriptedWorld [] (.ok ⟨503, "text/html", [0x3c], ""⟩)) 1
          "/system" .nil Run.start =
        some (⟨none, some err⟩, ⟨1, 0, 0, 0, 0, [.test 0, .count 1, .request 0]⟩) ∧
      ((¬ (Response.mk 503 "text/html" [0x3c] "").OctetStream ∨
          (exampleClient .tw).Decodable ⟨503, "text/html", [0x3c], ""⟩) →
        err = .underMaintenance) ∧
      ((Response.mk 503 "text/html" [0x3c] "").OctetStream →
        ¬ (exampleClient .tw).Decodable ⟨503, "text/html", [0x3c], ""⟩ →
        err = .unknown 503 (bytesToString [0x3c])) :=
  CallAPI_maintenance (exampleClient .tw) _ "/system" "/system" .nil
    ⟨503, "text/html", [0x3c], ""⟩ 1 rfl rfl rfl rfl rfl (by decide)

/-- Counterexample to C7 as stated: a 503 answer with an octet-stream content type
and an empty body makes `CallAPI` return the unknown-status exception, not
`UnderMaintenanceError`. -/
theorem CallAPI_maintenance_undecodable :
    (exampleClient .tw).CallAPI
        (scriptedWorld [] (.ok ⟨503, "application/octet-stream", [], ""⟩)) 1
        "/system" .nil Run.start =
      some (⟨none, some (.unknown 503 "")⟩,
        ⟨1, 0, 0, 0, 0, [.test 0, .count 1, .request 0]⟩) ∧
    ClientError.unknown 503 "" ≠ ClientError.underMaintenance :=
  ⟨rfl, by decide⟩

/-- Claim C8, as amended.  For a client whose region is JP or EN, every response
with status 426 makes `CallAPI` return a failure after exactly one request, without
calling `Login` and without a further request.  The failure is
`UpgradeRequiredError` when the response has an octet-stream content type and a
decodable body; with another content type it is the unknown-status exception
carrying 426. -/
theorem CallAPI_upgrade_cp (c : SekaiClient) (w : World) (path url : String)
    (data : GoVal) (r : Response) (fuel : Nat)
    (hurl : c.expandURL path = .ok url) (hsess : c.hasSession = true)
    (hprep : c.prepareRequest data = .ok ())
    (hcp : c.Server = .jp ∨ c.Server = .en)
    (h : w.execute 0 = .ok r) (hs : r.status = 426) (hfuel : 1 ≤ fuel) :
    ∃ err : ClientError,
      c.CallAPI w fuel path data Run.start =
        some (⟨none, some err⟩, ⟨1, 0, 0, 0, 0, [.test 0, .count 1, .request 0]⟩) ∧
      (r.OctetStream → c.Decodable r → err = .upgradeRequired) ∧
      (¬ r.OctetStream → err = .unknown 426 (bytesToString r.body)) := by
  obtain ⟨k, rfl⟩ : ∃ k, fuel = k + 1 := ⟨fuel - 1, by omega⟩
  have hm := callLoop_upgrade_cp c w data r Run.start k 0 none (by decide) hprep hcp h hs
  simp only [SekaiClient.CallAPI, hurl, hsess, Bool.true_eq_false, if_false]
  by_cases hct : r.OctetStream
  · cases hb : c.Cryptor.UnpackOrdered c.lib r.body with
    | ok m =>
      exact ⟨_, hm.1 ⟨hct, m, hb⟩, fun _ _ => rfl, fun hn => absurd hct hn⟩
    | error e =>
      refine ⟨_, hm.2.2 e hct hb, ?_, fun hn => absurd hct hn⟩
      rintro _ ⟨m, hm2⟩
      rw [hb] at hm2
      cases hm2
  · exact ⟨_, hm.2.1 hct, fun hc => absurd hc hct, fun _ => rfl⟩

/-- Witness for C8: a JP client and a 426 answer carrying the packed example map. -/
theorem CallAPI_upgrade_cp_witness :
    ∃ err : ClientError,
      (exampleClient .jp).CallAPI
          (scriptedWorld [] (.ok ⟨426, "application/octet-stream", exampleBody, ""⟩)) 1
          "/system" .nil Run.start =
        some (⟨none, some err⟩, ⟨1, 0, 0, 0, 0, [.test 0, .count 1, .request 0]⟩) ∧
      ((Response.mk 426 "application/octet-stream" exampleBody "").OctetStream →
        (exampleClient .jp).Decodable ⟨426, "application/octet-stream", exampleBody, ""⟩ →
        err = .upgradeRequired) ∧
      (¬ (Response.mk 426 "application/octet-stream" exampleBody "").OctetStream →
        err = .unknown 426 (bytesToString exampleBody)) :=
  CallAPI_upgrade_cp (exampleClient .jp) _ "/system" "/system" .nil
    ⟨426, "application/octet-stream", exampleBody, ""⟩ 1 rfl rfl rfl (Or.inl rfl) rfl rfl
    (by decide)

/-- Counterexample to C8 as stated: a JP client that is answered 426 with a plain
text body gets the unknown-status exception, not `UpgradeRequiredError`. -/
theorem CallAPI_upgrade_cp_plain :
    (exampleClient .jp).CallAPI (scriptedWorld [] (.ok ⟨426, "text/plain", [], ""⟩)) 1
        "/system" .nil Run.start =
      some (⟨none, some (.unknown 426 "")⟩,
        ⟨1, 0, 0, 0, 0, [.test 0, .count 1, .request 0]⟩) ∧
    ClientError.unknown 426 "" ≠ ClientError.upgradeRequired :=
  ⟨rfl, by decide⟩


/-- Claim C9, as amended.  A request attempt that fails with a context
deadline-exceeded error is treated like every transport error: the error is recorded
and, unless four attempts are used up, `CallAPI` sleeps one second and issues another
attempt.  When all four attempts fail with it, the error is returned after exactly
four requests and three sleeps; when the next attempt succeeds, its response is
returned. -/
theorem CallAPI_deadline_retries (c : SekaiClient) (w : World) (path url : String)
    (data : GoVal) (fuel : Nat)
    (hurl : c.expandURL path = .ok url) (hsess : c.hasSession = true)
    (hprep : c.prepareRequest data = .ok ()) :
    ((∀ k, k < 4 → w.execute k = .error .deadlineExceeded) → 5 ≤ fuel →
      c.CallAPI w fuel path data Run.start =
        some (⟨none, some (.exec .deadlineExceeded)⟩,
          ⟨4, 0, 0, 0, 0, [.test 0, .count 1, .request 0, .sleep,
            .test 1, .count 2, .request 1, .sleep,
            .test 2, .count 3, .request 2, .sleep,
            .test 3, .count 4, .request 3, .test 4]⟩)) ∧
    (∀ r2 : Response, w.execute 0 = .error .deadlineExceeded → w.execute 1 = .ok r2 →
      r2.status = 200 → r2.OctetStream → c.Decodable r2 → 2 ≤ fuel →
      c.CallAPI w fuel path data Run.start =
        some (⟨some r2, none⟩,
          ⟨2, 0, 0, 0, 0, [.test 0, .count 1, .request 0, .sleep,
            .test 1, .count 2, .request 1]⟩)) := by
  simp only [SekaiClient.CallAPI, hurl, hsess, Bool.true_eq_false, if_false]
  constructor
  · intro h hfuel
    have := callLoop_exec_errors c w data Run.start fuel (fun _ => .deadlineExceeded) hprep
      (by intro k hk; simpa [Run.start] using h k hk) hfuel
    simpa [Run.start] using this
  · intro r2 h0 h1 h2s h2c h2b hfuel
    obtain ⟨k, rfl⟩ : ∃ k, fuel = k + 2 := ⟨fuel - 2, by omega⟩
    obtain ⟨m2, hm2⟩ := h2b
    have hr2 : c.handleResponse r2 = .ok m2 := by
      rw [handleResponse_octet_decoded c r2 m2 .Ok h2c hm2 (by rw [h2s]; rfl)]
    rw [callLoop_attempt c w data _ 0 none Run.start (by decide) hprep]
    simp only [Run.start, h0]
    simp only [show ((0 : Int) + 1 < maxRetries) = True by decide, if_true]
    rw [callLoop_attempt c w data _ (0 + 1) _ _ (by decide) hprep]
    simp only [Run.log, Run.attempt, h1, hr2]
    rfl

/-- Witness for C9: a server whose first answer is lost to the deadline and whose
second answer is the packed example map. -/
theorem CallAPI_deadline_retries_witness :
    (exampleClient .jp).CallAPI
        (scriptedWorld [.error .deadlineExceeded]
          (.ok ⟨200, "application/octet-stream", exampleBody, ""⟩)) 2 "/system"
        .nil Run.start =
      some (⟨some ⟨200, "application/octet-stream", exampleBody, ""⟩, none⟩,
        ⟨2, 0, 0, 0, 0, [.test 0, .count 1, .request 0, .sleep,
          .test 1, .count 2, .request 1]⟩) :=
  (CallAPI_deadline_retries (exampleClient .jp)
      (scriptedWorld [.error .deadlineExceeded]
        (.ok ⟨200, "application/octet-stream", exampleBody, ""⟩))
      "/system" "/system" .nil 2 rfl rfl rfl).2
    ⟨200, "application/octet-stream", exampleBody, ""⟩ rfl rfl rfl (Or.inl (by decide))
    (exampleBody_decodable _ _ _ _) (by decide)

/-- Counterexample to C9 as stated: after a deadline-exceeded failure of the first
attempt `CallAPI` sleeps and sends three more requests before it returns the error. -/
theorem CallAPI_deadline_not_immediate :
    (exampleClient .jp).CallAPI (scriptedWorld [] (.error .deadlineExceeded)) 5 "/system"
        .nil Run.start =
      some (⟨none, some (.exec .deadlineExceeded)⟩,
        ⟨4, 0, 0, 0, 0, [.test 0, .count 1, .request 0, .sleep,
          .test 1, .count 2, .request 1, .sleep,
          .test 2, .count 3, .request 2, .sleep,
          .test 3, .count 4, .request 3, .test 4]⟩) ∧
    requestCount [Event.test 0, .count 1, .request 0, .sleep,
          .test 1, .count 2, .request 1, .sleep,
          .test 2, .count 3, .request 2, .sleep,
          .test 3, .count 4, .request 3, .test 4] = 4 ∧
    sleepCount [Event.test 0, .count 1, .request 0, .sleep,
          .test 1, .count 2, .request 1, .sleep,
          .test 2, .count 3, .request 2, .sleep,
          .test 3, .count 4, .request 3, .test 4] = 3 :=
  ⟨rfl, by decide, by decide⟩

/-! ### The manager's retry loop -/

theorem getClient_of_nonempty (mgr : SekaiClientManager) (h : mgr.Clients ≠ []) :
    ∃ (idx : Nat) (c : SekaiClient) (no : Int),
      mgr.getClient = (some (idx, c), { mgr with ClientNo := no }) ∧ c ∈ mgr.Clients := by
  have hlen : 0 < mgr.Clients.length := List.length_pos.mpr h
  unfold SekaiClientManager.getClient
  rw [if_neg (by omega)]
  simp only []
  generalize hno : (if mgr.ClientNo ≥ (mgr.Clients.length : Int) ∨ mgr.ClientNo < 0 then (0 : Int)
    else mgr.ClientNo) = clientNo
  have h0 : 0 ≤ clientNo % (mgr.Clients.length : Int) :=
    Int.emod_nonneg _ (by omega)
  have h1 : clientNo % (mgr.Clients.length : Int) < mgr.Clients.length :=
    Int.emod_lt_of_pos _ (by omega)
  have hlt : (clientNo % (mgr.Clients.length : Int)).toNat < mgr.Clients.length := by omega
  obtain ⟨c, hc⟩ : ∃ c, mgr.Clients.get? (clientNo % (mgr.Clients.length : Int)).toNat = some c :=
    ⟨_, List.get?_eq_get hlt⟩
  rw [hc]
  exact ⟨_, c, _, rfl, List.get?_mem hc⟩

theorem Get_maintenance (c : SekaiClient) (w : World) (path url : String) (r : Response)
    (run : Run) (fuel : Nat)
    (hurl : c.expandURL path = .ok url) (hsess : c.hasSession = true)
    (h : w.execute run.requests = .ok r) (hs : r.status = 503)
    (hcase : ¬ r.OctetStream ∨ c.Decodable r) :
    c.Get w (fuel + 1) path run = some (⟨none, some .underMaintenance⟩, run.attempt 0) := by
  simp only [SekaiClient.Get, SekaiClient.CallAPI, hurl, hsess, Bool.true_eq_false, if_false]
  exact (callLoop_maintenance c w .nil r run fuel 0 none (by decide) rfl h hs).1 hcase

theorem getCount_append (t u : List Event) : getCount (t ++ u) = getCount t + getCount u := by
  simp [getCount]

theorem managerSleepCount_append (t u : List Event) :
    managerSleepCount (t ++ u) = managerSleepCount t + managerSleepCount u := by
  simp [managerSleepCount]

/-- A manager whose every request is answered with a maintenance response goes
through all remaining attempts, sleeping between them, and ends with the envelope of
`handleGetError`. -/
theorem getLoop_maintenance (w : World) (fuel : Nat) (path : String)
    (hw : ∀ k, ∃ r, w.execute k = .ok r ∧ r.status = 503 ∧ ¬ r.OctetStream) :
    ∀ (n budget : Nat) (retryCount : Int) (mgr : SekaiClientManager) (run : Run),
      retryCount + (n + 1) = 4 → n + 1 ≤ budget → mgr.Clients ≠ [] →
      (∀ c ∈ mgr.Clients, (∃ url, c.expandURL path = .ok url) ∧ c.hasSession = true) →
      ∃ (mgr2 : SekaiClientManager) (run2 : Run),
        SekaiClientManager.getLoop w (fuel + 1) path budget retryCount mgr run =
          some (⟨.failed ⟨"failed", 500,
            "Failed to get response: Game server may under maintenance."⟩, 500,
            some .underMaintenance⟩, mgr2, run2) ∧
        getCount run2.trace = getCount run.trace + (n + 1) ∧
        managerSleepCount run2.trace = managerSleepCount run.trace + n ∧
        run2.requests = run.requests + (n + 1)
  | n, 0, _, _, _, _, hb, _, _ => by omega
  | n, budget + 1, retryCount, mgr, run, hrc, hb, hne, hcl => by
    obtain ⟨idx, c, no, hget, hmem⟩ := getClient_of_nonempty mgr hne
    obtain ⟨⟨url, hurl⟩, hsess⟩ := hcl c hmem
    obtain ⟨r, hr, hs, hct⟩ := hw (run.log (.get idx)).requests
    have hG := Get_maintenance c w path url r (run.log (.get idx)) fuel hurl hsess hr hs
      (Or.inl hct)
    have hlt : retryCount < maxRetries := by simp only [maxRetries]; omega
    simp only [SekaiClientManager.getLoop, if_pos hlt, hget, hG,
      SekaiClientManager.handleGetError]
    cases n with
    | zero =>
      have h3 : retryCount ≥ maxRetries - 1 := by simp only [maxRetries]; omega
      simp only [if_pos h3]
      refine ⟨_, _, rfl, ?_, ?_, ?_⟩
      · simp [Run.attempt, Run.log, getCount]
      · simp [Run.attempt, Run.log, managerSleepCount]
      · simp [Run.attempt, Run.log]
    | succ n =>
      have h3 : ¬ retryCount ≥ maxRetries - 1 := by simp only [maxRetries]; omega
      simp only [if_neg h3]
      obtain ⟨mgr2, run2, heq, hg, hsl, hrq⟩ :=
        getLoop_maintenance w fuel path hw n budget (retryCount + 1) { mgr with ClientNo := no }
          (((run.log (.get idx)).attempt 0).log .managerSleep) (by omega) (by omega) hne hcl
      refine ⟨mgr2, run2, heq, ?_, ?_, ?_⟩
      · rw [hg]; simp [Run.attempt, Run.log, getCount]; omega
      · rw [hsl]; simp [Run.attempt, Run.log, managerSleepCount]; omega
      · rw [hrq]; simp [Run.attempt, Run.log]; omega


/-- Claim C10 (the code departs from it).  When the game server answers every
request with a maintenance response (status 503, not octet-stream), `GetGameAPI`
does not return at once: each `Get` fails with `UnderMaintenanceError`, which
`handleGetError` treats like any other error, so the manager calls `Get` four times
with three sleeps and returns HTTP status 500 with the envelope
`failed / 500 / Failed to get response: Game server may under maintenance.` -/
theorem GetGameAPI_maintenance_retries (mgr : SekaiClientManager) (w : World) (fuel : Nat)
    (path : String) (hne : mgr.Clients ≠ [])
    (hcl : ∀ c ∈ mgr.Clients, (∃ url, c.expandURL path = .ok url) ∧ c.hasSession = true)
    (hw : ∀ k, ∃ r, w.execute k = .ok r ∧ r.status = 503 ∧ ¬ r.OctetStream)
    (hfuel : 1 ≤ fuel) :
    ∃ (mgr2 : SekaiClientManager) (run2 : Run),
      mgr.GetGameAPI w fuel path Run.start =
        some (⟨.failed ⟨"failed", 500,
          "Failed to get response: Game server may under maintenance."⟩, 500,
          some .underMaintenance⟩, mgr2, run2) ∧
      getCount run2.trace = 4 ∧ managerSleepCount run2.trace = 3 ∧ run2.requests = 4 := by
  obtain ⟨k, rfl⟩ : ∃ k, fuel = k + 1 := ⟨fuel - 1, by omega⟩
  have hlen : ¬ mgr.Clients.length = 0 := fun h => hne (List.eq_nil_of_length_eq_zero h)
  obtain ⟨mgr2, run2, heq, hg, hsl, hrq⟩ :=
    getLoop_maintenance w k path hw 3 5 0 mgr Run.start (by decide) (by decide) hne hcl
  refine ⟨mgr2, run2, ?_, ?_, ?_, ?_⟩
  · simp only [SekaiClientManager.GetGameAPI, if_neg hlen, heq]
  · rw [hg]; rfl
  · rw [hsl]; rfl
  · rw [hrq]; rfl

/-- Witness for C10: the example manager against a server under maintenance. -/
theorem GetGameAPI_maintenance_retries_witness :
    ∃ (mgr2 : SekaiClientManager) (run2 : Run),
      exampleManager.GetGameAPI (scriptedWorld [] (.ok ⟨503, "text/html", [], ""⟩)) 1
          "/system" Run.start =
        some (⟨.failed ⟨"failed", 500,
          "Failed to get response: Game server may under maintenance."⟩, 500,
          some .underMaintenance⟩, mgr2, run2) ∧
      getCount run2.trace = 4 ∧ managerSleepCount run2.trace = 3 ∧ run2.requests = 4 :=
  GetGameAPI_maintenance_retries exampleManager _ 1 "/system"
    (by simp [exampleManager])
    (by
      intro c hc
      simp only [exampleManager, List.mem_cons, List.mem_singleton, List.not_mem_nil,
        or_false, or_self] at hc
      subst hc
      exact ⟨⟨"/system", rfl⟩, rfl⟩)
    (fun _ => ⟨⟨503, "text/html", [], ""⟩, rfl, rfl, by
      unfold Response.OctetStream; decide⟩)
    (by decide)

/-! ### Colliding map keys -/

theorem OrderedMap.keys_set (om : OrderedMap) (k : String) (v : GoVal) :
    OrderedMap.keys (OrderedMap.set om k v) =
      if k ∈ OrderedMap.keys om then OrderedMap.keys om else OrderedMap.keys om ++ [k] := by
  induction om with
  | nil => simp [OrderedMap.set, OrderedMap.keys]
  | cons e rest ih =>
    obtain ⟨k2, v2⟩ := e
    simp only [OrderedMap.keys] at ih
    by_cases h : k2 = k
    · simp [OrderedMap.set, OrderedMap.keys, h]
    · have h2 : ¬ k = k2 := fun e => h e.symm
      simp only [OrderedMap.set, if_neg h, OrderedMap.keys, List.map_cons, List.mem_cons, h2,
        false_or, ih]
      split <;> simp

theorem OrderedMap.get_set (om : OrderedMap) (k : String) (v : GoVal) (k2 : String) :
    OrderedMap.get (OrderedMap.set om k v) k2 = if k2 = k then some v else OrderedMap.get om k2 := by
  induction om with
  | nil =>
    by_cases h : k2 = k
    · simp [OrderedMap.set, OrderedMap.get, h]
    · have h2 : ¬ k = k2 := fun e => h e.symm
      simp [OrderedMap.set, OrderedMap.get, h, h2]
  | cons e rest ih =>
    obtain ⟨k3, v3⟩ := e
    by_cases h : k3 = k
    · subst h
      by_cases h2 : k2 = k3
      · simp [OrderedMap.set, OrderedMap.get, h2]
      · have h3 : ¬ k3 = k2 := fun e => h2 e.symm
        simp [OrderedMap.set, OrderedMap.get, h2, h3]
    · simp only [OrderedMap.set, if_neg h, OrderedMap.get, ih]
      by_cases h2 : k3 = k2
      · have h3 : ¬ k2 = k := fun e => h (h2.trans e)
        simp [h2, h3]
      · simp [h2]

theorem decodedPairs_eq_foldl (lib : Library) : ∀ (kvs : List (Wire × Wire)) (om : OrderedMap),
    Wire.decodedPairs lib kvs om =
      (Wire.wireEntries lib kvs).foldl (fun o e => OrderedMap.set o e.1 e.2) om
  | [], _ => rfl
  | (k, v) :: kvs, om => by
    simp only [Wire.decodedPairs, Wire.wireEntries, List.map_cons, List.foldl_cons]
    exact decodedPairs_eq_foldl lib kvs _

theorem keys_foldl_set : ∀ (es : List (String × GoVal)) (om : OrderedMap),
    OrderedMap.keys (es.foldl (fun o e => OrderedMap.set o e.1 e.2) om) =
      OrderedMap.keys om ++
        (firstOccurrences (es.map Prod.fst)).filter (fun x => x ∉ OrderedMap.keys om)
  | [], om => by simp [firstOccurrences]
  | (k, v) :: es, om => by
    simp only [List.foldl_cons, List.map_cons, firstOccurrences]
    rw [keys_foldl_set es (OrderedMap.set om k v), OrderedMap.keys_set]
    by_cases h : k ∈ OrderedMap.keys om
    · rw [if_pos h]
      simp only [List.filter_cons, h, not_true_eq_false, decide_False,
        Bool.false_eq_true, if_false, List.filter_filter]
      congr 1
      apply List.filter_congr
      intro x _
      by_cases hx : x ∈ OrderedMap.keys om
      · simp [hx]
      · have : x ≠ k := fun e => hx (e ▸ h)
        simp [hx, this]
    · rw [if_neg h]
      simp only [List.filter_cons, h, not_false_eq_true, decide_True, if_true,
        List.filter_filter, List.append_assoc, List.singleton_append]
      congr 2
      apply List.filter_congr
      intro x _
      simp only [List.mem_append, List.mem_singleton, not_or, ne_eq, decide_not, Bool.and_eq_true,
        Bool.not_eq_true', decide_eq_false_iff_not, Bool.decide_and, decide_eq_true_eq]

theorem get_foldl_set : ∀ (es : List (String × GoVal)) (om : OrderedMap) (k : String),
    OrderedMap.get (es.foldl (fun o e => OrderedMap.set o e.1 e.2) om) k =
      es.foldl (fun acc e => if e.1 = k then some e.2 else acc) (OrderedMap.get om k)
  | [], _, _ => rfl
  | (k2, v) :: es, om, k => by
    simp only [List.foldl_cons]
    rw [get_foldl_set es _ k, OrderedMap.get_set]
    by_cases h : k2 = k
    · simp [h]
    · have h2 : ¬ k = k2 := fun e => h e.symm
      simp [h, h2]

theorem mem_firstOccurrences : ∀ (l : List String) (x : String),
    x ∈ firstOccurrences l ↔ x ∈ l
  | [], _ => by simp [firstOccurrences]
  | k :: ks, x => by
    simp only [firstOccurrences, List.mem_cons, List.mem_filter, mem_firstOccurrences ks x,
      ne_eq, decide_not, Bool.not_eq_true', decide_eq_false_iff_not]
    by_cases h : x = k <;> simp [h]

theorem nodup_firstOccurrences : ∀ (l : List String), (firstOccurrences l).Nodup
  | [] => by simp [firstOccurrences]
  | k :: ks => by
    simp only [firstOccurrences, List.nodup_cons, List.mem_filter, ne_eq, decide_not,
      Bool.not_eq_true', decide_eq_false_iff_not, not_and, not_not]
    exact ⟨fun _ => trivial, (nodup_firstOccurrences ks).filter _⟩

theorem wireEntries_keys (lib : Library) (kvs : List (Wire × Wire)) :
    (Wire.wireEntries lib kvs).map Prod.fst = Wire.wireKeys lib kvs := by
  induction kvs with
  | nil => rfl
  | cons kv rest ih =>
    obtain ⟨k, v⟩ := kv
    simp only [Wire.wireEntries, List.map_cons, Wire.wireKeys, List.map_map] at ih ⊢
    rfl

theorem decodedPairs_colliding (lib : Library) (kvs : List (Wire × Wire)) :
    OrderedMap.keys (Wire.decodedPairs lib kvs OrderedMap.new)
        = firstOccurrences (Wire.wireKeys lib kvs) ∧
      (∀ k, OrderedMap.get (Wire.decodedPairs lib kvs OrderedMap.new) k
        = lastValue (Wire.wireEntries lib kvs) k) := by
  rw [decodedPairs_eq_foldl]
  refine ⟨?_, ?_⟩
  · rw [keys_foldl_set, wireEntries_keys]
    simp [OrderedMap.new, OrderedMap.keys]
  · intro k
    rw [get_foldl_set]
    rfl

theorem firstOccurrences_length (l : List String) :
    (firstOccurrences l).length = l.toFinset.card := by
  rw [← List.toFinset_card_of_nodup (nodup_firstOccurrences l)]
  congr 1
  ext x
  simp [mem_firstOccurrences]

theorem collidingPairs_wellFormed :
    (Wire.map .fix collidingPairs).WellFormed exampleLibrary := by
  simp [collidingPairs, Wire.WellFormed, Wire.WellFormedPairs, Wire.WellFormedList, LenFmt.bound]

/-- Claim C30.  For every MessagePack encoding of a map, `MsgpackToOrderedMap` returns
an ordered map whose key list holds each stringified wire key once, at the position
of its first occurrence; the value found under a key is the decoded value of the last
wire pair with that stringified key; and the number of keys is the number of distinct
stringified wire keys. -/
theorem decodeMap_colliding_keys (lib : Library) (f : LenFmt) (kvs : List (Wire × Wire))
    (hw : (Wire.map f kvs).WellFormed lib) :
    ∃ om : OrderedMap, MsgpackToOrderedMap lib (Wire.map f kvs).encode = .ok om ∧
      OrderedMap.keys om = firstOccurrences (Wire.wireKeys lib kvs) ∧
      (OrderedMap.keys om).Nodup ∧
      (∀ s, s ∈ OrderedMap.keys om ↔ s ∈ Wire.wireKeys lib kvs) ∧
      (OrderedMap.keys om).length = (Wire.wireKeys lib kvs).toFinset.card ∧
      (∀ k, OrderedMap.get om k = lastValue (Wire.wireEntries lib kvs) k) := by
  obtain ⟨hk, hg⟩ := decodedPairs_colliding lib kvs
  refine ⟨_, MsgpackToOrderedMap_encode lib f kvs hw, hk, ?_, ?_, ?_, hg⟩
  · rw [hk]
    exact nodup_firstOccurrences _
  · intro s
    rw [hk]
    exact mem_firstOccurrences _ s
  · rw [hk]
    exact firstOccurrences_length _

/-- Witness for C30: a three-pair map whose first key, the integer 1, and third key,
the string `1`, stringify alike; the result has two keys and the later value. -/
theorem decodeMap_colliding_keys_witness :
    (Wire.map .fix collidingPairs).WellFormed exampleLibrary ∧
    (Wire.map .fix collidingPairs).encode = [0x83, 1, 0xa1, 0x61, 0xa1, 0x78, 0xc0, 0xa1, 0x31, 0xa1, 0x62] ∧
    Wire.wireKeys exampleLibrary collidingPairs = ["1", "x", "1"] ∧
    MsgpackToOrderedMap exampleLibrary (Wire.map .fix collidingPairs).encode
      = .ok [("1", .str "b"), ("x", .nil)] ∧
    ∃ om : OrderedMap,
      MsgpackToOrderedMap exampleLibrary (Wire.map .fix collidingPairs).encode = .ok om ∧
      OrderedMap.keys om = firstOccurrences (Wire.wireKeys exampleLibrary collidingPairs) ∧
      (OrderedMap.keys om).Nodup ∧
      (∀ s, s ∈ OrderedMap.keys om ↔ s ∈ Wire.wireKeys exampleLibrary collidingPairs) ∧
      (OrderedMap.keys om).length = (Wire.wireKeys exampleLibrary collidingPairs).toFinset.card ∧
      (∀ k, OrderedMap.get om k = lastValue (Wire.wireEntries exampleLibrary collidingPairs) k) :=
  ⟨collidingPairs_wellFormed, rfl, rfl, rfl,
    decodeMap_colliding_keys exampleLibrary .fix collidingPairs collidingPairs_wellFormed⟩

/-! ### The request bound of `CallAPI` -/

theorem counterValues_append (a b : List Event) :
    counterValues (a ++ b) = counterValues a ++ counterValues b := by
  simp [counterValues, List.filterMap_append]

theorem testValues_append (a b : List Event) :
    testValues (a ++ b) = testValues a ++ testValues b := by
  simp [testValues, List.filterMap_append]

theorem requestCount_append (a b : List Event) :
    requestCount (a ++ b) = requestCount a + requestCount b := by
  simp [requestCount, List.filter_append]

theorem handleResponseError_run (c : SekaiClient) (w : World) (e : ClientError) (r : Response)
    (run : Run) :
    ∃ ev, (c.handleResponseError w e r run).2.trace = run.trace ++ ev ∧
      (ev = [] ∨ ev = [.login] ∨ ev = [.cookies]) ∧
      (c.handleResponseError w e r run).2.requests = run.requests := by
  cases e <;>
    simp only [SekaiClient.handleResponseError, SekaiClient.handleSessionError,
      SekaiClient.handleCookieExpiredError, SekaiClient.handleUpgradeError,
      SekaiClient.Login, SekaiClient.ParseCookies]
  case session =>
    cases w.login run.logins <;> exact ⟨[.login], by simp, by simp, by simp⟩
  case cookieExpired =>
    by_cases h : c.Server ≠ .jp
    · rw [if_pos h]
      exact ⟨[], by simp, by simp, by simp⟩
    · rw [if_neg h]
      cases w.cookies run.cookieFetches <;> exact ⟨[.cookies], by simp, by simp, by simp⟩
  case upgradeRequired =>
    by_cases h : c.Server = .jp ∨ c.Server = .en
    · simp only [if_pos h]
      exact ⟨[], by simp, by simp, by simp⟩
    · simp only [if_neg h]
      cases w.login run.logins <;> exact ⟨[.login], by simp, by simp, by simp⟩
  all_goals
    first
      | (split <;> exact ⟨[], by simp, by simp, by simp⟩)
      | exact ⟨[], by simp, by simp, by simp⟩

theorem descents_cons_cons (a b : Int) (l : List Int) :
    descents (a :: b :: l) = (if b < a then 1 else 0) + descents (b :: l) := rfl

theorem mem_counterValues_of_mem_testValues (t : List Event) (v : Int)
    (h : v ∈ testValues t) : v ∈ counterValues t := by
  simp only [testValues, counterValues, List.mem_filterMap] at h ⊢
  obtain ⟨e, he, hv⟩ := h
  refine ⟨e, he, ?_⟩
  cases e <;> simp_all

theorem invariant_extend (run run1 run2 : Run) (pre added : List Event) (rc rc1 : Int)
    (tl : List Int) (h0 : 0 ≤ rc) (h4 : rc < 4)
    (hpre : run1.trace = run.trace ++ pre) (hpreq : run1.requests = run.requests + 1)
    (hprc : requestCount pre = 1) (hgp : getCount pre = 0)
    (hcvp : (counterValues pre = [rc, rc + 1] ∧ rc1 = rc + 1) ∨
      (counterValues pre = [rc, rc + 1, rc] ∧ rc1 = rc))
    (ht : run2.trace = run1.trace ++ added) (hcv : counterValues added = rc1 :: tl)
    (hall : ∀ v ∈ counterValues added, 0 ≤ v ∧ v ≤ 4)
    (hreq : (requestCount added : Int) + rc1 ≤ 4 + descents (counterValues added))
    (hrq : run2.requests = run1.requests + requestCount added) (hga : getCount added = 0) :
    ∃ added2 tl2, run2.trace = run.trace ++ added2 ∧ counterValues added2 = rc :: tl2 ∧
      (∀ v ∈ counterValues added2, 0 ≤ v ∧ v ≤ 4) ∧
      (requestCount added2 : Int) + rc ≤ 4 + descents (counterValues added2) ∧
      run2.requests = run.requests + requestCount added2 ∧ getCount added2 = 0 := by
  have hg2 : getCount (pre ++ added) = 0 := by
    rw [getCount_append, hgp, hga]
  have htr : run2.trace = run.trace ++ (pre ++ added) := by
    rw [ht, hpre, List.append_assoc]
  have hrq2 : run2.requests = run.requests + requestCount (pre ++ added) := by
    rw [hrq, hpreq, requestCount_append, hprc]
    omega
  rcases hcvp with ⟨hp, rfl⟩ | ⟨hp, rfl⟩
  · have hcv2 : counterValues (pre ++ added) = rc :: (rc + 1) :: (rc + 1) :: tl := by
      rw [counterValues_append, hp, hcv]
      rfl
    refine ⟨pre ++ added, _, htr, hcv2, ?_, ?_, hrq2, hg2⟩
    · intro v hv
      rw [counterValues_append, List.mem_append, hp] at hv
      rcases hv with hv | hv
      · simp only [List.mem_cons, List.mem_singleton, List.not_mem_nil, or_false] at hv
        rcases hv with rfl | rfl <;> constructor <;> omega
      · exact hall v hv
    · rw [hcv2, requestCount_append, hprc, descents_cons_cons, descents_cons_cons]
      rw [hcv] at hreq
      push_cast
      split_ifs <;> omega
  · have hcv2 : counterValues (pre ++ added) = rc1 :: (rc1 + 1) :: rc1 :: rc1 :: tl := by
      rw [counterValues_append, hp, hcv]
      rfl
    refine ⟨pre ++ added, _, htr, hcv2, ?_, ?_, hrq2, hg2⟩
    · intro v hv
      rw [counterValues_append, List.mem_append, hp] at hv
      rcases hv with hv | hv
      · simp only [List.mem_cons, List.mem_singleton, List.not_mem_nil, or_false] at hv
        rcases hv with rfl | rfl | rfl <;> constructor <;> omega
      · exact hall v hv
    · rw [hcv2, requestCount_append, hprc, descents_cons_cons, descents_cons_cons,
        descents_cons_cons]
      rw [hcv] at hreq
      push_cast
      split_ifs <;> omega

theorem invariant_return (run : Run) (ev : List Event) (rc : Int) (h0 : 0 ≤ rc) (h4 : rc < 4)
    (hev : ev = [] ∨ ev = [.login] ∨ ev = [.cookies]) (run2 : Run)
    (ht : run2.trace = (run.attempt rc).trace ++ ev)
    (hrq : run2.requests = (run.attempt rc).requests) :
    ∃ added tl, run2.trace = run.trace ++ added ∧ counterValues added = rc :: tl ∧
      (∀ v ∈ counterValues added, 0 ≤ v ∧ v ≤ 4) ∧
      (requestCount added : Int) + rc ≤ 4 + descents (counterValues added) ∧
      run2.requests = run.requests + requestCount added ∧ getCount added = 0 := by
  have hgc : getCount ([.test rc, .count (rc + 1), .request run.requests] ++ ev) = 0 := by
    rcases hev with rfl | rfl | rfl <;> rfl
  have hcv : counterValues ([.test rc, .count (rc + 1), .request run.requests] ++ ev)
      = [rc, rc + 1] := by
    rcases hev with rfl | rfl | rfl <;> rfl
  have hrc : requestCount ([.test rc, .count (rc + 1), .request run.requests] ++ ev) = 1 := by
    rcases hev with rfl | rfl | rfl <;> rfl
  refine ⟨[.test rc, .count (rc + 1), .request run.requests] ++ ev, [rc + 1], ?_, hcv, ?_, ?_, ?_,
    hgc⟩
  · rw [ht]
    simp [Run.attempt]
  · intro v hv
    rw [hcv] at hv
    simp only [List.mem_cons, List.mem_singleton, List.not_mem_nil, or_false] at hv
    rcases hv with rfl | rfl <;> constructor <;> omega
  · rw [hcv, hrc, descents_cons_cons]
    simp only [descents]
    push_cast
    split_ifs <;> omega
  · rw [hrq, hrc]
    rfl

theorem callLoop_invariant (c : SekaiClient) (w : World) (data : GoVal) :
    ∀ (fuel : Nat) (rc : Int) (lastErr : Option ClientError) (run : Run) (res : CallResult)
      (run2 : Run), 0 ≤ rc → rc ≤ 4 →
      c.callLoop w data fuel rc lastErr run = some (res, run2) →
      ∃ added tl, run2.trace = run.trace ++ added ∧ counterValues added = rc :: tl ∧
        (∀ v ∈ counterValues added, 0 ≤ v ∧ v ≤ 4) ∧
        (requestCount added : Int) + rc ≤ 4 + descents (counterValues added) ∧
        run2.requests = run.requests + requestCount added ∧ getCount added = 0 := by
  intro fuel
  induction fuel with
  | zero =>
    intro rc lastErr run res run2 _ _ h
    simp [SekaiClient.callLoop] at h
  | succ n ih =>
    intro rc lastErr run res run2 h0 h4 h
    by_cases hlt : rc < maxRetries
    · have hlt4 : rc < 4 := hlt
      cases hprep : c.prepareRequest data with
      | error err =>
        simp only [SekaiClient.callLoop, if_pos hlt, hprep, Option.some.injEq,
          Prod.mk.injEq] at h
        obtain ⟨-, rfl⟩ := h
        refine ⟨[.test rc, .count (rc + 1)], [rc + 1], by simp [Run.log], rfl, ?_, ?_, rfl, rfl⟩
        · intro v hv
          have hv2 : v ∈ [rc, rc + 1] := hv
          simp only [List.mem_cons, List.mem_singleton, List.not_mem_nil, or_false] at hv2
          rcases hv2 with rfl | rfl <;> constructor <;> omega
        · show ((0 : Nat) : Int) + rc ≤ 4 + descents [rc, rc + 1]
          rw [descents_cons_cons]
          simp only [descents]
          push_cast
          split_ifs <;> omega
      | ok u =>
        rw [callLoop_attempt c w data n rc lastErr run hlt hprep] at h
        cases hex : w.execute run.requests with
        | error execErr =>
          rw [hex] at h
          simp only at h
          obtain ⟨added, tl, ht, hcv, hall, hreq, hrq, hga⟩ :=
            ih (rc + 1) _ _ res run2 (by omega) (by omega) h
          by_cases hs : rc + 1 < maxRetries
          · rw [if_pos hs] at ht hrq
            exact invariant_extend run _ run2
              [.test rc, .count (rc + 1), .request run.requests, .sleep] added rc (rc + 1) tl
              h0 hlt4 (by simp [Run.log, Run.attempt]) rfl rfl rfl (Or.inl ⟨rfl, rfl⟩)
              ht hcv hall hreq hrq hga
          · rw [if_neg hs] at ht hrq
            exact invariant_extend run _ run2
              [.test rc, .count (rc + 1), .request run.requests] added rc (rc + 1) tl
              h0 hlt4 (by simp [Run.attempt]) rfl rfl rfl (Or.inl ⟨rfl, rfl⟩)
              ht hcv hall hreq hrq hga
        | ok response =>
          rw [hex] at h
          simp only at h
          cases hr : c.handleResponse response with
          | ok m =>
            rw [hr] at h
            simp only [Option.some.injEq, Prod.mk.injEq] at h
            obtain ⟨-, rfl⟩ := h
            exact invariant_return run [] rc h0 hlt4 (Or.inl rfl) _ (by simp) rfl
          | error respErr =>
            rw [hr] at h
            simp only at h
            obtain ⟨ev, hev, hevc, hevr⟩ :=
              handleResponseError_run c w respErr response (run.attempt rc)
            rcases hh : c.handleResponseError w respErr response (run.attempt rc) with
              ⟨⟨err, b⟩, run3⟩
            rw [hh] at h hev hevr
            simp only at hev hevr
            cases b with
            | true =>
              simp only [Option.some.injEq, Prod.mk.injEq] at h
              obtain ⟨-, rfl⟩ := h
              exact invariant_return run ev rc h0 hlt4 hevc _ hev hevr
            | false =>
              have hcvp : counterValues
                  ([.test rc, .count (rc + 1), .request run.requests] ++ ev) = [rc, rc + 1] := by
                rcases hevc with rfl | rfl | rfl <;> rfl
              have hrcp : requestCount
                  ([.test rc, .count (rc + 1), .request run.requests] ++ ev) = 1 := by
                rcases hevc with rfl | rfl | rfl <;> rfl
              have hgcp : getCount
                  ([.test rc, .count (rc + 1), .request run.requests] ++ ev) = 0 := by
                rcases hevc with rfl | rfl | rfl <;> rfl
              cases err with
              | none =>
                simp only at h
                obtain ⟨added, tl, ht, hcv, hall, hreq, hrq, hga⟩ :=
                  ih rc _ _ res run2 h0 h4 h
                refine invariant_extend run (run3.log (.count rc)) run2
                  ([.test rc, .count (rc + 1), .request run.requests] ++ ev ++ [.count rc])
                  added rc rc tl h0 hlt4 ?_ ?_ ?_ ?_ (Or.inr ⟨?_, rfl⟩) ht hcv hall hreq hrq hga
                · simp [Run.log, hev, Run.attempt]
                · simp [Run.log, hevr, Run.attempt]
                · rw [requestCount_append, hrcp]
                  rfl
                · rw [getCount_append, hgcp]
                  rfl
                · rw [counterValues_append, hcvp]
                  rfl
              | some e =>
                simp only at h
                obtain ⟨added, tl, ht, hcv, hall, hreq, hrq, hga⟩ :=
                  ih (rc + 1) _ _ res run2 (by omega) (by omega) h
                by_cases hs : rc + 1 < maxRetries
                · rw [if_pos hs] at ht hrq
                  refine invariant_extend run (run3.log .sleep) run2
                    ([.test rc, .count (rc + 1), .request run.requests] ++ ev ++ [.sleep])
                    added rc (rc + 1) tl h0 hlt4 ?_ ?_ ?_ ?_ (Or.inl ⟨?_, rfl⟩) ht hcv hall hreq hrq
                    hga
                  · simp [Run.log, hev, Run.attempt]
                  · simp [Run.log, hevr, Run.attempt]
                  · rw [requestCount_append, hrcp]
                    rfl
                  · rw [getCount_append, hgcp]
                    rfl
                  · rw [counterValues_append, hcvp]
                    rfl
                · rw [if_neg hs] at ht hrq
                  refine invariant_extend run run3 run2
                    ([.test rc, .count (rc + 1), .request run.requests] ++ ev)
                    added rc (rc + 1) tl h0 hlt4 ?_ ?_ hrcp hgcp (Or.inl ⟨hcvp, rfl⟩)
                    ht hcv hall hreq hrq hga
                  · simp [hev, Run.attempt]
                  · simp [hevr, Run.attempt]
    · have hrc : rc = 4 := by
        have : ¬ rc < 4 := hlt
        omega
      subst hrc
      have hrun : run2 = run.log (.test 4) := by
        simp only [SekaiClient.callLoop, if_neg hlt] at h
        cases lastErr <;> simp only [Option.some.injEq, Prod.mk.injEq] at h <;> exact h.2.symm
      subst hrun
      refine ⟨[.test 4], [], by simp [Run.log], rfl, ?_, ?_, rfl, rfl⟩
      · intro v hv
        have hv2 : v ∈ [(4 : Int)] := hv
        simp only [List.mem_singleton] at hv2
        subst hv2
        constructor <;> omega
      · show ((0 : Nat) : Int) + 4 ≤ 4 + descents [4]
        simp [descents]

theorem callLoop_terminates (c : SekaiClient) (w : World) (data : GoVal) (N : Nat)
    (hN : ∀ k, N ≤ k → c.NoRecovery w k) :
    ∀ (fuel : Nat) (rc : Int) (lastErr : Option ClientError) (run : Run), 0 ≤ rc → rc ≤ 4 →
      (N - run.requests) + (4 - rc).toNat + 1 ≤ fuel →
      ∃ res, c.callLoop w data fuel rc lastErr run = some res := by
  intro fuel
  induction fuel with
  | zero =>
    intro rc lastErr run _ _ h
    omega
  | succ n ih =>
    intro rc lastErr run h0 h4 hf
    by_cases hlt : rc < maxRetries
    · have hlt4 : rc < 4 := hlt
      cases hprep : c.prepareRequest data with
      | error err =>
        simp only [SekaiClient.callLoop, if_pos hlt, hprep]
        exact ⟨_, rfl⟩
      | ok u =>
        rw [callLoop_attempt c w data n rc lastErr run hlt hprep]
        cases hex : w.execute run.requests with
        | error execErr =>
          simp only
          apply ih (rc + 1) _ _ (by omega) (by omega)
          have : (if rc + 1 < maxRetries then (run.attempt rc).log Event.sleep
              else run.attempt rc).requests = run.requests + 1 := by
            split <;> rfl
          rw [this]
          omega
        | ok response =>
          simp only
          cases hr : c.handleResponse response with
          | ok m => exact ⟨_, rfl⟩
          | error respErr =>
            simp only
            obtain ⟨ev, -, -, hevr⟩ :=
              handleResponseError_run c w respErr response (run.attempt rc)
            have hno := fun h => hN run.requests h response respErr (run.attempt rc) hex hr
            rcases hh : c.handleResponseError w respErr response (run.attempt rc) with
              ⟨⟨err, b⟩, run3⟩
            rw [hh] at hevr hno
            simp only at hevr hno
            have hr3 : run3.requests = run.requests + 1 := hevr
            cases b with
            | true => cases err <;> exact ⟨_, rfl⟩
            | false =>
              have hlt2 : run.requests < N := by
                by_contra hc
                exact Bool.false_ne_true (hno (by omega))
              cases err with
              | none =>
                simp only
                apply ih rc _ _ h0 h4
                have : (run3.log (Event.count rc)).requests = run.requests + 1 := hr3
                rw [this]
                omega
              | some e =>
                simp only
                apply ih (rc + 1) _ _ (by omega) (by omega)
                have : (if rc + 1 < maxRetries then run3.log Event.sleep
                    else run3).requests = run.requests + 1 := by
                  split
                  · exact hr3
                  · exact hr3
                rw [this]
                omega
    · simp only [SekaiClient.callLoop, if_neg hlt]
      cases lastErr <;> exact ⟨_, rfl⟩

theorem handleResponse_exampleResponse_403 (server : Region) :
    (exampleClient server).handleResponse (exampleResponse 403) = .error .session := by
  obtain ⟨m, hm⟩ := exampleBody_decodable server 403 "application/octet-stream" ""
  exact handleResponse_octet_decoded (exampleClient server) (exampleResponse 403) m
    .SessionError (Or.inl rfl) hm rfl

theorem handleResponse_exampleResponse_200 (server : Region) :
    ∃ m, (exampleClient server).handleResponse (exampleResponse 200) = .ok m := by
  obtain ⟨m, hm⟩ := exampleBody_decodable server 200 "application/octet-stream" ""
  exact ⟨m, handleResponse_octet_decoded (exampleClient server) (exampleResponse 200) m
    .Ok (Or.inl rfl) hm rfl⟩

theorem callLoop_session_storm : ∀ (fuel : Nat) (run : Run),
    (exampleClient .tw).callLoop (scriptedWorld [] (.ok (exampleResponse 403))) .nil fuel 0 none
      run = none := by
  intro fuel
  induction fuel with
  | zero => intro run; rfl
  | succ n ih =>
    intro run
    rw [callLoop_attempt (exampleClient .tw) _ .nil n 0 none run (by decide) rfl]
    have hex : (scriptedWorld [] (.ok (exampleResponse 403))).execute run.requests
        = .ok (exampleResponse 403) := by
      simp [scriptedWorld]
    rw [hex]
    simp only [handleResponse_exampleResponse_403, SekaiClient.handleResponseError,
      SekaiClient.handleSessionError, SekaiClient.Login, scriptedWorld]
    exact ih _

theorem callLoop_many_recoveries (n : Nat) : ∀ (m : Nat) (run : Run), run.requests + m = n →
    ∃ res run2, (exampleClient .tw).callLoop
        (scriptedWorld (List.replicate n (.ok (exampleResponse 403))) (.ok (exampleResponse 200)))
        .nil (m + 1) 0 none run = some (res, run2) ∧ run2.requests = n + 1 := by
  intro m
  induction m with
  | zero =>
    intro run hrun
    rw [callLoop_attempt (exampleClient .tw) _ .nil 0 0 none run (by decide) rfl]
    have hex : (scriptedWorld (List.replicate n (.ok (exampleResponse 403)))
        (.ok (exampleResponse 200))).execute run.requests = .ok (exampleResponse 200) := by
      simp only [scriptedWorld, List.getD_eq_getElem?_getD, List.getElem?_replicate]
      rw [if_neg (by omega)]
      rfl
    rw [hex]
    obtain ⟨mp, hmp⟩ := handleResponse_exampleResponse_200 .tw
    simp only [hmp]
    exact ⟨_, _, rfl, by simp [Run.attempt]; omega⟩
  | succ k ih =>
    intro run hrun
    rw [callLoop_attempt (exampleClient .tw) _ .nil (k + 1) 0 none run (by decide) rfl]
    have hex : (scriptedWorld (List.replicate n (.ok (exampleResponse 403)))
        (.ok (exampleResponse 200))).execute run.requests = .ok (exampleResponse 403) := by
      simp only [scriptedWorld, List.getD_eq_getElem?_getD, List.getElem?_replicate]
      rw [if_pos (by omega)]
      rfl
    rw [hex]
    simp only [handleResponse_exampleResponse_403, SekaiClient.handleResponseError,
      SekaiClient.handleSessionError, SekaiClient.Login, scriptedWorld]
    apply ih
    simp only [Run.log, Run.attempt]
    omega


/-- Claim C29.  In a call of `CallAPI` that returns, the retry counter is between 0
and 4 at every loop test, and the number of requests executed is at most 4 plus the
number of times the counter was decremented, which the loop does exactly after a
recovery that succeeded.  If from some request index on no answer leads to a
successful recovery, the call returns once the iteration bound is large enough.
Otherwise there is no bound: against a server that answers every request with a
session error while every login succeeds the call never returns, and for every `n`
there is a server against which the call returns after `n + 1` requests. -/
theorem CallAPI_request_bound (c : SekaiClient) (w : World) (path : String) (data : GoVal) :
    (∀ (fuel : Nat) (res : CallResult) (run : Run),
      c.CallAPI w fuel path data Run.start = some (res, run) →
        (∀ v ∈ testValues run.trace, 0 ≤ v ∧ v ≤ 4) ∧
        requestCount run.trace ≤ 4 + recoveryCount run.trace) ∧
    (∀ N : Nat, (∀ k, N ≤ k → c.NoRecovery w k) → ∀ fuel, N + 5 ≤ fuel →
      ∃ res, c.CallAPI w fuel path data Run.start = some res) ∧
    (∀ fuel, (exampleClient .tw).CallAPI (scriptedWorld [] (.ok (exampleResponse 403)))
      fuel path .nil Run.start = none) ∧
    (∀ n : Nat, ∃ fuel res run,
      (exampleClient .tw).CallAPI
        (scriptedWorld (List.replicate n (.ok (exampleResponse 403)))
          (.ok (exampleResponse 200)))
        fuel path .nil Run.start = some (res, run) ∧
      requestCount run.trace = n + 1) := by
  refine ⟨?_, ?_, ?_, ?_⟩
  · intro fuel res run h
    simp only [SekaiClient.CallAPI] at h
    cases hurl : c.expandURL path with
    | error e =>
      simp only [hurl, Option.some.injEq, Prod.mk.injEq] at h
      obtain ⟨-, rfl⟩ := h
      exact ⟨by simp [testValues, Run.start], by simp [requestCount, Run.start]⟩
    | ok url =>
      simp only [hurl] at h
      by_cases hs : c.hasSession = false
      · simp only [hs, if_true, Option.some.injEq, Prod.mk.injEq] at h
        obtain ⟨-, rfl⟩ := h
        exact ⟨by simp [testValues, Run.start], by simp [requestCount, Run.start]⟩
      · rw [if_neg hs] at h
        obtain ⟨added, tl, ht, -, hall, hreq, -, -⟩ :=
          callLoop_invariant c w data fuel 0 none Run.start res run (le_refl 0) (by decide) h
        have ht2 : run.trace = added := by
          rw [ht]
          rfl
        rw [ht2]
        refine ⟨fun v hv => hall v (mem_counterValues_of_mem_testValues _ v hv), ?_⟩
        unfold recoveryCount
        omega
  · intro N hN fuel hf
    simp only [SekaiClient.CallAPI]
    cases hurl : c.expandURL path with
    | error e => exact ⟨_, rfl⟩
    | ok url =>
      simp only
      by_cases hs : c.hasSession = false
      · rw [if_pos hs]
        exact ⟨_, rfl⟩
      · rw [if_neg hs]
        apply callLoop_terminates c w data N hN fuel 0 none Run.start (le_refl 0) (by decide)
        have : (4 - (0 : Int)).toNat = 4 := rfl
        rw [this]
        omega
  · intro fuel
    exact callLoop_session_storm fuel Run.start
  · intro n
    obtain ⟨res, run2, h, hr⟩ := callLoop_many_recoveries n n Run.start (by simp [Run.start])
    refine ⟨n + 1, res, run2, h, ?_⟩
    obtain ⟨added, tl, ht, -, -, -, hrq, -⟩ :=
      callLoop_invariant _ _ _ _ 0 none Run.start res run2 (le_refl 0) (by decide) h
    have ht2 : run2.trace = added := by
      rw [ht]
      rfl
    rw [ht2]
    rw [hr] at hrq
    simp only [Run.start] at hrq
    omega

/-- Witness for C29: a call that recovers once from a session error executes two
requests, tests the counter at the value 0 twice, and decrements it once. -/
theorem CallAPI_request_bound_witness :
    ∃ run : Run,
      (exampleClient .tw).CallAPI
        (scriptedWorld [.ok (exampleResponse 403)] (.ok (exampleResponse 200)))
        2 "/system" .nil Run.start = some (⟨some (exampleResponse 200), none⟩, run) ∧
      testValues run.trace = [0, 0] ∧ requestCount run.trace = 2 ∧
      recoveryCount run.trace = 1 ∧
      (∀ v ∈ testValues run.trace, 0 ≤ v ∧ v ≤ 4) ∧
      requestCount run.trace ≤ 4 + recoveryCount run.trace :=
  ⟨⟨2, 1, 0, 0, 0, [.test 0, .count 1, .request 0, .login, .count 0,
      .test 0, .count 1, .request 1]⟩, rfl, rfl, rfl, rfl,
    (CallAPI_request_bound (exampleClient .tw)
      (scriptedWorld [.ok (exampleResponse 403)] (.ok (exampleResponse 200)))
      "/system" .nil).1 2 _ _ rfl⟩

/-! ### The attempt bound of `GetGameAPI` -/

theorem Get_getCount (c : SekaiClient) (w : World) (fuel : Nat) (path : String) (run : Run)
    (res : CallResult) (run2 : Run) (h : c.Get w fuel path run = some (res, run2)) :
    getCount run2.trace = getCount run.trace := by
  simp only [SekaiClient.Get, SekaiClient.CallAPI] at h
  cases hurl : c.expandURL path with
  | error e =>
    simp only [hurl, Option.some.injEq, Prod.mk.injEq] at h
    rw [← h.2]
  | ok url =>
    simp only [hurl] at h
    by_cases hs : c.hasSession = false
    · simp only [hs, if_true, Option.some.injEq, Prod.mk.injEq] at h
      rw [← h.2]
    · rw [if_neg hs] at h
      obtain ⟨added, tl, ht, -, -, -, -, hg⟩ :=
        callLoop_invariant c w .nil fuel 0 none run res run2 (le_refl 0) (by decide) h
      rw [ht, getCount_append, hg, Nat.add_zero]

theorem manager_handleUpgradeError_getCount (mgr : SekaiClientManager) (w : World) (run : Run) :
    getCount (mgr.handleUpgradeError w run).2.trace = getCount run.trace := by
  simp only [SekaiClientManager.handleUpgradeError]
  cases w.parseVersion run.versionParses <;> simp [getCount]

theorem manager_handleSessionError_getCount (mgr : SekaiClientManager) (w : World) (run : Run) :
    getCount (mgr.handleSessionError w run).2.trace = getCount run.trace := by
  simp only [SekaiClientManager.handleSessionError, SekaiClientManager.parseCookies]
  by_cases h : mgr.Server = .jp
  · simp only [if_pos h]
    cases w.parseCookies run.cookieParses <;> simp [getCount]
  · simp only [if_neg h]

theorem manager_handleGetError_getCount (mgr : SekaiClientManager) (w : World)
    (getErr : Option ClientError) (rc m : Int) (run : Run) :
    getCount (mgr.handleGetError w getErr rc m run).2.trace = getCount run.trace := by
  have hu := manager_handleUpgradeError_getCount mgr w run
  unfold SekaiClientManager.handleGetError
  split
  · split
    · rename_i heq
      rw [heq] at hu
      exact hu
    · rename_i heq
      rw [heq] at hu
      exact hu
  · split <;> rfl

theorem getCount_log_managerSleep (run : Run) :
    getCount (run.log .managerSleep).trace = getCount run.trace := by
  simp [Run.log, getCount]

theorem getLoop_getCount (w : World) (fuel : Nat) (path : String) :
    ∀ (budget : Nat) (rc : Int) (mgr : SekaiClientManager) (run : Run) (res : ApiResult)
      (mgr2 : SekaiClientManager) (run2 : Run), rc ≤ 4 →
      SekaiClientManager.getLoop w fuel path budget rc mgr run = some (res, mgr2, run2) →
      (getCount run2.trace : Int) + rc ≤ getCount run.trace + 4 := by
  intro budget
  induction budget with
  | zero =>
    intro rc mgr run res mgr2 run2 _ h
    simp [SekaiClientManager.getLoop] at h
  | succ n ih =>
    intro rc mgr run res mgr2 run2 h4 h
    by_cases hlt : rc < maxRetries
    · have hlt4 : rc < 4 := hlt
      rw [SekaiClientManager.getLoop] at h
      simp only [if_pos hlt] at h
      rcases hgc : mgr.getClient with ⟨_ | ⟨idx, client⟩, mgr1⟩
      · rw [hgc] at h
        simp only [Option.some.injEq, Prod.mk.injEq] at h
        rw [← h.2.2]
        omega
      · rw [hgc] at h
        simp only at h
        cases hG : client.Get w fuel path (run.log (.get idx)) with
        | none => rw [hG] at h; simp at h
        | some p =>
          obtain ⟨res1, run1⟩ := p
          have hg1 : getCount run1.trace = getCount run.trace + 1 := by
            rw [Get_getCount client w fuel path _ res1 run1 hG]
            simp [Run.log, getCount]
          rw [hG] at h
          simp only at h
          have hu : ∀ r run3, mgr1.handleUpgradeError w run1 = (r, run3) →
              getCount run3.trace = getCount run1.trace := by
            intro r run3 he
            have := manager_handleUpgradeError_getCount mgr1 w run1
            rwa [he] at this
          have hse : ∀ r run3, mgr1.handleSessionError w run1 = (r, run3) →
              getCount run3.trace = getCount run1.trace := by
            intro r run3 he
            have := manager_handleSessionError_getCount mgr1 w run1
            rwa [he] at this
          have hge : ∀ e r run3, mgr1.handleGetError w e rc maxRetries run1 = (r, run3) →
              getCount run3.trace = getCount run1.trace := by
            intro e r run3 he
            have := manager_handleGetError_getCount mgr1 w e rc maxRetries run1
            rwa [he] at this
          repeat' split at h
          all_goals
            first
              | have hx := hu _ _ (by assumption)
              | have hx := hse _ _ (by assumption)
              | have hx := hge _ _ _ (by assumption)
              | have hx : True := trivial
          all_goals
            first
              | (simp only [Option.some.injEq, Prod.mk.injEq] at h
                 obtain ⟨-, -, rfl⟩ := h
                 omega)
              | (have hi := ih _ _ _ _ _ _ (by omega) h
                 rw [getCount_log_managerSleep] at hi
                 omega)
    · have hrc : rc = 4 := by
        have : ¬ rc < 4 := hlt
        omega
      subst hrc
      rw [SekaiClientManager.getLoop] at h
      simp only [if_neg hlt, Option.some.injEq, Prod.mk.injEq] at h
      rw [← h.2.2]

theorem getClient_cases (mgr : SekaiClientManager) :
    (mgr.getClient.1 = none ∨ ∃ idx c, mgr.getClient.1 = some (idx, c) ∧ c ∈ mgr.Clients) ∧
      mgr.getClient.2.Clients = mgr.Clients := by
  unfold SekaiClientManager.getClient
  split
  · exact ⟨Or.inl rfl, rfl⟩
  · simp only []
    split
    · exact ⟨Or.inl rfl, rfl⟩
    · rename_i c hc
      exact ⟨Or.inr ⟨_, c, rfl, List.get?_mem hc⟩, rfl⟩

theorem getLoop_returns (w : World) (fuel : Nat) (path : String) (clients : List SekaiClient)
    (hG : ∀ c ∈ clients, ∀ run, ∃ r, c.Get w fuel path run = some r) :
    ∀ (budget : Nat) (rc : Int) (mgr : SekaiClientManager) (run : Run),
      mgr.Clients = clients → rc ≤ 4 → (4 - rc).toNat + 1 ≤ budget →
      ∃ r, SekaiClientManager.getLoop w fuel path budget rc mgr run = some r := by
  intro budget
  induction budget with
  | zero =>
    intro rc mgr run _ _ h
    omega
  | succ n ih =>
    intro rc mgr run hcl h4 hb
    rw [SekaiClientManager.getLoop]
    by_cases hlt : rc < maxRetries
    · have hlt4 : rc < 4 := hlt
      simp only [if_pos hlt]
      obtain ⟨hc1, hc2⟩ := getClient_cases mgr
      rcases hgc : mgr.getClient with ⟨_ | ⟨idx, client⟩, mgr1⟩
      · exact ⟨_, rfl⟩
      · rw [hgc] at hc1 hc2
        have hmem : client ∈ mgr.Clients := by
          rcases hc1 with h | ⟨i, c, h, hm⟩
          · simp at h
          · simp only [Option.some.injEq, Prod.mk.injEq] at h
            obtain ⟨-, rfl⟩ := h
            exact hm
        simp only at hc2
        obtain ⟨⟨res1, run1⟩, hget⟩ := hG client (hcl ▸ hmem) (run.log (.get idx))
        simp only [hget]
        have hrec : ∀ run3, ∃ r, SekaiClientManager.getLoop w fuel path n (rc + 1) mgr1 run3
            = some r := fun run3 => ih (rc + 1) mgr1 run3 (hc2.trans hcl) (by omega) (by omega)
        repeat' split
        all_goals
          first
            | exact ⟨_, rfl⟩
            | exact hrec _
    · simp only [if_neg hlt]
      exact ⟨_, rfl⟩

theorem getLoop_all_fail (w : World) (fuel : Nat) (path : String) (clients : List SekaiClient)
    (hG : ∀ c ∈ clients, ∀ run, ∃ resp e run2, c.Get w fuel path run = some (⟨resp, some e⟩, run2))
    (hP : ∀ k, w.parseVersion k = none) :
    ∀ (budget : Nat) (rc : Int) (mgr : SekaiClientManager) (run : Run),
      mgr.Clients = clients → rc ≤ 4 → (4 - rc).toNat + 1 ≤ budget →
      ∃ res mgr2 run2, SekaiClientManager.getLoop w fuel path budget rc mgr run
        = some (res, mgr2, run2) ∧ res.Failed500 := by
  intro budget
  induction budget with
  | zero =>
    intro rc mgr run _ _ h
    omega
  | succ n ih =>
    intro rc mgr run hcl h4 hb
    rw [SekaiClientManager.getLoop]
    by_cases hlt : rc < maxRetries
    · have hlt4 : rc < 4 := hlt
      simp only [if_pos hlt]
      obtain ⟨hc1, hc2⟩ := getClient_cases mgr
      rcases hgc : mgr.getClient with ⟨_ | ⟨idx, client⟩, mgr1⟩
      · exact ⟨_, _, _, rfl, rfl, _, rfl⟩
      · rw [hgc] at hc1 hc2
        have hmem : client ∈ mgr.Clients := by
          rcases hc1 with h | ⟨i, c, h, hm⟩
          · simp at h
          · simp only [Option.some.injEq, Prod.mk.injEq] at h
            obtain ⟨-, rfl⟩ := h
            exact hm
        simp only at hc2
        obtain ⟨resp, e, run1, hget⟩ := hG client (hcl ▸ hmem) (run.log (.get idx))
        simp only [hget]
        have hrec : ∀ run3, ∃ res mgr2 run2,
            SekaiClientManager.getLoop w fuel path n (rc + 1) mgr1 run3
              = some (res, mgr2, run2) ∧ res.Failed500 :=
          fun run3 => ih (rc + 1) mgr1 run3 (hc2.trans hcl) (by omega) (by omega)
        have hup : mgr1.handleUpgradeError w run1 = ((emptyEnvelope, 0, none),
            { run1 with versionParses := run1.versionParses + 1,
                        trace := run1.trace ++ [.parseVersion] }) := by
          simp only [SekaiClientManager.handleUpgradeError, hP]
        by_cases h3 : rc ≥ maxRetries - 1
        · cases e <;> cases resp <;>
            simp only [SekaiClientManager.handleGetError, hup, if_pos h3] <;>
            first
              | exact ⟨_, _, _, rfl, rfl, _, rfl⟩
              | exact hrec _
        · cases e <;> cases resp <;>
            simp only [SekaiClientManager.handleGetError, hup, if_neg h3] <;>
            exact hrec _
    · simp only [if_neg hlt]
      exact ⟨_, _, _, rfl, rfl, _, rfl⟩


/-- Claim C12.  A call of `GetGameAPI` that returns has invoked `Get` at most four
times, whatever the clients and the server do; it returns whenever every `Get` of its
clients returns; and when every `Get` returns an error and every version re-parse
succeeds, it returns HTTP status 500 with an envelope whose result is `failed` and
whose status field is 500. -/
theorem GetGameAPI_attempt_bound (mgr : SekaiClientManager) (w : World) (fuel : Nat)
    (path : String) (run : Run) :
    (∀ res mgr2 run2, mgr.GetGameAPI w fuel path run = some (res, mgr2, run2) →
      getCount run2.trace ≤ getCount run.trace + 4) ∧
    ((∀ c ∈ mgr.Clients, ∀ run1, ∃ r, c.Get w fuel path run1 = some r) →
      ∃ r, mgr.GetGameAPI w fuel path run = some r) ∧
    ((∀ c ∈ mgr.Clients, ∀ run1, ∃ resp e run2,
        c.Get w fuel path run1 = some (⟨resp, some e⟩, run2)) →
      (∀ k, w.parseVersion k = none) →
      ∃ res mgr2 run2, mgr.GetGameAPI w fuel path run = some (res, mgr2, run2) ∧
        res.status = 500 ∧ ∃ msg, res.envelope = some ⟨"failed", 500, msg⟩) := by
  refine ⟨?_, ?_, ?_⟩
  · intro res mgr2 run2 h
    unfold SekaiClientManager.GetGameAPI at h
    split at h
    · simp only [Option.some.injEq, Prod.mk.injEq] at h
      rw [← h.2.2]
      omega
    · have := getLoop_getCount w fuel path 5 0 mgr run res mgr2 run2 (by decide) h
      omega
  · intro hG
    unfold SekaiClientManager.GetGameAPI
    split
    · exact ⟨_, rfl⟩
    · exact getLoop_returns w fuel path mgr.Clients hG 5 0 mgr run rfl (by decide) (by decide)
  · intro hG hP
    unfold SekaiClientManager.GetGameAPI
    split
    · exact ⟨_, _, _, rfl, rfl, _, rfl⟩
    · exact getLoop_all_fail w fuel path mgr.Clients hG hP 5 0 mgr run rfl (by decide)
        (by decide)

/-- Witness for C12: the example manager against a server that answers every request
with status 500. -/
theorem GetGameAPI_attempt_bound_witness :
    ∃ res mgr2 run2,
      exampleManager.GetGameAPI (scriptedWorld [] (.ok ⟨500, "text/html", [], ""⟩)) 1
        "/system" Run.start = some (res, mgr2, run2) ∧
      res.status = 500 ∧ (∃ msg, res.envelope = some ⟨"failed", 500, msg⟩) ∧
      getCount run2.trace ≤ 4 := by
  have T := GetGameAPI_attempt_bound exampleManager
    (scriptedWorld [] (.ok ⟨500, "text/html", [], ""⟩)) 1 "/system" Run.start
  obtain ⟨res, mgr2, run2, h, hs, he⟩ := T.2.2
    (by
      intro c hc run1
      simp only [exampleManager, List.mem_cons, List.mem_singleton, List.not_mem_nil,
        or_false, or_self] at hc
      subst hc
      refine ⟨none, .unknown 500 "", run1.attempt 0, ?_⟩
      rw [show (exampleClient .tw).Get
          (scriptedWorld [] (.ok ⟨500, "text/html", [], ""⟩)) 1 "/system" run1
        = (exampleClient .tw).callLoop
          (scriptedWorld [] (.ok ⟨500, "text/html", [], ""⟩)) .nil 1 0 none run1 from rfl]
      exact callLoop_server_error (exampleClient .tw)
        (scriptedWorld [] (.ok ⟨500, "text/html", [], ""⟩)) .nil
        ⟨500, "text/html", [], ""⟩ run1 0 0 none (by decide) rfl (by simp [scriptedWorld]) rfl)
    (fun _ => rfl)
  exact ⟨res, mgr2, run2, h, hs, he, T.1 res mgr2 run2 h⟩

/-! ### Client-error statuses in `GetGameAPI` -/

theorem callLoop_accepted (c : SekaiClient) (w : World) (data : GoVal) (r : Response)
    (m : OrderedMap) (run : Run) (fuel : Nat)
    (hprep : c.prepareRequest data = .ok ()) (h : w.execute run.requests = .ok r)
    (hr : c.handleResponse r = .ok m) :
    c.callLoop w data (fuel + 1) 0 none run = some (⟨some r, none⟩, run.attempt 0) := by
  rw [callLoop_attempt c w data fuel 0 none run (by decide) hprep, h]
  simp only [hr]

/-- Claim C11, as amended.  When the game server answers with status 400, 404 or 409
and a decodable octet-stream body, the client's `handleResponse` accepts the response
and yields the decoded body, but `GetGameAPI` returns, after one `Get`, the failure
envelope `failed / status / Game server API return status code: N` with that status
and an `unexpected status code` error. -/
theorem GetGameAPI_client_error_envelope (mgr : SekaiClientManager) (w : World) (fuel : Nat)
    (path : String) (r : Response) (hne : mgr.Clients ≠ [])
    (hcl : ∀ c ∈ mgr.Clients,
      (∃ url, c.expandURL path = .ok url) ∧ c.hasSession = true ∧ c.Decodable r)
    (h0 : w.execute 0 = .ok r)
    (hs : r.status = 400 ∨ r.status = 404 ∨ r.status = 409) (hct : r.OctetStream)
    (hfuel : 1 ≤ fuel) :
    (∀ c ∈ mgr.Clients, ∃ m, c.Cryptor.UnpackOrdered c.lib r.body = .ok m ∧
      c.handleResponse r = .ok m) ∧
    ∃ (mgr2 : SekaiClientManager) (run2 : Run),
      mgr.GetGameAPI w fuel path Run.start =
        some (unexpectedStatusResult r.status, mgr2, run2) ∧
      getCount run2.trace = 1 ∧ requestCount run2.trace = 1 := by
  obtain ⟨k, rfl⟩ : ∃ k, fuel = k + 1 := ⟨fuel - 1, by omega⟩
  have hacc : ∀ c ∈ mgr.Clients, ∃ m, c.Cryptor.UnpackOrdered c.lib r.body = .ok m ∧
      c.handleResponse r = .ok m := by
    intro c hc
    obtain ⟨-, -, m, hm⟩ := hcl c hc
    refine ⟨m, hm, ?_⟩
    rcases hs with hs | hs | hs
    · rw [handleResponse_octet_decoded c r m .ClientError hct hm (by rw [hs]; rfl)]
    · rw [handleResponse_octet_decoded c r m .NotFound hct hm (by rw [hs]; rfl)]
    · rw [handleResponse_octet_decoded c r m .Conflict hct hm (by rw [hs]; rfl)]
  refine ⟨hacc, ?_⟩
  have hlen : ¬ mgr.Clients.length = 0 := fun h => hne (List.eq_nil_of_length_eq_zero h)
  obtain ⟨idx, c, no, hget, hmem⟩ := getClient_of_nonempty mgr hne
  obtain ⟨⟨url, hurl⟩, hsess, -⟩ := hcl c hmem
  obtain ⟨m, -, hm⟩ := hacc c hmem
  have hG : c.Get w (k + 1) path (Run.start.log (.get idx))
      = some (⟨some r, none⟩, (Run.start.log (.get idx)).attempt 0) := by
    simp only [SekaiClient.Get, SekaiClient.CallAPI, hurl, hsess, Bool.true_eq_false, if_false]
    exact callLoop_accepted c w .nil r m _ k rfl h0 hm
  refine ⟨{ mgr with ClientNo := no }, (Run.start.log (.get idx)).attempt 0, ?_, rfl, rfl⟩
  simp only [SekaiClientManager.GetGameAPI, if_neg hlen]
  rw [SekaiClientManager.getLoop]
  simp only [show ((0 : Int) < maxRetries) = True by decide, if_true, hget, hG]
  rcases hs with hs | hs | hs <;>
    simp only [hs, ParseSekaiApiHttpStatus, unexpectedStatusResult] <;> rfl

/-- Witness for C11: the example manager and a 404 answer with the packed example
map. -/
theorem GetGameAPI_client_error_envelope_witness :
    (∀ c ∈ exampleManager.Clients, ∃ m,
      c.Cryptor.UnpackOrdered c.lib (exampleResponse 404).body = .ok m ∧
      c.handleResponse (exampleResponse 404) = .ok m) ∧
    ∃ (mgr2 : SekaiClientManager) (run2 : Run),
      exampleManager.GetGameAPI (scriptedWorld [] (.ok (exampleResponse 404))) 1 "/system"
          Run.start =
        some (unexpectedStatusResult (exampleResponse 404).status, mgr2, run2) ∧
      getCount run2.trace = 1 ∧ requestCount run2.trace = 1 :=
  GetGameAPI_client_error_envelope exampleManager _ 1 "/system" (exampleResponse 404)
    (by simp [exampleManager])
    (by
      intro c hc
      simp only [exampleManager, List.mem_cons, List.mem_singleton, List.not_mem_nil,
        or_false, or_self] at hc
      subst hc
      exact ⟨⟨"/system", rfl⟩, rfl, exampleBody_decodable .tw 404 _ _⟩)
    rfl (Or.inr (Or.inl rfl)) (Or.inl rfl) (by decide)

/-- Counterexample for C11: for a 404 answer carrying the packed example map,
`GetGameAPI` returns a failure envelope and an error, not the decoded body. -/
theorem GetGameAPI_not_found_not_passed_through :
    (exampleClient .tw).handleResponse (exampleResponse 404) =
      .ok [("a", .int .int8 1), ("b", .int .int8 2),
        ("c", .arr [.omap [("y", .nil), ("x", .bool true)]])] ∧
    exampleManager.GetGameAPI (scriptedWorld [] (.ok (exampleResponse 404))) 1 "/system"
        Run.start =
      some (⟨.failed ⟨"failed", 404, "Game server API return status code: 404"⟩, 404,
          some (.other "unexpected status code: 404")⟩,
        ⟨.tw, [exampleClient .tw, exampleClient .tw], 1⟩,
        ⟨1, 0, 0, 0, 0, [.get 0, .test 0, .count 1, .request 0]⟩) :=
  ⟨rfl, rfl⟩

/-! ### Round-robin dispatch -/

theorem getClient_in_range (mgr : SekaiClientManager) (c : Nat) (hc : mgr.ClientNo = c)
    (hN : c < mgr.Clients.length) :
    mgr.getClient = (mgr.clientAt c,
      { mgr with ClientNo := (((c + 1) % mgr.Clients.length : Nat) : Int) }) ∧
    ∃ cl, mgr.clientAt c = some (c, cl) ∧ mgr.Clients.get? c = some cl := by
  obtain ⟨cl, hcl⟩ : ∃ cl, mgr.Clients.get? c = some cl := ⟨_, List.get?_eq_get hN⟩
  have hlen : ¬ mgr.Clients.length = 0 := by omega
  have h1 : ¬ (mgr.ClientNo ≥ (mgr.Clients.length : Int) ∨ mgr.ClientNo < 0) := by
    rw [hc]
    omega
  have h2 : (c : Int) % (mgr.Clients.length : Int) = c :=
    Int.emod_eq_of_lt (by omega) (by omega)
  have hat : mgr.clientAt c = some (c, cl) := by
    rw [SekaiClientManager.clientAt, hcl]
    rfl
  refine ⟨?_, cl, hat, hcl⟩
  unfold SekaiClientManager.getClient
  rw [if_neg hlen]
  simp only []
  rw [if_neg h1, hc, h2, Int.toNat_ofNat, hcl, hat]
  have h3 : ((c : Int) + 1) % (mgr.Clients.length : Int)
      = (((c + 1) % mgr.Clients.length : Nat) : Int) := by
    push_cast
    rfl
  rw [h3]

theorem getClients_round_robin : ∀ (n : Nat) (mgr : SekaiClientManager) (c : Nat),
    mgr.ClientNo = c → c < mgr.Clients.length →
    (mgr.getClients n).1
        = (List.range n).map (fun j => mgr.clientAt ((c + j) % mgr.Clients.length)) ∧
      (mgr.getClients n).2 =
        { mgr with ClientNo := (((c + n) % mgr.Clients.length : Nat) : Int) }
  | 0, mgr, c, hc, hN => by
    simp only [SekaiClientManager.getClients, List.range_zero, List.map_nil, Nat.add_zero,
      Nat.mod_eq_of_lt hN, ← hc, true_and]
  | n + 1, mgr, c, hc, hN => by
    obtain ⟨hg, -⟩ := getClient_in_range mgr c hc hN
    have hpos : 0 < mgr.Clients.length := by omega
    obtain ⟨ih1, ih2⟩ := getClients_round_robin n
      { mgr with ClientNo := (((c + 1) % mgr.Clients.length : Nat) : Int) }
      ((c + 1) % mgr.Clients.length) rfl (Nat.mod_lt _ hpos)
    simp only [SekaiClientManager.getClients, hg, ih1, ih2, List.range_succ_eq_map,
      List.map_cons, List.map_map, Nat.add_zero, Nat.mod_eq_of_lt hN]
    refine ⟨?_, ?_⟩
    · congr 1
      apply List.map_congr_left
      intro j _
      simp only [Function.comp, SekaiClientManager.clientAt]
      have : ((c + 1) % mgr.Clients.length + j) % mgr.Clients.length
          = (c + (j + 1)) % mgr.Clients.length := by
        rw [Nat.add_mod, Nat.mod_mod, ← Nat.add_mod]
        congr 1
        omega
      rw [this]
    · have : ((c + 1) % mgr.Clients.length + n) % mgr.Clients.length
          = (c + (n + 1)) % mgr.Clients.length := by
        rw [Nat.add_mod, Nat.mod_mod, ← Nat.add_mod]
        congr 1
        omega
      rw [this]

theorem count_block (N c i : Nat) (hc : c < N) (hi : i < N) :
    ((List.range N).filter (fun t => (c + t) % N = i)).length = 1 := by
  have key : ∀ t, t ∈ List.range N →
      (decide ((c + t) % N = i) = decide (t = (if c ≤ i then i - c else i + N - c))) := by
    intro t ht
    rw [List.mem_range] at ht
    congr 1
    apply propext
    by_cases h : c + t < N
    · rw [Nat.mod_eq_of_lt h]
      split_ifs <;> omega
    · rw [Nat.mod_eq_sub_mod (by omega), Nat.mod_eq_of_lt (by omega)]
      split_ifs <;> omega
  rw [List.filter_congr key]
  have hmem : (if c ≤ i then i - c else i + N - c) ∈ List.range N := by
    rw [List.mem_range]
    split_ifs <;> omega
  have := List.count_eq_one_of_mem (List.nodup_range N) hmem
  rw [List.count, List.countP_eq_length_filter] at this
  rw [← this]
  congr 1

theorem count_round_robin (N c i : Nat) (hc : c < N) (hi : i < N) : ∀ k : Nat,
    ((List.range (N * k)).filter (fun j => (c + j) % N = i)).length = k
  | 0 => by simp
  | k + 1 => by
    rw [Nat.mul_succ, List.range_add, List.filter_append, List.length_append,
      count_round_robin N c i hc hi k, List.filter_map, List.length_map]
    have : ((fun j => decide ((c + j) % N = i)) ∘ fun x => N * k + x)
        = fun t => decide ((c + t) % N = i) := by
      funext t
      simp only [Function.comp]
      congr 2
      rw [← Nat.add_assoc, Nat.add_comm c, Nat.add_assoc, Nat.mul_add_mod]
    rw [this, count_block N c i hc hi]

theorem clientAt_fst (mgr : SekaiClientManager) (x i : Nat) (hx : x < mgr.Clients.length) :
    ((mgr.clientAt x).map Prod.fst = some i) ↔ x = i := by
  obtain ⟨cl, hcl⟩ : ∃ cl, mgr.Clients.get? x = some cl := ⟨_, List.get?_eq_get hx⟩
  rw [SekaiClientManager.clientAt, hcl]
  simp

/-- Claim C13.  For a manager with `N ≥ 1` clients and cursor `c` in `[0, N)`, the
`j`-th of `n` consecutive `getClient` calls returns the client at index
`(c + j) mod N`; among `N * k` consecutive calls each index is returned exactly `k`
times; and after any number of calls the client list is unchanged and the cursor is
`(c + n) mod N`, hence in `[0, N)`. -/
theorem getClient_round_robin (mgr : SekaiClientManager) (c : Nat)
    (hc : mgr.ClientNo = c) (hN : c < mgr.Clients.length) :
    (∀ n j, j < n → ∃ cl, mgr.Clients.get? ((c + j) % mgr.Clients.length) = some cl ∧
      (mgr.getClients n).1.get? j = some (some ((c + j) % mgr.Clients.length, cl))) ∧
    (∀ k i, i < mgr.Clients.length →
      ((mgr.getClients (mgr.Clients.length * k)).1.filter
        (fun r => r.map Prod.fst = some i)).length = k) ∧
    (∀ n, (mgr.getClients n).2.Clients = mgr.Clients ∧
      (mgr.getClients n).2.ClientNo = (((c + n) % mgr.Clients.length : Nat) : Int) ∧
      0 ≤ (mgr.getClients n).2.ClientNo ∧
      (mgr.getClients n).2.ClientNo < mgr.Clients.length) := by
  have hpos : 0 < mgr.Clients.length := by omega
  refine ⟨?_, ?_, ?_⟩
  · intro n j hj
    have hlt : (c + j) % mgr.Clients.length < mgr.Clients.length := Nat.mod_lt _ hpos
    obtain ⟨cl, hcl⟩ : ∃ cl, mgr.Clients.get? ((c + j) % mgr.Clients.length) = some cl :=
      ⟨_, List.get?_eq_get hlt⟩
    refine ⟨cl, hcl, ?_⟩
    rw [(getClients_round_robin n mgr c hc hN).1, List.get?_eq_getElem?, List.getElem?_map, List.getElem?_range hj]
    simp only [Option.map_some', SekaiClientManager.clientAt, hcl]
  · intro k i hi
    rw [(getClients_round_robin _ mgr c hc hN).1, List.filter_map, List.length_map]
    refine Eq.trans ?_ (count_round_robin mgr.Clients.length c i hN hi k)
    congr 1
    apply List.filter_congr
    intro j _
    simp only [Function.comp]
    congr 1
    exact propext (clientAt_fst mgr _ i (Nat.mod_lt _ hpos))
  · intro n
    rw [(getClients_round_robin n mgr c hc hN).2]
    refine ⟨rfl, rfl, ?_, ?_⟩
    · exact Int.ofNat_nonneg _
    · exact Int.ofNat_lt.mpr (Nat.mod_lt _ hpos)

/-- Witness for C13: three clients, cursor at 1; six calls return the indices
1, 2, 0, 1, 2, 0 and leave the cursor at 1. -/
theorem getClient_round_robin_witness :
    (exampleManager3.getClients 6).1.map (Option.map Prod.fst)
      = [some 1, some 2, some 0, some 1, some 2, some 0] ∧
    (exampleManager3.getClients 6).2.ClientNo = 1 ∧
    (∀ n j, j < n → ∃ cl,
      exampleManager3.Clients.get? ((1 + j) % exampleManager3.Clients.length) = some cl ∧
      (exampleManager3.getClients n).1.get? j
        = some (some ((1 + j) % exampleManager3.Clients.length, cl))) ∧
    (∀ k i, i < exampleManager3.Clients.length →
      ((exampleManager3.getClients (exampleManager3.Clients.length * k)).1.filter
        (fun r => r.map Prod.fst = some i)).length = k) ∧
    (∀ n, (exampleManager3.getClients n).2.Clients = exampleManager3.Clients ∧
      (exampleManager3.getClients n).2.ClientNo
        = (((1 + n) % exampleManager3.Clients.length : Nat) : Int) ∧
      0 ≤ (exampleManager3.getClients n).2.ClientNo ∧
      (exampleManager3.getClients n).2.ClientNo < exampleManager3.Clients.length) :=
  ⟨by decide, by decide, getClient_round_robin exampleManager3 1 rfl (by decide)⟩

/-! ### Compact data: zipping the columns -/

theorem foldl_set_of_nodup : ∀ (es : List (String × GoVal)) (om : OrderedMap),
    (es.map Prod.fst).Nodup → (∀ k ∈ es.map Prod.fst, k ∉ OrderedMap.keys om) →
    es.foldl (fun o e => OrderedMap.set o e.1 e.2) om = om ++ es
  | [], om, _, _ => by simp
  | (k, v) :: es, om, hnd, hfresh => by
    simp only [List.map_cons, List.nodup_cons] at hnd
    have hk : k ∉ OrderedMap.keys om := hfresh k (by simp)
    simp only [List.foldl_cons]
    rw [OrderedMap.set_of_not_mem om k v hk,
      foldl_set_of_nodup es (om ++ [(k, v)]) hnd.2 ?_]
    · simp
    · intro k2 hk2
      simp only [OrderedMap.keys, List.map_append, List.map_cons, List.map_nil, List.mem_append,
        List.mem_singleton, not_or]
      refine ⟨hfresh k2 (by simp [hk2]), ?_⟩
      rintro rfl
      exact hnd.1 hk2

theorem OrderedMap.get_eq_none : ∀ (om : OrderedMap) (k : String),
    k ∉ OrderedMap.keys om → OrderedMap.get om k = none
  | [], _, _ => rfl
  | (k2, v) :: rest, k, h => by
    simp only [OrderedMap.keys, List.map_cons, List.mem_cons, not_or] at h
    have hk : ¬ k2 = k := fun e => h.1 e.symm
    simp only [OrderedMap.get, if_neg hk]
    exact OrderedMap.get_eq_none rest k h.2

theorem OrderedMap.get_of_mem : ∀ (om : OrderedMap) (k : String) (v : GoVal),
    (OrderedMap.keys om).Nodup → (k, v) ∈ om → OrderedMap.get om k = some v
  | [], _, _, _, h => by simp at h
  | (k2, v2) :: rest, k, v, hnd, h => by
    simp only [OrderedMap.keys, List.map_cons, List.nodup_cons] at hnd
    simp only [List.mem_cons, Prod.mk.injEq] at h
    rcases h with ⟨rfl, rfl⟩ | h
    · simp [OrderedMap.get]
    · have hk : ¬ k2 = k := by
        rintro rfl
        exact hnd.1 (List.mem_map_of_mem Prod.fst h)
      simp only [OrderedMap.get, if_neg hk]
      exact OrderedMap.get_of_mem rest k v hnd.2 h

theorem OrderedMap.mem_of_get : ∀ (om : OrderedMap) (k : String) (v : GoVal),
    OrderedMap.get om k = some v → (k, v) ∈ om
  | [], _, _, h => by simp [OrderedMap.get] at h
  | (k2, v2) :: rest, k, v, h => by
    by_cases hk : k2 = k
    · simp only [OrderedMap.get, if_pos hk, Option.some.injEq] at h
      simp [hk, h]
    · simp only [OrderedMap.get, if_neg hk] at h
      exact List.mem_cons_of_mem _ (OrderedMap.mem_of_get rest k v h)

theorem foldl_min_length (cols : List (List GoVal)) : ∀ (m : Nat),
    (cols.foldl (fun m col => if col.length < m then col.length else m) m ≤ m) ∧
    (∀ col ∈ cols, cols.foldl (fun m col => if col.length < m then col.length else m) m
      ≤ col.length) ∧
    (cols.foldl (fun m col => if col.length < m then col.length else m) m = m ∨
      ∃ col ∈ cols, col.length
        = cols.foldl (fun m col => if col.length < m then col.length else m) m) := by
  induction cols with
  | nil => intro m; simp
  | cons c cs ih =>
    intro m
    simp only [List.foldl_cons, List.mem_cons, forall_eq_or_imp, exists_eq_or_imp]
    obtain ⟨h1, h2, h3⟩ := ih (if c.length < m then c.length else m)
    refine ⟨?_, ⟨?_, h2⟩, ?_⟩
    · split_ifs at h1 ⊢ <;> omega
    · split_ifs at h1 ⊢ <;> omega
    · rcases h3 with h3 | h3
      · split_ifs at h3 ⊢
        · exact Or.inr (Or.inl h3.symm)
        · exact Or.inl h3
      · exact Or.inr (Or.inr h3)

theorem compactRow_of_nodup (labels : List String) (columns : List (List GoVal)) (i : Nat)
    (hnd : labels.Nodup) (hlen : labels.length = columns.length) :
    compactRow labels columns i
      = (labels.zip columns).map
        (fun kc => (kc.1, if i < kc.2.length then kc.2.getD i .nil else .nil)) := by
  have h := foldl_set_of_nodup
    ((labels.zip columns).map
      (fun kc => (kc.1, if i < kc.2.length then kc.2.getD i .nil else .nil)))
    OrderedMap.new
    (by
      rw [List.map_map]
      have : (Prod.fst ∘ fun kc : String × List GoVal =>
          (kc.1, if i < kc.2.length then kc.2.getD i GoVal.nil else GoVal.nil)) = Prod.fst := rfl
      rw [this, List.map_fst_zip _ _ (by omega)]
      exact hnd)
    (by simp [OrderedMap.new, OrderedMap.keys])
  rw [List.foldl_map] at h
  simpa [compactRow, OrderedMap.new] using h

theorem extractEnumOM_none (data : OrderedMap) (he : "__ENUM__" ∉ OrderedMap.keys data) :
    extractEnumOM data = none := by
  simp only [extractEnumOM, OrderedMap.get_eq_none data _ he]

theorem columnLabels_of_no_enum (data : OrderedMap) (he : "__ENUM__" ∉ OrderedMap.keys data) :
    columnLabels data = OrderedMap.keys data := by
  unfold columnLabels
  rw [List.filter_eq_self]
  intro k hk
  have : k ≠ "__ENUM__" := by
    rintro rfl
    exact he hk
  simp [this]

theorem dataColumn_none (data : OrderedMap) (hk : (OrderedMap.keys data).Nodup)
    (kv : String × GoVal) (hkv : kv ∈ data) :
    dataColumn data none kv.1 = kv.2.elems := by
  have hg : OrderedMap.get data kv.1 = some kv.2 := OrderedMap.get_of_mem data kv.1 kv.2 hk hkv
  simp only [dataColumn, hg]
  cases kv.2 <;> rfl

theorem RestoreCompactData_no_enum (data : OrderedMap) (hk : (OrderedMap.keys data).Nodup)
    (he : "__ENUM__" ∉ OrderedMap.keys data) :
    ∃ m : Nat,
      RestoreCompactData data = (List.range m).map (fun i =>
        data.map (fun kv => (kv.1, if i < kv.2.elems.length then kv.2.elems.getD i .nil else .nil)))
      ∧ (∀ kv ∈ data, m ≤ kv.2.elems.length)
      ∧ (data ≠ [] → ∃ kv ∈ data, kv.2.elems.length = m) := by
  have hcols : (columnLabels data).map (dataColumn data (extractEnumOM data))
      = data.map (fun kv => kv.2.elems) := by
    rw [columnLabels_of_no_enum data he, extractEnumOM_none data he, OrderedMap.keys,
      List.map_map]
    apply List.map_congr_left
    intro kv hkv
    exact dataColumn_none data hk kv hkv
  have hrow : ∀ i, compactRow (columnLabels data) (data.map (fun kv => kv.2.elems)) i
      = data.map (fun kv =>
        (kv.1, if i < kv.2.elems.length then kv.2.elems.getD i .nil else .nil)) := by
    intro i
    rw [columnLabels_of_no_enum data he,
      compactRow_of_nodup _ _ i hk (by simp [OrderedMap.keys]), OrderedMap.keys, List.zip_map',
      List.map_map]
    rfl
  unfold RestoreCompactData
  simp only [hcols]
  cases hd : data with
  | nil => exact ⟨0, by simp, by simp, by simp⟩
  | cons kv0 rest =>
    rw [← hd]
    have hc : data.map (fun kv => kv.2.elems) = kv0.2.elems :: rest.map (fun kv => kv.2.elems) := by
      rw [hd]
      rfl
    obtain ⟨h1, h2, h3⟩ := foldl_min_length (data.map (fun kv => kv.2.elems)) kv0.2.elems.length
    refine ⟨(data.map (fun kv => kv.2.elems)).foldl
      (fun m col => if col.length < m then col.length else m) kv0.2.elems.length, ?_, ?_, ?_⟩
    · rw [hc]
      simp only []
      rw [← hc]
      apply List.map_congr_left
      intro i _
      exact hrow i
    · intro kv hkv
      exact h2 _ (List.mem_map_of_mem _ hkv)
    · intro _
      rcases h3 with h3 | ⟨col, hcol, h3⟩
      · exact ⟨kv0, by rw [hd]; simp, h3.symm⟩
      · obtain ⟨kv, hkv, rfl⟩ := List.mem_map.mp hcol
        exact ⟨kv, hkv, h3⟩

/-- Claim C14.  For a compact map with pairwise distinct keys, none of them `__ENUM__`,
whose values are all lists, `RestoreCompactData` returns `m` rows, where `m` is at most
the length of every column and is the length of one of them (no rows for a map without
columns); row `i` has the keys of the compact map in its key order and holds under
each column name the `i`-th element of that column. -/
theorem RestoreCompactData_zip (data : OrderedMap) (hk : (OrderedMap.keys data).Nodup)
    (he : "__ENUM__" ∉ OrderedMap.keys data) (hl : ∀ kv ∈ data, ∃ xs, kv.2 = .arr xs) :
    (∀ c xs, (c, GoVal.arr xs) ∈ data → (RestoreCompactData data).length ≤ xs.length) ∧
    (data ≠ [] →
      ∃ c xs, (c, GoVal.arr xs) ∈ data ∧ xs.length = (RestoreCompactData data).length) ∧
    (∀ i, i < (RestoreCompactData data).length →
      ∃ row, (RestoreCompactData data).get? i = some row ∧
        OrderedMap.keys row = OrderedMap.keys data ∧
        ∀ c xs, (c, GoVal.arr xs) ∈ data → OrderedMap.get row c = xs.get? i) := by
  obtain ⟨m, hR, hle, hex⟩ := RestoreCompactData_no_enum data hk he
  have hlen : (RestoreCompactData data).length = m := by
    rw [hR]
    simp
  rw [hlen]
  refine ⟨?_, ?_, ?_⟩
  · intro c xs hc
    exact hle (c, .arr xs) hc
  · intro hne
    obtain ⟨kv, hkv, hm⟩ := hex hne
    obtain ⟨xs, hxs⟩ := hl kv hkv
    refine ⟨kv.1, xs, ?_, ?_⟩
    · rw [← hxs]
      exact hkv
    · rw [← hm, hxs]
      rfl
  · intro i hi
    refine ⟨data.map (fun kv =>
      (kv.1, if i < kv.2.elems.length then kv.2.elems.getD i .nil else .nil)), ?_, ?_, ?_⟩
    · rw [hR, List.get?_eq_getElem?, List.getElem?_map, List.getElem?_range hi]
      rfl
    · simp [OrderedMap.keys]
    · intro c xs hc
      have hrk : (OrderedMap.keys (data.map (fun kv =>
          (kv.1, if i < kv.2.elems.length then kv.2.elems.getD i .nil else GoVal.nil)))).Nodup := by
        simpa [OrderedMap.keys] using hk
      have hxi : i < xs.length := lt_of_lt_of_le hi (hle (c, .arr xs) hc)
      rw [OrderedMap.get_of_mem _ c (xs.getD i .nil) hrk]
      · rw [List.getD_eq_getElem?_getD, List.get?_eq_getElem?, List.getElem?_eq_getElem hxi]
        rfl
      · refine List.mem_map.mpr ⟨(c, .arr xs), hc, ?_⟩
        simp only [GoVal.elems, if_pos hxi]

/-- Witness for C14: the example of the specification and a ragged variant of it. -/
theorem RestoreCompactData_zip_witness :
    RestoreCompactData
        [("a", .arr [.int .int8 1, .int .int8 2, .int .int8 3]),
         ("b", .arr [.str "x", .str "y", .str "z"])]
      = [[("a", .int .int8 1), ("b", .str "x")], [("a", .int .int8 2), ("b", .str "y")],
         [("a", .int .int8 3), ("b", .str "z")]] ∧
    RestoreCompactData
        [("a", .arr [.int .int8 1, .int .int8 2, .int .int8 3]), ("b", .arr [.str "x"])]
      = [[("a", .int .int8 1), ("b", .str "x")]] ∧
    (∀ i, i < (RestoreCompactData
        [("a", .arr [.int .int8 1, .int .int8 2, .int .int8 3]), ("b", .arr [.str "x"])]).length →
      ∃ row, (RestoreCompactData
          [("a", .arr [.int .int8 1, .int .int8 2, .int .int8 3]),
           ("b", .arr [.str "x"])]).get? i = some row ∧
        OrderedMap.keys row = OrderedMap.keys
          [("a", .arr [.int .int8 1, .int .int8 2, .int .int8 3]), ("b", .arr [.str "x"])] ∧
        ∀ c xs, (c, GoVal.arr xs) ∈
            ([("a", .arr [.int .int8 1, .int .int8 2, .int .int8 3]),
              ("b", .arr [.str "x"])] : OrderedMap) →
          OrderedMap.get row c = xs.get? i) :=
  ⟨rfl, rfl,
    (RestoreCompactData_zip
      [("a", .arr [.int .int8 1, .int .int8 2, .int .int8 3]), ("b", .arr [.str "x"])]
      (by decide) (by decide)
      (by
        intro kv hkv
        simp only [List.mem_cons, List.mem_singleton, List.not_mem_nil, or_false] at hkv
        rcases hkv with rfl | rfl
        · exact ⟨_, rfl⟩
        · exact ⟨_, rfl⟩)).2.2⟩

/-! ### Compact data: enum columns -/

theorem columnLabels_nodup (data : OrderedMap) (hk : (OrderedMap.keys data).Nodup) :
    (columnLabels data).Nodup :=
  hk.filter _

theorem mem_columnLabels (data : OrderedMap) (c : String) :
    c ∈ columnLabels data ↔ c ∈ OrderedMap.keys data ∧ c ≠ "__ENUM__" := by
  simp [columnLabels, List.mem_filter]

theorem RestoreCompactData_rows (data : OrderedMap) (hk : (OrderedMap.keys data).Nodup) :
    ∃ m : Nat,
      RestoreCompactData data = (List.range m).map (fun i =>
        (columnLabels data).map
          (fun c => (c, cellAt i (dataColumn data (extractEnumOM data) c)))) ∧
      (∀ c ∈ columnLabels data, m ≤ (dataColumn data (extractEnumOM data) c).length) := by
  have hrow : ∀ i, compactRow (columnLabels data)
      ((columnLabels data).map (dataColumn data (extractEnumOM data))) i
      = (columnLabels data).map
          (fun c => (c, cellAt i (dataColumn data (extractEnumOM data) c))) := by
    intro i
    rw [compactRow_of_nodup _ _ i (columnLabels_nodup data hk) (by simp)]
    conv_lhs => rw [← List.map_id (columnLabels data)]
    rw [List.map_map, List.zip_map', List.map_map]
    rfl
  unfold RestoreCompactData
  simp only []
  cases hc : (columnLabels data).map (dataColumn data (extractEnumOM data)) with
  | nil =>
    refine ⟨0, by simp, ?_⟩
    intro c hcm
    have : columnLabels data = [] := by simpa using hc
    rw [this] at hcm
    simp at hcm
  | cons c0 rest =>
    simp only []
    rw [← hc]
    obtain ⟨-, h2, -⟩ := foldl_min_length
      ((columnLabels data).map (dataColumn data (extractEnumOM data))) c0.length
    refine ⟨((columnLabels data).map (dataColumn data (extractEnumOM data))).foldl
      (fun m col => if col.length < m then col.length else m) c0.length, ?_, ?_⟩
    · apply List.map_congr_left
      intro i _
      exact hrow i
    · intro c hcm
      exact h2 _ (List.mem_map_of_mem _ hcm)

theorem row_get (data : OrderedMap) (hk : (OrderedMap.keys data).Nodup) (i : Nat)
    (row : OrderedMap) (h : (RestoreCompactData data).get? i = some row) :
    OrderedMap.keys row = columnLabels data ∧
    ∀ c ∈ columnLabels data,
      i < (dataColumn data (extractEnumOM data) c).length ∧
      OrderedMap.get row c
        = (dataColumn data (extractEnumOM data) c).get? i := by
  obtain ⟨m, hR, hle⟩ := RestoreCompactData_rows data hk
  rw [hR, List.get?_eq_getElem?, List.getElem?_map] at h
  have hi : i < m := by
    by_contra hc
    rw [List.getElem?_eq_none (by simpa using hc)] at h
    exact Option.noConfusion h
  rw [List.getElem?_range hi] at h
  simp only [Option.map_some', Option.some.injEq] at h
  subst h
  have hkeys : OrderedMap.keys ((columnLabels data).map
      (fun c => (c, cellAt i (dataColumn data (extractEnumOM data) c)))) = columnLabels data := by
    rw [OrderedMap.keys, List.map_map]
    exact List.map_id _
  refine ⟨hkeys, ?_⟩
  intro c hc
  have hlt : i < (dataColumn data (extractEnumOM data) c).length :=
    lt_of_lt_of_le hi (hle c hc)
  refine ⟨hlt, ?_⟩
  rw [OrderedMap.get_of_mem _ c (cellAt i (dataColumn data (extractEnumOM data) c))
    (by rw [hkeys]; exact columnLabels_nodup data hk)
    (List.mem_map.mpr ⟨c, hc, rfl⟩)]
  simp only [cellAt, if_pos hlt, List.getD_eq_getElem?_getD, List.get?_eq_getElem?,
    List.getElem?_eq_getElem hlt, Option.getD_some]

theorem mapEnumValue_int (k : IntKind) (n : Int) (E : List GoVal) (h0 : 0 ≤ n)
    (hn : n < E.length) (hE : E.length < 2 ^ 63) :
    E.get? n.toNat = some (mapEnumValue (.int k n) E) := by
  have hlt : n < 2 ^ 63 := by
    have : (E.length : Int) < 2 ^ 63 := by exact_mod_cast hE
    omega
  have hidx : convertValueToIndex (.int k n) = n := by
    simp only [convertValueToIndex, convertIntType, intOfKind]
    cases k <;> simp only [] <;> rw [if_neg (by omega)]
  have hnat : n.toNat < E.length := by omega
  simp only [mapEnumValue, hidx, h0, hn, and_self, if_true, List.getD_eq_getElem?_getD,
    List.get?_eq_getElem?, List.getElem?_eq_getElem hnat, Option.getD_some]

theorem mapEnumValue_str (s : String) (n : Int) (E : List GoVal) (ha : atoi s = some n)
    (h0 : 0 ≤ n) (hn : n < E.length) :
    E.get? n.toNat = some (mapEnumValue (.str s) E) := by
  have hidx : convertValueToIndex (.str s) = n := by
    simp only [convertValueToIndex, convertIntType, convertFloatType, convertStringType, ha]
  have hnat : n.toNat < E.length := by omega
  simp only [mapEnumValue, hidx, h0, hn, and_self, if_true, List.getD_eq_getElem?_getD,
    List.get?_eq_getElem?, List.getElem?_eq_getElem hnat, Option.getD_some]

theorem processEnumColumn_length (col : List GoVal) (raw : GoVal) :
    (processEnumColumn col raw).length = col.length := by
  cases raw <;> simp [processEnumColumn]

theorem dataColumn_of_mem (data : OrderedMap) (hk : (OrderedMap.keys data).Nodup)
    (enumOM : Option OrderedMap) (c : String) (col : List GoVal)
    (hc : (c, GoVal.arr col) ∈ data) :
    dataColumn data enumOM c =
      match enumOM with
      | none => col
      | some em =>
        match OrderedMap.get em c with
        | some enumColRaw => processEnumColumn col enumColRaw
        | none => col := by
  cases enumOM with
  | none => simp only [dataColumn, OrderedMap.get_of_mem data c _ hk hc]
  | some em =>
    cases hg : OrderedMap.get em c <;>
      simp only [dataColumn, OrderedMap.get_of_mem data c _ hk hc, hg]

theorem dataColumn_length (data : OrderedMap) (hk : (OrderedMap.keys data).Nodup)
    (enumOM : Option OrderedMap) (c : String) (col : List GoVal)
    (hc : (c, GoVal.arr col) ∈ data) :
    (dataColumn data enumOM c).length = col.length := by
  rw [dataColumn_of_mem data hk enumOM c col hc]
  cases enumOM with
  | none => rfl
  | some em =>
    simp only []
    cases OrderedMap.get em c with
    | none => rfl
    | some raw => exact processEnumColumn_length col raw

/-- Claim C15.  Let `__ENUM__` of a compact map give the enum map `em`.  No output row
has the key `__ENUM__`.  For a column `c` with cell `v` in row `i`: when `em` has no
entry for `c` the row holds `v`; when `em` gives the list `E` for `c` (a Go slice, so
shorter than `2 ^ 63`), and `v` is an integer `n` of any integer type, or a string that
`strconv.Atoi` parses as `n`, with `0 ≤ n < len(E)`, the row holds `E[n]`. -/
theorem RestoreCompactData_enum_list (data em : OrderedMap)
    (hk : (OrderedMap.keys data).Nodup) (hen : extractEnumOM data = some em) (i : Nat)
    (row : OrderedMap) (hrow : (RestoreCompactData data).get? i = some row) :
    "__ENUM__" ∉ OrderedMap.keys row ∧
    ∀ c col, (c, GoVal.arr col) ∈ data → c ≠ "__ENUM__" →
      ∃ v, col.get? i = some v ∧
        (OrderedMap.get em c = none → OrderedMap.get row c = some v) ∧
        (∀ E, OrderedMap.get em c = some (.arr E) → E.length < 2 ^ 63 →
          (∀ k n, v = .int k n → 0 ≤ n → n < E.length →
            OrderedMap.get row c = E.get? n.toNat) ∧
          (∀ s n, v = .str s → atoi s = some n → 0 ≤ n → n < E.length →
            OrderedMap.get row c = E.get? n.toNat)) := by
  obtain ⟨hkeys, hget⟩ := row_get data hk i row hrow
  refine ⟨?_, ?_⟩
  · rw [hkeys, mem_columnLabels]
    exact fun h => h.2 rfl
  · intro c col hc hne
    have hmem : c ∈ columnLabels data :=
      (mem_columnLabels data c).mpr ⟨List.mem_map_of_mem Prod.fst hc, hne⟩
    obtain ⟨hlt, hg⟩ := hget c hmem
    rw [dataColumn_length data hk _ c col hc] at hlt
    rw [dataColumn_of_mem data hk _ c col hc, hen] at hg
    simp only [] at hg
    refine ⟨col.get ⟨i, hlt⟩, List.get?_eq_get hlt, ?_, ?_⟩
    · intro hnone
      rw [hnone] at hg
      rw [hg]
      exact List.get?_eq_get hlt
    · intro E hE hlen
      rw [hE] at hg
      simp only [processEnumColumn, List.get?_eq_getElem?, List.getElem?_map,
        List.getElem?_eq_getElem hlt, Option.map_some'] at hg
      refine ⟨?_, ?_⟩
      · intro k n hv h0 hn
        rw [hg, mapEnumValue_int k n E h0 hn hlen]
        congr 2
      · intro s n hv ha h0 hn
        rw [hg, mapEnumValue_str s n E ha h0 hn]
        congr 2

theorem enumExample_rows :
    RestoreCompactData enumExample
      = [[("a", .int .int8 1), ("b", .str "A")], [("a", .int .int8 2), ("b", .str "B")],
         [("a", .int .int8 3), ("b", .str "C")]] := by
  rfl

/-- Witness for C15: the example of the specification, with the cells 0, `1` as a
string and 2 as an unsigned integer in the enum column. -/
theorem RestoreCompactData_enum_list_witness :
    (RestoreCompactData enumExample).get? 1
      = some [("a", .int .int8 2), ("b", .str "B")] ∧
    "__ENUM__" ∉ OrderedMap.keys [("a", GoVal.int .int8 2), ("b", GoVal.str "B")] ∧
    ∀ c col, (c, GoVal.arr col) ∈ enumExample → c ≠ "__ENUM__" →
      ∃ v, col.get? 1 = some v ∧
        (OrderedMap.get [("b", GoVal.arr [.str "A", .str "B", .str "C"])] c = none →
          OrderedMap.get [("a", GoVal.int .int8 2), ("b", GoVal.str "B")] c = some v) ∧
        (∀ E, OrderedMap.get [("b", GoVal.arr [.str "A", .str "B", .str "C"])] c
            = some (.arr E) → E.length < 2 ^ 63 →
          (∀ k n, v = .int k n → 0 ≤ n → n < E.length →
            OrderedMap.get [("a", GoVal.int .int8 2), ("b", GoVal.str "B")] c
              = E.get? n.toNat) ∧
          (∀ s n, v = .str s → atoi s = some n → 0 ≤ n → n < E.length →
            OrderedMap.get [("a", GoVal.int .int8 2), ("b", GoVal.str "B")] c
              = E.get? n.toNat)) :=
  ⟨rfl, RestoreCompactData_enum_list enumExample
    [("b", GoVal.arr [.str "A", .str "B", .str "C"])] (by decide) rfl 1
    [("a", .int .int8 2), ("b", .str "B")] rfl⟩

/-! ### Enum given as a mapping keyed by numbers -/

theorem atoiAll_eq_some : ∀ (keys : List String) (idx : List Int), atoiAll keys = some idx →
    idx.length = keys.length ∧ ∀ j, j < keys.length → atoi (keys.getD j "") = some (idx.getD j 0)
  | [], idx, h => by
    simp only [atoiAll, Option.some.injEq] at h
    subst h
    simp
  | k :: ks, idx, h => by
    simp only [atoiAll] at h
    cases hk : atoi k with
    | none => simp [hk] at h
    | some n =>
      cases hks : atoiAll ks with
      | none => simp [hk, hks] at h
      | some ns =>
        simp only [hk, hks, Option.some.injEq] at h
        subst h
        obtain ⟨h1, h2⟩ := atoiAll_eq_some ks ns hks
        refine ⟨by simp [h1], ?_⟩
        intro j hj
        cases j with
        | zero => simpa using hk
        | succ j =>
          simp only [List.length_cons, Nat.succ_lt_succ_iff] at hj
          simpa using h2 j hj

/-- One step of the loop that fills the enum slice. -/
theorem fill_step_length (sl : List GoVal) (n : Int) (v : GoVal) :
    (if 0 ≤ n ∧ n < sl.length then sl.set n.toNat v else sl).length = sl.length := by
  split <;> simp

theorem fill_spec : ∀ (ups : List (Int × GoVal)) (init : List GoVal),
    (ups.map Prod.fst).Nodup →
    (ups.foldl (fun sl u => if 0 ≤ u.1 ∧ u.1 < sl.length then sl.set u.1.toNat u.2 else sl)
      init).length = init.length ∧
    ∀ p : Nat, p < init.length →
      (∀ v, ((p : Int), v) ∈ ups →
        (ups.foldl (fun sl u => if 0 ≤ u.1 ∧ u.1 < sl.length then sl.set u.1.toNat u.2 else sl)
          init).get? p = some v) ∧
      ((∀ v, ((p : Int), v) ∉ ups) →
        (ups.foldl (fun sl u => if 0 ≤ u.1 ∧ u.1 < sl.length then sl.set u.1.toNat u.2 else sl)
          init).get? p = init.get? p)
  | [], init, _ => by simp
  | (n, v) :: ups, init, hnd => by
    simp only [List.map_cons, List.nodup_cons] at hnd
    simp only [List.foldl_cons]
    have hlen := fill_step_length init n v
    obtain ⟨ih1, ih2⟩ := fill_spec ups
      (if 0 ≤ n ∧ n < init.length then init.set n.toNat v else init) hnd.2
    refine ⟨by rw [ih1, hlen], ?_⟩
    intro p hp
    obtain ⟨ihm, ihn⟩ := ih2 p (by rw [hlen]; exact hp)
    refine ⟨?_, ?_⟩
    · intro w hw
      simp only [List.mem_cons, Prod.mk.injEq] at hw
      rcases hw with ⟨rfl, rfl⟩ | hw
      · rw [ihn ?_]
        · have h1 : (0 : Int) ≤ (p : Int) ∧ (p : Int) < init.length := by omega
          rw [if_pos h1, Int.toNat_ofNat, List.get?_eq_getElem?, List.getElem?_set_self hp]
        · intro w2 hw2
          exact hnd.1 (List.mem_map.mpr ⟨((p : Int), w2), hw2, rfl⟩)
      · exact ihm w hw
    · intro hno
      rw [ihn (fun w hw => hno w (List.mem_cons_of_mem _ hw))]
      have hne : n ≠ (p : Int) := by
        rintro rfl
        exact hno v (List.mem_cons_self _ _)
      split
      · rename_i h
        have : n.toNat ≠ p := by omega
        rw [List.get?_eq_getElem?, List.get?_eq_getElem?, List.getElem?_set_ne this]
      · rfl

theorem foldl_max_ge : ∀ (idx : List Int) (m : Int),
    m ≤ idx.foldl (fun m n => if n > m then n else m) m ∧
    ∀ n ∈ idx, n ≤ idx.foldl (fun m n => if n > m then n else m) m
  | [], m => by simp
  | a :: idx, m => by
    simp only [List.foldl_cons, List.mem_cons, forall_eq_or_imp]
    obtain ⟨h1, h2⟩ := foldl_max_ge idx (if a > m then a else m)
    by_cases ham : a > m
    · rw [if_pos ham] at h1 h2 ⊢
      exact ⟨by omega, h1, h2⟩
    · rw [if_neg ham] at h1 h2 ⊢
      exact ⟨h1, by omega, h2⟩

theorem foldl_max_mem : ∀ (idx : List Int) (m : Int),
    idx.foldl (fun m n => if n > m then n else m) m = m ∨
    idx.foldl (fun m n => if n > m then n else m) m ∈ idx
  | [], m => by simp
  | a :: idx, m => by
    simp only [List.foldl_cons, List.mem_cons]
    by_cases ham : a > m
    · rw [if_pos ham]
      rcases foldl_max_mem idx a with h | h
      · exact Or.inr (Or.inl h)
      · exact Or.inr (Or.inr h)
    · rw [if_neg ham]
      rcases foldl_max_mem idx m with h | h
      · exact Or.inl h
      · exact Or.inr (Or.inr h)

theorem map_getD_range {α : Type} (l : List α) (d : α) :
    (List.range l.length).map (fun j => l.getD j d) = l := by
  apply List.ext_getElem
  · simp
  · intro n h1 h2
    simp only [List.length_map, List.length_range] at h1
    simp [List.getD_eq_getElem?_getD, List.getElem?_eq_getElem h1]

/-- The enum slice built from a mapping with numeric keys of pairwise distinct values:
the fill loop, in terms of the entries it writes. -/
theorem convertNumericEnumToSlice_eq (e : OrderedMap) (keys : List String) (idx : List Int) :
    convertNumericEnumToSlice e keys idx =
      ((List.insertionSort (fun i j => idx.getD i 0 ≤ idx.getD j 0)
          (List.range keys.length)).map
        (fun oi => (idx.getD oi 0, OrderedMap.getOrNil e (keys.getD oi "")))).foldl
        (fun (sl : List GoVal) (u : Int × GoVal) =>
          if 0 ≤ u.1 ∧ u.1 < sl.length then sl.set u.1.toNat u.2 else sl)
        (List.replicate (idx.foldl (fun m n => if n > m then n else m) (-1) + 1).toNat GoVal.nil) := by
  rw [List.foldl_map]
  rfl

theorem numericEnum_spec (e : OrderedMap) (idx : List Int)
    (hk : (OrderedMap.keys e).Nodup) (ha : atoiAll (OrderedMap.keys e) = some idx)
    (hd : idx.Nodup) :
    (∀ key n v, (key, v) ∈ e → atoi key = some n → 0 ≤ n →
      (convertEnumToSlice e).get? n.toNat = some v) ∧
    (∀ p, p < (convertEnumToSlice e).length →
      (∀ key ∈ OrderedMap.keys e, atoi key ≠ some (p : Int)) →
      (convertEnumToSlice e).get? p = some .nil) ∧
    (∀ n : Int, (n : Int) < (convertEnumToSlice e).length ↔
      n ≤ idx.foldl (fun m n => if n > m then n else m) (-1)) := by
  obtain ⟨hlen, hat⟩ := atoiAll_eq_some _ _ ha
  have hperm := List.perm_insertionSort (fun i j => idx.getD i 0 ≤ idx.getD j 0)
    (List.range (OrderedMap.keys e).length)
  have hfst : List.Perm (((List.insertionSort (fun i j => idx.getD i 0 ≤ idx.getD j 0)
      (List.range (OrderedMap.keys e).length)).map
      (fun oi => (idx.getD oi 0, OrderedMap.getOrNil e ((OrderedMap.keys e).getD oi "")))).map
        Prod.fst) idx := by
    rw [List.map_map]
    have h1 : (Prod.fst ∘ fun oi =>
        (idx.getD oi 0, OrderedMap.getOrNil e ((OrderedMap.keys e).getD oi "")))
        = fun j => idx.getD j 0 := rfl
    rw [h1]
    have h2 := hperm.map (fun j => idx.getD j 0)
    rw [← hlen, map_getD_range] at h2
    rw [← hlen]
    exact h2
  have hnd := (hfst.nodup_iff).mpr hd
  have hmem : ∀ n v, (n, v) ∈ (List.insertionSort (fun i j => idx.getD i 0 ≤ idx.getD j 0)
      (List.range (OrderedMap.keys e).length)).map
      (fun oi => (idx.getD oi 0, OrderedMap.getOrNil e ((OrderedMap.keys e).getD oi "")))
      ↔ ∃ j, j < (OrderedMap.keys e).length ∧ idx.getD j 0 = n ∧
        OrderedMap.getOrNil e ((OrderedMap.keys e).getD j "") = v := by
    intro n v
    simp only [List.mem_map, hperm.mem_iff, List.mem_range, Prod.mk.injEq]
  obtain ⟨hl, hsp⟩ := fill_spec _
    (List.replicate (idx.foldl (fun m n => if n > m then n else m) (-1) + 1).toNat GoVal.nil) hnd
  have hce : convertEnumToSlice e = convertNumericEnumToSlice e (OrderedMap.keys e) idx := by
    simp only [convertEnumToSlice, ha]
  rw [hce, convertNumericEnumToSlice_eq]
  simp only [List.length_replicate] at hl hsp
  obtain ⟨hm0, hmge⟩ := foldl_max_ge idx (-1)
  refine ⟨?_, ?_, ?_⟩
  · intro key n v hkv hn h0
    obtain ⟨j, hj, hjk⟩ := List.getElem_of_mem (List.mem_map_of_mem Prod.fst hkv)
    have hj2 : j < (OrderedMap.keys e).length := hj
    have hkeyj : (OrderedMap.keys e).getD j "" = key := by
      rw [List.getD_eq_getElem?_getD, List.getElem?_eq_getElem hj2]
      exact hjk
    have hidx : idx.getD j 0 = n := by
      have := hat j hj2
      rw [hkeyj, hn, Option.some.injEq] at this
      exact this.symm
    have hnmem : n ∈ idx := by
      rw [← hidx, List.getD_eq_getElem?_getD, List.getElem?_eq_getElem (by omega)]
      exact List.getElem_mem _
    have hle := hmge n hnmem
    have hp : n.toNat < (idx.foldl (fun m n => if n > m then n else m) (-1) + 1).toNat := by
      omega
    have hin := (hsp n.toNat hp).1 v
    rw [Int.toNat_of_nonneg h0] at hin
    apply hin
    rw [hmem]
    refine ⟨j, hj2, hidx, ?_⟩
    rw [hkeyj, OrderedMap.getOrNil, OrderedMap.get_of_mem e key v hk hkv]
    rfl
  · intro p hp hno
    rw [hl] at hp
    rw [(hsp p hp).2 ?_]
    · rw [List.get?_eq_getElem?, List.getElem?_replicate, if_pos hp]
    · intro v hv
      rw [hmem] at hv
      obtain ⟨j, hj, hjn, -⟩ := hv
      apply hno ((OrderedMap.keys e).getD j "")
      · rw [List.getD_eq_getElem?_getD, List.getElem?_eq_getElem hj]
        exact List.getElem_mem _
      · rw [hat j hj, hjn]
  · intro n
    rw [hl]
    omega

theorem atoi_range (s : String) (n : Int) (h : atoi s = some n) :
    -(2 ^ 63) ≤ n ∧ n < 2 ^ 63 := by
  unfold atoi at h
  cases hp : parseSigned s with
  | none =>
    rw [hp] at h
    exact Option.noConfusion h
  | some v =>
    rw [hp] at h
    simp only [] at h
    by_cases hr : -(2 ^ 63) ≤ v ∧ v < 2 ^ 63
    · rw [if_pos hr, Option.some.injEq] at h
      rw [← h]
      exact hr
    · rw [if_neg hr] at h
      exact Option.noConfusion h

theorem atoiAll_of_forall : ∀ (keys : List String), (∀ key ∈ keys, ∃ n, atoi key = some n) →
    ∃ idx, atoiAll keys = some idx ∧ idx.map some = keys.map atoi
  | [], _ => ⟨[], rfl, rfl⟩
  | k :: ks, h => by
    obtain ⟨n, hn⟩ := h k (List.mem_cons_self _ _)
    obtain ⟨ns, hns, hmap⟩ := atoiAll_of_forall ks (fun key hk => h key (List.mem_cons_of_mem _ hk))
    refine ⟨n :: ns, ?_, ?_⟩
    · simp only [atoiAll, hn, hns]
    · simp only [List.map_cons, hn, hmap]

theorem NumericKeys.idx (e : OrderedMap) (h : e.NumericKeys) :
    ∃ idx, atoiAll (OrderedMap.keys e) = some idx ∧ idx.Nodup := by
  obtain ⟨idx, h1, h2⟩ := atoiAll_of_forall _ h.1
  refine ⟨idx, h1, ?_⟩
  have := h.2
  rw [← h2] at this
  exact List.Nodup.of_map _ this

theorem mapEnumValue_of_get (k : IntKind) (n : Int) (sl : List GoVal) (v : GoVal)
    (h0 : 0 ≤ n) (h63 : n < 2 ^ 63) (hg : sl.get? n.toNat = some v) :
    mapEnumValue (.int k n) sl = v := by
  have hidx : convertValueToIndex (.int k n) = n := by
    simp only [convertValueToIndex, convertIntType, intOfKind]
    cases k <;> simp only [] <;> rw [if_neg (by omega)]
  have hlt : n.toNat < sl.length := by
    rw [List.get?_eq_getElem?] at hg
    by_contra hc
    rw [List.getElem?_eq_none (by omega)] at hg
    exact Option.noConfusion hg
  have hn : n < sl.length := by omega
  simp only [mapEnumValue, hidx, h0, hn, and_self, if_true, List.getD_eq_getElem?_getD]
  rw [List.get?_eq_getElem?] at hg
  rw [hg]
  rfl

theorem mapEnumValue_int_outside (k : IntKind) (n : Int) (E : List GoVal)
    (hout : n < 0 ∨ (E.length : Int) ≤ n) (h64 : n < 2 ^ 64) :
    mapEnumValue (.int k n) E = .int k n := by
  have hidx : convertValueToIndex (.int k n) = intOfKind k n := rfl
  have hcase : intOfKind k n < 0 ∨ (E.length : Int) ≤ intOfKind k n := by
    cases k <;> simp only [intOfKind] <;> first | exact hout | (split_ifs <;> omega)
  simp only [mapEnumValue, hidx]
  rw [if_neg (by omega)]

theorem mapEnumValue_str_unparsed (s : String) (E : List GoVal) (h : atoi s = none) :
    mapEnumValue (.str s) E = .str s := by
  have hidx : convertValueToIndex (.str s) = -1 := by
    simp only [convertValueToIndex, convertIntType, convertFloatType, convertStringType, h]
  simp only [mapEnumValue, hidx]
  rw [if_neg (by omega)]

theorem mapEnumValue_bool (b : Bool) (E : List GoVal) :
    mapEnumValue (.bool b) E = .bool b := by
  have hidx : convertValueToIndex (.bool b) = -1 := rfl
  simp only [mapEnumValue, hidx]
  rw [if_neg (by omega)]

/-- Claim C17, as amended.  When the enum of a column is an ordered mapping all of
whose keys are decimal integers of pairwise distinct values, a cell with the integer
value `n ≥ 0`, of any integer type, for which the mapping has a key of value `n` is
mapped to the value stored under that key.  The hypotheses do not depend on the order
of the keys, so neither does the result. -/
theorem mapEnumValue_numeric_mapping (e : OrderedMap) (hk : (OrderedMap.keys e).Nodup)
    (hnum : e.NumericKeys) (key : String) (v : GoVal) (hkv : (key, v) ∈ e) (n : Int)
    (hn : atoi key = some n) (h0 : 0 ≤ n) (k : IntKind) :
    mapEnumValue (.int k n) (convertEnumToSlice e) = v := by
  obtain ⟨idx, ha, hd⟩ := NumericKeys.idx e hnum
  obtain ⟨h1, -, -⟩ := numericEnum_spec e idx hk ha hd
  exact mapEnumValue_of_get k n _ v h0 (atoi_range key n hn).2 (h1 key n v hkv hn h0)

theorem gapEnum_numeric : gapEnum.NumericKeys := by
  refine ⟨?_, by decide⟩
  intro key hkey
  simp only [gapEnum, OrderedMap.keys, List.map_cons, List.map_nil, List.mem_cons,
    List.mem_singleton, List.not_mem_nil, or_false] at hkey
  rcases hkey with rfl | rfl
  · exact ⟨2, rfl⟩
  · exact ⟨0, rfl⟩

/-- Witness for C17: the mapping with the keys 2 and 0, in this order, maps the cell 2
to the value under the key `2`. -/
theorem mapEnumValue_numeric_mapping_witness :
    convertEnumToSlice gapEnum = [.str "A", .nil, .str "C"] ∧
    mapEnumValue (.int .uint8 2) (convertEnumToSlice gapEnum) = .str "C" :=
  ⟨rfl, mapEnumValue_numeric_mapping gapEnum (by decide) gapEnum_numeric "2" (.str "C")
    (by simp [gapEnum]) 2 rfl (by decide) .uint8⟩

/-- Counterexample for C17: the mapping has the key `-1`, of value -1, but the cell -1
is not mapped to the value under that key; it is kept. -/
theorem mapEnumValue_negative_key_not_mapped :
    atoi "-1" = some (-1) ∧ atoi "0" = some 0 ∧
    OrderedMap.get negativeEnum "-1" = some (.str "neg") ∧
    convertEnumToSlice negativeEnum = [.str "zero"] ∧
    mapEnumValue (.int .int8 (-1)) (convertEnumToSlice negativeEnum) = .int .int8 (-1) :=
  ⟨rfl, rfl, rfl, rfl, rfl⟩

/-- Claim C16 (the code departs from it).  For every enum slice `E`, a cell that is a
negative integer, an integer at or beyond the length of `E`, a string that is not a
number, or a boolean is kept unchanged.  But when the enum is a mapping with numeric
keys of pairwise distinct values, a cell `n` with `0 ≤ n` below the length of the slice
built from the mapping that is the value of none of its keys is replaced by nil. -/
theorem enum_unknown_index (E : List GoVal) (e : OrderedMap) :
    (∀ k n, (n < 0 ∨ (E.length : Int) ≤ n) → n < 2 ^ 64 →
      mapEnumValue (.int k n) E = .int k n) ∧
    (∀ s, atoi s = none → mapEnumValue (.str s) E = .str s) ∧
    (∀ b, mapEnumValue (.bool b) E = .bool b) ∧
    ((OrderedMap.keys e).Nodup → e.NumericKeys →
      ∀ (k : IntKind) (n : Int), 0 ≤ n → n < (convertEnumToSlice e).length →
        (∀ key ∈ OrderedMap.keys e, atoi key ≠ some n) →
        mapEnumValue (.int k n) (convertEnumToSlice e) = .nil) := by
  refine ⟨fun k n h1 h2 => mapEnumValue_int_outside k n E h1 h2,
    fun s h => mapEnumValue_str_unparsed s E h, fun b => mapEnumValue_bool b E, ?_⟩
  intro hk hnum k n h0 hlt hno
  obtain ⟨idx, ha, hd⟩ := NumericKeys.idx e hnum
  obtain ⟨-, h2, h3⟩ := numericEnum_spec e idx hk ha hd
  have hle := (h3 n).mp hlt
  have h63 : n < 2 ^ 63 := by
    rcases foldl_max_mem idx (-1) with hm | hm
    · omega
    · obtain ⟨j, hj, hjm⟩ := List.getElem_of_mem hm
      obtain ⟨hlen, hat⟩ := atoiAll_eq_some _ _ ha
      have hj2 : j < (OrderedMap.keys e).length := by omega
      have := hat j hj2
      rw [List.getD_eq_getElem?_getD (l := idx), List.getElem?_eq_getElem hj,
        Option.getD_some, hjm] at this
      have := (atoi_range _ _ this).2
      omega
  apply mapEnumValue_of_get k n _ .nil h0 h63
  apply h2 n.toNat (by omega)
  intro key hkey
  rw [Int.toNat_of_nonneg h0]
  exact hno key hkey

/-- Witness for C16: with the mapping of the keys 2 and 0 the cell 1 becomes nil, while
the cells -1, 3, `x` and `true` are kept. -/
theorem enum_unknown_index_witness :
    mapEnumValue (.int .int8 1) (convertEnumToSlice gapEnum) = .nil ∧
    mapEnumValue (.int .int8 (-1)) (convertEnumToSlice gapEnum) = .int .int8 (-1) ∧
    mapEnumValue (.int .int8 3) (convertEnumToSlice gapEnum) = .int .int8 3 ∧
    mapEnumValue (.str "x") (convertEnumToSlice gapEnum) = .str "x" ∧
    mapEnumValue (.bool true) (convertEnumToSlice gapEnum) = .bool true ∧
    RestoreCompactData
        [("__ENUM__", .omap [("b", .omap gapEnum)]),
         ("b", .arr [.int .int8 0, .int .int8 1, .int .int8 2])]
      = [[("b", .str "A")], [("b", .nil)], [("b", .str "C")]] :=
  ⟨(enum_unknown_index [] gapEnum).2.2.2 (by decide) gapEnum_numeric .int8 1 (by decide)
      (by decide) (by decide),
    rfl, rfl, rfl, rfl, rfl⟩

/-! ### `RestoreDict` -/

theorem handleSimpleTuple_strings (names : List String) (data : List GoVal) :
    handleSimpleTuple (names.map GoVal.str) data = none := by
  match names with
  | [] => rfl
  | [_] => rfl
  | [_, _] => rfl
  | _ :: _ :: _ :: _ => rfl

theorem restoreKey_str_none (data : List GoVal) (i : Nat) (k : String) (result : OrderedMap)
    (hget : data.get? i = none) : restoreKey data i (.str k) result = result := by
  simp only [restoreKey, hget]

theorem restoreKey_str_nil (data : List GoVal) (i : Nat) (k : String) (result : OrderedMap)
    (hget : data.get? i = some .nil) : restoreKey data i (.str k) result = result := by
  simp only [restoreKey, hget]

theorem restoreKey_str_some (data : List GoVal) (i : Nat) (k : String) (result : OrderedMap)
    (v : GoVal) (hget : data.get? i = some v) (hv : v ≠ .nil) :
    restoreKey data i (.str k) result = OrderedMap.set result k v := by
  cases v <;> first | exact absurd rfl hv | simp only [restoreKey, hget]

theorem restoreKeys_strings : ∀ (names : List String) (data : List GoVal) (i : Nat)
    (result : OrderedMap), names.Nodup → (∀ k ∈ names, k ∉ OrderedMap.keys result) →
    restoreKeys data i (names.map GoVal.str) result
      = result ++ positionalFields names (data.drop i)
  | [], data, i, result, _, _ => by
    simp [restoreKeys, positionalFields]
  | k :: names, data, i, result, hnd, hfresh => by
    simp only [List.nodup_cons] at hnd
    have hk : k ∉ OrderedMap.keys result := hfresh k (List.mem_cons_self _ _)
    simp only [List.map_cons, restoreKeys]
    cases hget : data.get? i with
    | none =>
      have hdrop : data.drop i = [] := by
        rw [List.get?_eq_getElem?, List.getElem?_eq_none_iff] at hget
        exact List.drop_eq_nil_of_le hget
      rw [restoreKey_str_none data i k result hget,
        restoreKeys_strings names data (i + 1) result hnd.2
        (fun k2 hk2 => hfresh k2 (List.mem_cons_of_mem _ hk2))]
      have hdrop2 : data.drop (i + 1) = [] := by
        rw [← List.drop_drop, hdrop]
        rfl
      rw [hdrop, hdrop2]
      simp [positionalFields]
    | some v =>
      have hlt : i < data.length := by
        rw [List.get?_eq_getElem?] at hget
        by_contra hc
        rw [List.getElem?_eq_none (by omega)] at hget
        exact Option.noConfusion hget
      have hdrop : data.drop i = v :: data.drop (i + 1) := by
        rw [List.drop_eq_getElem_cons hlt]
        congr 1
        rw [List.get?_eq_getElem?, List.getElem?_eq_getElem hlt, Option.some.injEq] at hget
        exact hget
      by_cases hv : v = .nil
      · subst hv
        rw [restoreKey_str_nil data i k result hget,
          restoreKeys_strings names data (i + 1) result hnd.2
          (fun k2 hk2 => hfresh k2 (List.mem_cons_of_mem _ hk2)), hdrop]
        simp [positionalFields, GoVal.isNil]
      · rw [restoreKey_str_some data i k result v hget hv,
          OrderedMap.set_of_not_mem result k v hk,
          restoreKeys_strings names data (i + 1) _ hnd.2 ?_, hdrop]
        · have hnn : (!v.isNil) = true := by
            cases v <;> first | rfl | exact absurd rfl hv
          simp [positionalFields, hnn]
        · intro k2 hk2
          simp only [OrderedMap.keys, List.map_append, List.map_cons, List.map_nil,
            List.mem_append, List.mem_singleton, not_or]
          refine ⟨hfresh k2 (List.mem_cons_of_mem _ hk2), ?_⟩
          rintro rfl
          exact hnd.1 hk2

/-- Claim C19.  For a key structure of pairwise distinct strings, `RestoreDict` returns
the ordered map whose entries are the pairs of `keyStructure[i]` and `data[i]`, in the
order of the key structure, for the positions `i` below both lengths at which
`data[i]` is not nil. -/
theorem RestoreDict_positional (names : List String) (data : List GoVal)
    (hnd : names.Nodup) :
    RestoreDict data (names.map GoVal.str) = positionalFields names data := by
  unfold RestoreDict
  rw [handleSimpleTuple_strings]
  simp only []
  rw [restoreKeys_strings names data 0 OrderedMap.new hnd
    (by simp [OrderedMap.new, OrderedMap.keys])]
  simp [OrderedMap.new]

/-- Witness for C19: the example of the specification, and a data list with a nil. -/
theorem RestoreDict_positional_witness :
    RestoreDict [.int .int8 10, .int .int8 20, .int .int8 30] [.str "x", .str "y", .str "z"]
      = [("x", .int .int8 10), ("y", .int .int8 20), ("z", .int .int8 30)] ∧
    RestoreDict [.int .int8 10, .nil, .int .int8 30, .int .int8 40]
        (["x", "y", "z"].map GoVal.str)
      = [("x", .int .int8 10), ("z", .int .int8 30)] ∧
    RestoreDict [.int .int8 10, .nil, .int .int8 30, .int .int8 40]
        (["x", "y", "z"].map GoVal.str)
      = positionalFields ["x", "y", "z"] [.int .int8 10, .nil, .int .int8 30, .int .int8 40] :=
  ⟨rfl, rfl, RestoreDict_positional ["x", "y", "z"] _ (by decide)⟩

theorem tupleStep_str (dict : OrderedMap) (k : String) (v : GoVal) (hv : v ≠ .nil) :
    tupleStep dict (.str k, v) = OrderedMap.set dict k v := by
  cases v <;> first | exact absurd rfl hv | rfl

theorem buildDictFromTuple_strings_aux : ∀ (fnames : List String) (L : List GoVal)
    (dict : OrderedMap), fnames.Nodup → (∀ k ∈ fnames, k ∉ OrderedMap.keys dict) →
    ((fnames.map GoVal.str).zip L).foldl tupleStep dict
      = dict ++ positionalFields fnames L
  | [], L, dict, _, _ => by simp [positionalFields]
  | k :: fnames, [], dict, _, _ => by simp [positionalFields]
  | k :: fnames, v :: L, dict, hnd, hfresh => by
    simp only [List.nodup_cons] at hnd
    have hk : k ∉ OrderedMap.keys dict := hfresh k (List.mem_cons_self _ _)
    simp only [List.map_cons, List.zip_cons_cons, List.foldl_cons]
    by_cases hv : v = .nil
    · subst hv
      rw [show tupleStep dict (GoVal.str k, GoVal.nil) = dict from rfl,
        buildDictFromTuple_strings_aux fnames L dict hnd.2
        (fun k2 hk2 => hfresh k2 (List.mem_cons_of_mem _ hk2))]
      simp [positionalFields, GoVal.isNil]
    · have hnn : (!v.isNil) = true := by
        cases v <;> first | rfl | exact absurd rfl hv
      rw [tupleStep_str dict k v hv, OrderedMap.set_of_not_mem dict k v hk,
        buildDictFromTuple_strings_aux fnames L _ hnd.2 ?_]
      · simp [positionalFields, hnn]
      · intro k2 hk2
        simp only [OrderedMap.keys, List.map_append, List.map_cons, List.map_nil,
          List.mem_append, List.mem_singleton, not_or]
        refine ⟨hfresh k2 (List.mem_cons_of_mem _ hk2), ?_⟩
        rintro rfl
        exact hnd.1 hk2

theorem buildDictFromTuple_strings (fnames : List String) (L : List GoVal)
    (hnd : fnames.Nodup) :
    buildDictFromTuple (fnames.map GoVal.str) L = positionalFields fnames L := by
  have := buildDictFromTuple_strings_aux fnames L OrderedMap.new hnd
    (by simp [OrderedMap.new, OrderedMap.keys])
  simpa [buildDictFromTuple, OrderedMap.new] using this

/-- Claim C20, as amended.  For a key structure that is exactly `[name, m]` with `m` a
map whose `__tuple__` entry is a list of pairwise distinct strings `fields`, and a data
list of length 1 whose element is a list `L`, `RestoreDict` returns the one-key map
`{name: D}` where the entries of `D` are the pairs of `fields[j]` and `L[j]`, in order,
for the `j` below both lengths with `L[j]` not nil. -/
theorem RestoreDict_tuple (name : String) (m : GoVal) (fnames : List String) (L : List GoVal)
    (hm : extractTupleKeys m = some (fnames.map GoVal.str)) (hnd : fnames.Nodup) :
    RestoreDict [.arr L] [.str name, m] = [(name, .omap (positionalFields fnames L))] := by
  simp only [RestoreDict, handleSimpleTuple, hm, buildDictFromTuple_strings fnames L hnd]
  rfl

/-- Witness for C20: the example of the specification. -/
theorem RestoreDict_tuple_witness :
    RestoreDict [.arr [.int .int8 1, .int .int8 2]]
        [.str "outer", .omapValue [("__tuple__", .arr [.str "p", .str "q"])]]
      = [("outer", .omap [("p", .int .int8 1), ("q", .int .int8 2)])] ∧
    RestoreDict [.arr [.int .int8 1, .int .int8 2]]
        [.str "outer", .omapValue [("__tuple__", .arr (["p", "q"].map GoVal.str))]]
      = [("outer", .omap (positionalFields ["p", "q"] [.int .int8 1, .int .int8 2]))] :=
  ⟨rfl, RestoreDict_tuple "outer" _ ["p", "q"] _ rfl (by decide)⟩

/-- Counterexample for C20: with the field name `p` twice the map `D` has one entry,
which holds the second value, so `fields[0]` is not mapped to `L[0]`. -/
theorem RestoreDict_tuple_duplicate_field :
    RestoreDict [.arr [.int .int8 1, .int .int8 2]]
        [.str "outer", .omapValue [("__tuple__", .arr [.str "p", .str "p"])]]
      = [("outer", .omap [("p", .int .int8 2)])] :=
  rfl

theorem restoreNested_eq (subArr second : List GoVal) :
    restoreNested subArr second = RestoreDict subArr (nestedStructure second) := by
  cases second with
  | nil => rfl
  | cons first rest =>
    cases first with
    | arr innerStruct =>
      by_cases hl : innerStruct.length ≥ 2
      · simp only [restoreNested, restoreInner, nestedStructure, if_pos hl, RestoreDict]
        cases handleSimpleTuple innerStruct subArr <;> rfl
      · simp only [restoreNested, restoreInner, nestedStructure, if_neg hl, RestoreDict,
          restoreKeys]
    | _ => rfl

theorem processNestedArray_eq (arrayData : List GoVal) (i : Nat) (second : List GoVal) :
    processNestedArray arrayData i second
      = (nestedRows arrayData i).map (fun subArr => RestoreDict subArr (nestedStructure second)) := by
  unfold processNestedArray
  apply List.map_congr_left
  intro subArr _
  cases second with
  | nil => rfl
  | cons first rest =>
    cases first with
    | arr innerStruct =>
      by_cases hl : innerStruct.length ≥ 2
      · simp only [nestedStructure, if_pos hl]
      · simp only [nestedStructure, if_neg hl]
    | _ => rfl

theorem restoreKey_nested (arrayData : List GoVal) (i : Nat) (name : String)
    (second : List GoVal) (result : OrderedMap) :
    restoreKey arrayData i (.arr [.str name, .arr second]) result
      = OrderedMap.set result name (.omapSlice (processNestedArray arrayData i second)) := by
  rw [processNestedArray_eq]
  simp only [restoreKey, restorePair, restoreSecond, restoreNested_eq]

theorem filterMap_asList : ∀ (subs : List (List GoVal)),
    (subs.map GoVal.arr).filterMap GoVal.asList = subs
  | [] => rfl
  | a :: rest => by
    simp only [List.map_cons, List.filterMap_cons, GoVal.asList, filterMap_asList rest]

theorem nestedRows_of_lists (arrayData : List GoVal) (i : Nat) (subs : List (List GoVal))
    (h : arrayData.get? i = some (.arr (subs.map GoVal.arr))) :
    nestedRows arrayData i = subs := by
  simp only [nestedRows, h]
  exact filterMap_asList subs

theorem restoreKeys_append : ∀ (a b : List GoVal) (data : List GoVal) (i : Nat)
    (r : OrderedMap),
    restoreKeys data i (a ++ b) r = restoreKeys data (i + a.length) b (restoreKeys data i a r)
  | [], b, data, i, r => by simp [restoreKeys]
  | x :: a, b, data, i, r => by
    rw [List.cons_append, restoreKeys, restoreKeys, restoreKeys_append a b data (i + 1),
      List.length_cons]
    congr 1
    omega

theorem restoreKey_get (data : List GoVal) (i : Nat) (key : GoVal) (r : OrderedMap)
    (name : String) (h : keyName key ≠ some name) :
    OrderedMap.get (restoreKey data i key r) name = OrderedMap.get r name := by
  cases key with
  | str k =>
    have hk : ¬ name = k := fun e => h (by rw [e]; rfl)
    cases hget : data.get? i with
    | none => rw [restoreKey_str_none data i k r hget]
    | some v =>
      by_cases hv : v = .nil
      · subst hv
        rw [restoreKey_str_nil data i k r hget]
      · rw [restoreKey_str_some data i k r v hget hv, OrderedMap.get_set, if_neg hk]
  | arr k =>
    simp only [restoreKey]
    match k with
    | [] => rfl
    | [_] => cases ‹GoVal› <;> rfl
    | first :: second :: rest =>
      cases first with
      | str kn =>
        have hk : ¬ name = kn := fun e => h (by rw [e]; rfl)
        simp only [restorePair]
        cases second <;> simp only [restoreSecond]
        case arr sec => rw [OrderedMap.get_set, if_neg hk]
        case omap s =>
          cases processTupleField (.omap s) data i with
          | none => rfl
          | some d => simp only []; rw [OrderedMap.get_set, if_neg hk]
        case omapValue s =>
          cases processTupleField (.omapValue s) data i with
          | none => rfl
          | some d => simp only []; rw [OrderedMap.get_set, if_neg hk]
        case gomap s =>
          cases processTupleField (.gomap s) data i with
          | none => rfl
          | some d => simp only []; rw [OrderedMap.get_set, if_neg hk]
      | _ => rfl
  | _ => rfl

theorem restoreKeys_get : ∀ (post : List GoVal) (data : List GoVal) (i : Nat) (r : OrderedMap)
    (name : String), (∀ key ∈ post, keyName key ≠ some name) →
    OrderedMap.get (restoreKeys data i post r) name = OrderedMap.get r name
  | [], _, _, _, _, _ => rfl
  | key :: post, data, i, r, name, h => by
    simp only [restoreKeys]
    rw [restoreKeys_get post data (i + 1) _ name (fun k hk => h k (List.mem_cons_of_mem _ hk)),
      restoreKey_get data i key r name (h key (List.mem_cons_self _ _))]

theorem handleSimpleTuple_with_pair (pre post : List GoVal) (k : List GoVal)
    (data : List GoVal) :
    handleSimpleTuple (pre ++ GoVal.arr k :: post) data = none := by
  match pre, post with
  | [], [] => rfl
  | [], [_] => rfl
  | [], _ :: _ :: _ => rfl
  | [p], [] => cases p <;> rfl
  | [p], _ :: _ => cases p <;> rfl
  | [p, _], _ => cases p <;> rfl
  | p :: _ :: _ :: _, _ => cases p <;> rfl

/-- Claim C21, as amended.  When the element at position `i` of the key structure is
the pair `[name, inner]` with `inner` a list, `data[i]` is a list all of whose elements
are lists, and no later element of the key structure names `name` again, `RestoreDict`
sets `name` to the list of the maps `RestoreDict(s, structure)`, one for each element
`s` of `data[i]` in order, where `structure` is `inner[0]` if that is a list of two or
more elements and `inner` itself otherwise. -/
theorem RestoreDict_nested_list (data pre post : List GoVal) (name : String)
    (inner : List GoVal) (subs : List (List GoVal))
    (hi : data.get? pre.length = some (.arr (subs.map GoVal.arr)))
    (hpost : ∀ key ∈ post, keyName key ≠ some name) :
    OrderedMap.get (RestoreDict data (pre ++ GoVal.arr [.str name, .arr inner] :: post)) name
      = some (.omapSlice (subs.map (fun s => RestoreDict s (nestedStructure inner)))) ∧
    processNestedArray data pre.length inner
      = subs.map (fun s => RestoreDict s (nestedStructure inner)) ∧
    ((∀ innerStruct rest, inner = GoVal.arr innerStruct :: rest → innerStruct.length < 2) →
      nestedStructure inner = inner) := by
  have hp : processNestedArray data pre.length inner
      = subs.map (fun s => RestoreDict s (nestedStructure inner)) := by
    rw [processNestedArray_eq, nestedRows_of_lists data pre.length subs hi]
  refine ⟨?_, hp, ?_⟩
  · have hrd : RestoreDict data (pre ++ GoVal.arr [.str name, .arr inner] :: post)
        = restoreKeys data 0 (pre ++ GoVal.arr [.str name, .arr inner] :: post)
          OrderedMap.new := by
      unfold RestoreDict
      rw [handleSimpleTuple_with_pair]
    rw [hrd, restoreKeys_append, restoreKeys, restoreKeys_get post _ _ _ name hpost,
      restoreKey_nested, Nat.zero_add, hp, OrderedMap.get_set, if_pos rfl]
  · intro h
    cases inner with
    | nil => rfl
    | cons first rest =>
      cases first with
      | arr innerStruct =>
        have := h innerStruct rest rfl
        simp only [nestedStructure]
        rw [if_neg (by omega)]
      | _ => rfl

/-- Witness for C21: a nested list of two sub-lists restored against `["a", "b"]`. -/
theorem RestoreDict_nested_list_witness :
    RestoreDict [.int .int8 7, .arr [.arr [.int .int8 1, .int .int8 2], .arr [.int .int8 3]]]
        [.str "id", .arr [.str "items", .arr [.str "a", .str "b"]]]
      = [("id", .int .int8 7), ("items", .omapSlice [[("a", .int .int8 1), ("b", .int .int8 2)],
          [("a", .int .int8 3)]])] ∧
    OrderedMap.get
        (RestoreDict
          [.int .int8 7,
            .arr (([[.int .int8 1, .int .int8 2], [.int .int8 3]] : List (List GoVal)).map
              GoVal.arr)]
          ([GoVal.str "id"] ++ GoVal.arr [.str "items", .arr [.str "a", .str "b"]] :: []))
        "items"
      = some (.omapSlice (([[.int .int8 1, .int .int8 2], [.int .int8 3]] : List (List GoVal)).map
          (fun s => RestoreDict s (nestedStructure [.str "a", .str "b"])))) :=
  ⟨rfl, (RestoreDict_nested_list
    [.int .int8 7,
      .arr (([[.int .int8 1, .int .int8 2], [.int .int8 3]] : List (List GoVal)).map GoVal.arr)]
    [.str "id"] [] "items" [.str "a", .str "b"]
    ([[.int .int8 1, .int .int8 2], [.int .int8 3]] : List (List GoVal))
    rfl (by simp)).1⟩

/-- Counterexample for C21: when `inner` is the one-element list `[["a", "b"]]` each
sub-list is restored against `["a", "b"]`, not against `inner`, which would give the
empty map. -/
theorem RestoreDict_nested_list_unwraps :
    RestoreDict [.arr [.arr [.int .int8 1, .int .int8 2]]]
        [.arr [.str "items", .arr [.arr [.str "a", .str "b"]]]]
      = [("items", .omapSlice [[("a", .int .int8 1), ("b", .int .int8 2)]])] ∧
    RestoreDict [.int .int8 1, .int .int8 2] [.arr [.str "a", .str "b"]] = [] :=
  ⟨rfl, rfl⟩

/-! ### `restoreStructuredData` -/

/-- Claim C22.  For a key whose descriptor entry is the list `def` and whose value is a
list all of whose elements are lists, `restoreStructuredData` returns the list of the
maps `RestoreDict(t, def)`, one for each element `t` of the value in order, and stores
it in the master map under the key; for a key without descriptor entry it returns the
value and leaves the master map as it is. -/
theorem restoreStructuredData_spec (key : String) (value : GoVal)
    (structures masterData : OrderedMap) :
    (OrderedMap.get structures key = none →
      restoreStructuredData key value structures masterData = (value, masterData)) ∧
    (∀ (structDef : List GoVal) (ts : List (List GoVal)),
      OrderedMap.get structures key = some (.arr structDef) →
      value = .arr (ts.map GoVal.arr) →
      restoreStructuredData key value structures masterData
        = (.omapSlice (ts.map (fun t => RestoreDict t structDef)),
           OrderedMap.set masterData key
             (.omapSlice (ts.map (fun t => RestoreDict t structDef))))) := by
  refine ⟨?_, ?_⟩
  · intro h
    simp only [restoreStructuredData, h]
  · intro structDef ts h hv
    subst hv
    have hfm : (ts.map GoVal.arr).filterMap
        (fun v => v.asList.map (fun subArr => RestoreDict subArr structDef))
        = ts.map (fun t => RestoreDict t structDef) := by
      induction ts with
      | nil => rfl
      | cons a rest ih =>
        rw [List.map_cons, List.map_cons, ← ih]
        rfl
    simp only [restoreStructuredData, h, hfm, List.length_map]
    rw [if_neg (by omega)]

/-- Witness for C22: two tuples restored against the descriptor `["x", "y"]`. -/
theorem restoreStructuredData_spec_witness :
    restoreStructuredData "cards"
        (.arr [.arr [.int .int8 1, .int .int8 2], .arr [.int .int8 3, .int .int8 4]])
        [("cards", .arr [.str "x", .str "y"])] [("cards", .nil)]
      = (.omapSlice [[("x", .int .int8 1), ("y", .int .int8 2)],
          [("x", .int .int8 3), ("y", .int .int8 4)]],
        [("cards", .omapSlice [[("x", .int .int8 1), ("y", .int .int8 2)],
          [("x", .int .int8 3), ("y", .int .int8 4)]])]) ∧
    restoreStructuredData "other" (.arr [.arr [.int .int8 1]])
        [("cards", .arr [.str "x", .str "y"])] [("other", .nil)]
      = (.arr [.arr [.int .int8 1]], [("other", .nil)]) :=
  ⟨rfl, (restoreStructuredData_spec "other" _ [("cards", .arr [.str "x", .str "y"])] _).1 rfl⟩

/-! ### Merging by id -/

theorem filter_orderedInsert (f : OrderedMap → Int) (c : Int) (a : OrderedMap) :
    ∀ l : List OrderedMap,
      (List.orderedInsert (fun x y => f x ≤ f y) a l).filter (fun m => f m = c)
        = (a :: l).filter (fun m => f m = c)
  | [] => rfl
  | b :: l => by
    by_cases hab : f a ≤ f b
    · simp only [List.orderedInsert, if_pos hab]
    · simp only [List.orderedInsert, if_neg hab]
      rw [List.filter_cons, filter_orderedInsert f c a l]
      by_cases ha : f a = c
      · have hb : ¬ f b = c := by omega
        simp [List.filter_cons, ha, hb]
      · simp [List.filter_cons, ha]

theorem filter_insertionSort (f : OrderedMap → Int) (c : Int) :
    ∀ l : List OrderedMap,
      (List.insertionSort (fun x y => f x ≤ f y) l).filter (fun m => f m = c)
        = l.filter (fun m => f m = c)
  | [] => rfl
  | a :: l => by
    rw [List.insertionSort, filter_orderedInsert, List.filter_cons, List.filter_cons,
      filter_insertionSort f c l]

theorem sorted_insertionSort_key (f : OrderedMap → Int) (l : List OrderedMap) :
    List.Sorted (fun x y => f x ≤ f y) (List.insertionSort (fun x y => f x ≤ f y) l) :=
  @List.sorted_insertionSort _ (fun x y => f x ≤ f y) _
    ⟨fun a b => le_total (f a) (f b)⟩ ⟨fun _ _ _ h1 h2 => le_trans h1 h2⟩ l

/-- Claim C23 (the code departs from it).  The list returned by `mergeAndSortData` is a
rearrangement of the kept prior entries followed by the restored ones, ascending in
`toInt64` of the id, and entries of equal `toInt64` keep their relative order.  But
`toInt64` is the numeric value only for the types `int`, `int32`, `int64` and `uint32`
(and for `uint64` up to `MaxInt64`); for an id of type `int8`, `int16`, `uint8` or
`uint16` it is 0, so such ids are not ordered by their value. -/
theorem mergeAndSortData_order (value : GoVal) (arr : List OrderedMap) (valueIDs : List GoVal)
    (idKey : String) :
    List.Perm (mergeAndSortData value arr valueIDs idKey)
      (keptPrior value valueIDs idKey ++ arr) ∧
    List.Sorted (fun a b => sortKey idKey a ≤ sortKey idKey b)
      (mergeAndSortData value arr valueIDs idKey) ∧
    (∀ c : Int, (mergeAndSortData value arr valueIDs idKey).filter (fun m => sortKey idKey m = c)
      = (keptPrior value valueIDs idKey ++ arr).filter (fun m => sortKey idKey m = c)) ∧
    (∀ (k : IntKind) (n : Int), k = .int ∨ k = .int32 ∨ k = .int64 ∨ k = .uint32 →
      toInt64 (.int k n) = n) ∧
    (∀ n : Int, n < 2 ^ 63 → toInt64 (.int .uint64 n) = n) ∧
    (∀ (k : IntKind) (n : Int), k = .int8 ∨ k = .int16 ∨ k = .uint8 ∨ k = .uint16 →
      toInt64 (.int k n) = 0) := by
  refine ⟨List.perm_insertionSort _ _, sorted_insertionSort_key (sortKey idKey) _,
    fun c => filter_insertionSort (sortKey idKey) c _, ?_, ?_, ?_⟩
  · rintro k n (rfl | rfl | rfl | rfl) <;> rfl
  · intro n hn
    simp only [toInt64]
    rw [if_neg (by omega)]
  · rintro k n (rfl | rfl | rfl | rfl) <;> rfl

/-- Witness for C23: with ids of type `int8`, as the decoder gives for small numbers,
the prior record 5 stays before the restored record 3; with ids of type `int64` the
same records are ordered. -/
theorem mergeAndSortData_order_witness :
    mergeAndSortData (.arr [.omap [("id", .int .int8 5)]]) [[("id", .int .int8 3)]]
        [.int .int8 3] "id"
      = [[("id", .int .int8 5)], [("id", .int .int8 3)]] ∧
    mergeAndSortData (.arr [.omap [("id", .int .int64 5)]]) [[("id", .int .int64 3)]]
        [.int .int64 3] "id"
      = [[("id", .int .int64 3)], [("id", .int .int64 5)]] ∧
    toInt64 (.int .int8 5) = 0 ∧
    List.Sorted (fun a b => sortKey "id" a ≤ sortKey "id" b)
      (mergeAndSortData (.arr [.omap [("id", .int .int8 5)]]) [[("id", .int .int8 3)]]
        [.int .int8 3] "id") :=
  ⟨rfl, rfl, rfl,
    (mergeAndSortData_order (.arr [.omap [("id", .int .int8 5)]]) [[("id", .int .int8 3)]]
      [.int .int8 3] "id").2.1⟩

/-! ### `NuverseMasterRestorer` -/

theorem isCompactKey_of_data (tail : List Char) :
    isCompactKey (String.mk ("compact".data ++ tail)) = true := by
  have h7 : ("compact".data).length = 7 := rfl
  have h1 : ("compact".data ++ tail).length ≥ 7 := by
    rw [List.length_append, h7]
    omega
  have h2 : ("compact".data ++ tail).take 7 = "compact".data := by
    rw [← h7, List.take_left]
  simp only [isCompactKey, h1, h2, decide_True, Bool.and_self]

theorem drop_compact (tail : List Char) :
    (String.mk ("compact".data ++ tail)).data.drop 7 = tail := by
  have h7 : ("compact".data).length = 7 := rfl
  show ("compact".data ++ tail).drop 7 = tail
  rw [← h7, List.drop_left]

/-- Claim C18 (the code departs from it).  For a key that is `compact` followed by the
non-empty rest `c :: tail`, whose value is an ordered map, and whose restored key is not
`eventCards`, the first loop of `NuverseMasterRestorer` stores the key with its value
and then the restored rows under `string(c + 32)` followed by `tail`.  For an upper-case
letter `c` that is the lower-case letter followed by `tail`; for any other byte it is
not `c`: below 96 it is the byte `c + 32`, from 96 to 223 it is the two bytes of the
UTF-8 encoding of the code point `c + 32`. -/
theorem restoreCompactKey_naming (st : RestorerState) (c : Char) (tail : List Char)
    (vOm : OrderedMap)
    (hv : OrderedMap.getOrNil st.masterData (String.mk ("compact".data ++ c :: tail))
      = .omap vOm)
    (hne : restoredKey (c :: tail) ≠ "eventCards") :
    (restoreCompactKey st (String.mk ("compact".data ++ c :: tail))).restoredCompactMaster
      = OrderedMap.set
          (OrderedMap.set st.restoredCompactMaster (String.mk ("compact".data ++ c :: tail))
            (.omap vOm))
          (restoredKey (c :: tail)) (.omapSlice (RestoreCompactData vOm)) ∧
    (c.toNat < 96 → restoredKey (c :: tail) = String.mk (Char.ofNat (c.toNat + 32) :: tail)) ∧
    (96 ≤ c.toNat → c.toNat < 224 →
      restoredKey (c :: tail)
        = String.mk (Char.ofNat (192 + (c.toNat + 32) / 64)
            :: Char.ofNat (128 + (c.toNat + 32) % 64) :: tail)) := by
  refine ⟨?_, ?_, ?_⟩
  · have hlen : ¬ (String.mk ("compact".data ++ c :: tail)).data.length = 0 := by
      show ¬ ("compact".data ++ c :: tail).length = 0
      simp
    have hcompact := isCompactKey_of_data (c :: tail)
    have hdrop := drop_compact (c :: tail)
    unfold restoreCompactKey
    simp only [hv, if_neg hlen, hcompact, not_true_eq_false, if_false, hdrop,
      List.length_cons, gt_iff_lt, Nat.zero_lt_succ, if_true, if_neg hne, ne_eq,
      not_true_eq_false]
  · intro h
    have h1 : (c.toNat + 32) % 256 = c.toNat + 32 := Nat.mod_eq_of_lt (by omega)
    simp only [restoredKey, byteToString, h1]
    rw [if_pos (by omega)]
    rfl
  · intro h1 h2
    have h3 : (c.toNat + 32) % 256 = c.toNat + 32 := Nat.mod_eq_of_lt (by omega)
    simp only [restoredKey, byteToString, h3]
    rw [if_neg (by omega)]
    rfl

/-- Witness for C18: `compactCards` is stored under `cards`, but `compactcards` is
stored under the two bytes `C2 83` followed by `ards`, and `compact3d` under `Sd`. -/
theorem restoreCompactKey_naming_witness :
    NuverseMasterRestorer [("compactCards", .omap [("id", .arr [.int .int8 1])])] []
      = [("compactCards", .omap [("id", .arr [.int .int8 1])]),
         ("cards", .omapSlice [[("id", .int .int8 1)]])] ∧
    OrderedMap.keys
        (NuverseMasterRestorer [("compactcards", .omap [("id", .arr [.int .int8 1])])] [])
      = ["compactcards", String.mk [Char.ofNat 0xC2, Char.ofNat 0x83, 'a', 'r', 'd', 's']] ∧
    OrderedMap.keys
        (NuverseMasterRestorer [("compact3d", .omap [("id", .arr [.int .int8 1])])] [])
      = ["compact3d", "Sd"] ∧
    (restoreCompactKey ⟨[("compactcards", .omap [("id", .arr [.int .int8 1])])], [], []⟩
        (String.mk ("compact".data ++ 'c' :: "ards".data))).restoredCompactMaster
      = OrderedMap.set
          (OrderedMap.set [] (String.mk ("compact".data ++ 'c' :: "ards".data))
            (.omap [("id", .arr [.int .int8 1])]))
          (restoredKey ('c' :: "ards".data))
          (.omapSlice (RestoreCompactData [("id", .arr [.int .int8 1])])) :=
  ⟨rfl, rfl, rfl,
    (restoreCompactKey_naming ⟨[("compactcards", .omap [("id", .arr [.int .int8 1])])], [], []⟩
      'c' "ards".data [("id", .arr [.int .int8 1])] rfl (by decide)).1⟩

/-- Claim C24 (the code departs from it).  For the key `compactEventCards` with an
ordered map as value that restores to at least one row, the first loop of
`NuverseMasterRestorer` stores under `eventCards` the restored rows sorted by
`toInt64` of `cardId`, and nothing else: it has overwritten the prior `eventCards`
value before `handleIDMerging` runs, and the value it hands to `mergeAndSortData` is
the slice of restored rows, from which nothing is kept as a prior entry. -/
theorem restoreCompactKey_eventCards (st : RestorerState) (vOm : OrderedMap)
    (hv : OrderedMap.getOrNil st.masterData "compactEventCards" = .omap vOm)
    (hne : RestoreCompactData vOm ≠ []) :
    OrderedMap.get (restoreCompactKey st "compactEventCards").restoredCompactMaster
        "eventCards"
      = some (.omapSlice
          (List.insertionSort (fun a b => sortKey "cardId" a ≤ sortKey "cardId" b)
            (RestoreCompactData vOm))) ∧
    OrderedMap.get (restoreCompactKey st "compactEventCards").masterData "eventCards"
      = some (.omapSlice
          (List.insertionSort (fun a b => sortKey "cardId" a ≤ sortKey "cardId" b)
            (RestoreCompactData vOm))) ∧
    (∀ ids, keptPrior (.omapSlice (RestoreCompactData vOm)) ids "cardId" = []) := by
  have hkey : ("compactEventCards" : String)
      = String.mk ("compact".data ++ 'E' :: "ventCards".data) := by decide
  have hlen : ¬ ("compactEventCards" : String).data.length = 0 := by decide
  have hcompact : isCompactKey "compactEventCards" = true := by decide
  have hdrop : ("compactEventCards" : String).data.drop 7 = "EventCards".data := by decide
  have hnew : restoredKey "EventCards".data = "eventCards" := by decide
  have hlen2 : ¬ (RestoreCompactData vOm).length = 0 := by
    intro h
    exact hne (List.eq_nil_of_length_eq_zero h)
  have hmerge : handleIDMerging "eventCards" (.omapSlice (RestoreCompactData vOm)) "cardId"
      (OrderedMap.set st.masterData "eventCards" (.omapSlice (RestoreCompactData vOm)))
      = OrderedMap.set
          (OrderedMap.set st.masterData "eventCards" (.omapSlice (RestoreCompactData vOm)))
          "eventCards"
          (.omapSlice (List.insertionSort (fun a b => sortKey "cardId" a ≤ sortKey "cardId" b)
            (RestoreCompactData vOm))) := by
    unfold handleIDMerging
    rw [if_neg (by decide), OrderedMap.get_set, if_pos rfl]
    simp only [if_neg hlen2]
    rfl
  have hres : restoreCompactKey st "compactEventCards"
      = { masterData := handleIDMerging "eventCards" (.omapSlice (RestoreCompactData vOm))
            "cardId"
            (OrderedMap.set st.masterData "eventCards" (.omapSlice (RestoreCompactData vOm)))
          restoredCompactMaster :=
            OrderedMap.set
              (OrderedMap.set st.restoredCompactMaster "compactEventCards" (.omap vOm))
              "eventCards"
              (OrderedMap.getOrNil
                (handleIDMerging "eventCards" (.omapSlice (RestoreCompactData vOm)) "cardId"
                  (OrderedMap.set st.masterData "eventCards"
                    (.omapSlice (RestoreCompactData vOm))))
                "eventCards")
          restoredFromCompact := "eventCards" :: st.restoredFromCompact } := by
    unfold restoreCompactKey
    simp only [hv, if_neg hlen, hcompact, not_true_eq_false, if_false, hdrop, hnew]
    rfl
  rw [hres, hmerge]
  refine ⟨?_, ?_, fun ids => rfl⟩
  · simp only [OrderedMap.get_set, OrderedMap.getOrNil, if_true, Option.getD_some]
  · simp only [OrderedMap.get_set, if_true]

/-- Witness for C24: the prior record with `cardId` 1 is matched by no restored row,
yet the `eventCards` value produced holds only the restored row with `cardId` 2. -/
theorem restoreCompactKey_eventCards_witness :
    NuverseMasterRestorer eventCardsExample []
      = [("compactEventCards",
            .omap [("cardId", .arr [.int .int8 2]), ("x", .arr [.str "new"])]),
         ("eventCards", .omapSlice [[("cardId", .int .int8 2), ("x", .str "new")]])] ∧
    OrderedMap.get
        (restoreCompactKey ⟨eventCardsExample, [], []⟩ "compactEventCards").restoredCompactMaster
        "eventCards"
      = some (.omapSlice
          (List.insertionSort (fun a b => sortKey "cardId" a ≤ sortKey "cardId" b)
            (RestoreCompactData [("cardId", .arr [.int .int8 2]), ("x", .arr [.str "new"])]))) :=
  ⟨rfl, (restoreCompactKey_eventCards ⟨eventCardsExample, [], []⟩
    [("cardId", .arr [.int .int8 2]), ("x", .arr [.str "new"])] rfl
    (fun h => List.noConfusion h)).1⟩

/-! ### The user id -/

/-- Claim C26, as amended.  `extractUserID` returns the id itself for a string, its
decimal text for an integer of type `int`, `int64` or `uint64`, and the decimal text of
the truncated value for a `float64`; for an integer of any other width, signed or
unsigned, and for a `float32` it returns the error `unexpected userId type` with the
name of the type, as for every other type. -/
theorem extractUserID_types :
    (∀ s, extractUserID (.str s) = .ok s) ∧
    (∀ (k : IntKind) (n : Int), k = .int ∨ k = .int64 ∨ k = .uint64 →
      extractUserID (.int k n) = .ok (intToString n)) ∧
    (∀ bits, extractUserID (.float (.f64 bits)) = .ok (intToString (floatToInt (.f64 bits)))) ∧
    (∀ (k : IntKind) (n : Int),
      k = .int8 ∨ k = .int16 ∨ k = .int32 ∨ k = .uint8 ∨ k = .uint16 ∨ k = .uint32 ∨ k = .uint →
      extractUserID (.int k n) = .error ("unexpected userId type " ++ typeName (.int k n))) ∧
    (∀ bits, extractUserID (.float (.f32 bits)) = .error "unexpected userId type float32") ∧
    (∀ b, extractUserID (.bool b) = .error "unexpected userId type bool") ∧
    extractUserID .nil = .error "unexpected userId type <nil>" := by
  refine ⟨fun _ => rfl, ?_, fun _ => rfl, ?_, fun _ => rfl, fun _ => rfl, rfl⟩
  · rintro k n (rfl | rfl | rfl) <;> rfl
  · rintro k n (rfl | rfl | rfl | rfl | rfl | rfl | rfl) <;> rfl

/-- Counterexample for C26: the user id 1000 arrives as a `uint16` and is refused; as a
`uint64` it gives the text `1000`. -/
theorem extractUserID_uint16_refused :
    extractUserID (.int .uint16 1000) = .error "unexpected userId type uint16" ∧
    extractUserID (.int .int32 (-5)) = .error "unexpected userId type int32" ∧
    extractUserID (.int .uint64 1000) = .ok "1000" :=
  ⟨rfl, rfl, rfl⟩

/-! ### The photo -/

/-- Claim C27 (the code departs from it).  `GetNuverseMySekaiImage` never returns
bytes: whenever it returns, it returns an error.  When the request and
`handleResponse` succeed, the error is `unexpected response type`, because the value
returned by `handleResponse` is a `**orderedmap.OrderedMap` and not a
`*interface{}`. -/
theorem GetNuverseMySekaiImage_never_succeeds (c : SekaiClient) (w : World)
    (base64Decode : String → Except String Bytes) (fuel : Nat) (userID index : String)
    (run : Run) :
    (∀ r run2, c.GetNuverseMySekaiImage w base64Decode fuel userID index run = some (r, run2) →
      ∃ e, r = .error e) ∧
    (∀ response m run2,
      c.Get w fuel ("/user/" ++ userID ++ "/mysekai/photo/" ++ index) run
        = some (⟨some response, none⟩, run2) →
      c.handleResponse response = .ok m →
      c.GetNuverseMySekaiImage w base64Decode fuel userID index run
        = some (.error (.message "unexpected response type: **orderedmap.OrderedMap"),
            run2)) := by
  refine ⟨?_, ?_⟩
  · intro r run2 h
    unfold SekaiClient.GetNuverseMySekaiImage at h
    cases hG : c.Get w fuel ("/user/" ++ userID ++ "/mysekai/photo/" ++ index) run with
    | none => rw [hG] at h; exact Option.noConfusion h
    | some p =>
      obtain ⟨⟨resp, err⟩, run1⟩ := p
      rw [hG] at h
      simp only [] at h
      cases err with
      | some e =>
        simp only [Option.some.injEq, Prod.mk.injEq] at h
        exact ⟨_, h.1.symm⟩
      | none =>
        cases resp with
        | none =>
          simp only [Option.some.injEq, Prod.mk.injEq] at h
          exact ⟨_, h.1.symm⟩
        | some responseRaw =>
          simp only [SekaiClient.handleResponseAny] at h
          cases hr : c.handleResponse responseRaw with
          | error e =>
            rw [hr] at h
            simp only [Option.some.injEq, Prod.mk.injEq] at h
            exact ⟨_, h.1.symm⟩
          | ok m =>
            rw [hr] at h
            simp only [Option.some.injEq, Prod.mk.injEq] at h
            exact ⟨_, h.1.symm⟩
  · intro response m run2 hG hr
    unfold SekaiClient.GetNuverseMySekaiImage
    simp only [hG, SekaiClient.handleResponseAny, hr]

theorem thumbnailBody_decoded :
    (exampleClient .tw).handleResponse ⟨200, "application/octet-stream", thumbnailBody, ""⟩
      = .ok [("thumbnail", .str "AQID")] := by
  rfl

/-- Witness for C27: the server answers the photo request with status 200 and the
packed map whose `thumbnail` is the base64 text of the bytes 1, 2, 3; the method
returns the error and no bytes. -/
theorem GetNuverseMySekaiImage_never_succeeds_witness :
    (exampleClient .tw).handleResponse ⟨200, "application/octet-stream", thumbnailBody, ""⟩
      = .ok [("thumbnail", .str "AQID")] ∧
    exampleBase64 "AQID" = .ok [1, 2, 3] ∧
    (exampleClient .tw).GetNuverseMySekaiImage
        (scriptedWorld [] (.ok ⟨200, "application/octet-stream", thumbnailBody, ""⟩))
        exampleBase64 1 "42" "0" Run.start
      = some (.error (.message "unexpected response type: **orderedmap.OrderedMap"),
          Run.start.attempt 0) :=
  ⟨thumbnailBody_decoded, rfl,
    (GetNuverseMySekaiImage_never_succeeds (exampleClient .tw)
      (scriptedWorld [] (.ok ⟨200, "application/octet-stream", thumbnailBody, ""⟩))
      exampleBase64 1 "42" "0" Run.start).2
      ⟨200, "application/octet-stream", thumbnailBody, ""⟩ [("thumbnail", .str "AQID")]
      (Run.start.attempt 0) rfl thumbnailBody_decoded⟩

/-! ### The app-hash version file -/

/-- Claim C28.  When the version file exists, is not empty and parses as the ordered
map `M`, and directory creation and marshalling succeed, the map that
`SaveNewAppHash` marshals and writes has the keys of `M` in the same order, followed by
those of `appVersion`, `appHash` (in this order) that `M` lacks; `appVersion` and
`appHash` hold the new values and every other key holds the value it has in `M`. -/
theorem SaveNewAppHash_frame (env : SaveEnv) (app : HarukiSekaiAppInfo) (b : Bytes)
    (M : OrderedMap) (raw : Bytes)
    (hmk : env.mkdirAll = none) (hread : env.readFile = .content b) (hb : b ≠ [])
    (hparse : env.unmarshal b OrderedMap.new = M)
    (hmarshal : env.marshalIndent
      (OrderedMap.set (OrderedMap.set M "appVersion" (.str app.AppVersion)) "appHash"
        (.str app.AppHash)) = .ok raw) :
    ∃ W, SaveNewAppHash env app = ⟨env.writeFile raw, some W, some raw⟩ ∧
      OrderedMap.keys W
        = OrderedMap.keys M
          ++ (["appVersion", "appHash"].filter (fun k => k ∉ OrderedMap.keys M)) ∧
      OrderedMap.get W "appVersion" = some (.str app.AppVersion) ∧
      OrderedMap.get W "appHash" = some (.str app.AppHash) ∧
      (∀ k, k ≠ "appVersion" → k ≠ "appHash" → OrderedMap.get W k = OrderedMap.get M k) ∧
      (∀ k, k ∈ OrderedMap.keys W ↔ k ∈ OrderedMap.keys M ∨ k = "appVersion" ∨ k = "appHash") := by
  have hlen : b.length > 0 := List.length_pos.mpr hb
  have hkeys : OrderedMap.keys (OrderedMap.set (OrderedMap.set M "appVersion"
        (.str app.AppVersion)) "appHash" (.str app.AppHash))
      = OrderedMap.keys M
        ++ (["appVersion", "appHash"].filter (fun k => k ∉ OrderedMap.keys M)) := by
    rw [OrderedMap.keys_set, OrderedMap.keys_set]
    by_cases h1 : "appVersion" ∈ OrderedMap.keys M <;>
      by_cases h2 : "appHash" ∈ OrderedMap.keys M <;>
      simp [h1, h2, List.filter_cons]
  refine ⟨OrderedMap.set (OrderedMap.set M "appVersion" (.str app.AppVersion)) "appHash"
    (.str app.AppHash), ?_, hkeys, ?_, ?_, ?_, ?_⟩
  · simp only [SaveNewAppHash, hmk, hread, hlen, if_true, hparse, hmarshal]
  · rw [OrderedMap.get_set, if_neg (by decide), OrderedMap.get_set, if_pos rfl]
  · rw [OrderedMap.get_set, if_pos rfl]
  · intro k h1 h2
    rw [OrderedMap.get_set, if_neg h2, OrderedMap.get_set, if_neg h1]
  · intro k
    rw [hkeys]
    by_cases h1 : "appVersion" ∈ OrderedMap.keys M <;>
      by_cases h2 : "appHash" ∈ OrderedMap.keys M <;>
      simp only [List.mem_append, List.filter_cons, List.filter_nil, h1, h2,
        not_true_eq_false, not_false_eq_true, decide_True, decide_False, if_true,
        Bool.false_eq_true, if_false, List.mem_cons, List.not_mem_nil, or_false] <;>
      constructor <;> intro h <;> first
        | (rcases h with h | h | h <;> simp_all)
        | simp_all

/-- Witness for C28: a version file with `appVersion` between two other keys and
without `appHash`. -/
theorem SaveNewAppHash_frame_witness :
    SaveNewAppHash
        ⟨none, .content [1],
          fun _ _ => [("dataVersion", .str "1"), ("appVersion", .str "5.0"), ("cdn", .nil)],
          fun _ => .ok [2], fun _ => none⟩
        ⟨"6.0", "abc"⟩
      = ⟨none,
          some [("dataVersion", .str "1"), ("appVersion", .str "6.0"), ("cdn", .nil),
            ("appHash", .str "abc")],
          some [2]⟩ ∧
    ∃ W, SaveNewAppHash
        ⟨none, .content [1],
          fun _ _ => [("dataVersion", .str "1"), ("appVersion", .str "5.0"), ("cdn", .nil)],
          fun _ => .ok [2], fun _ => none⟩
        ⟨"6.0", "abc"⟩ = ⟨none, some W, some [2]⟩ ∧
      OrderedMap.keys W
        = OrderedMap.keys [("dataVersion", GoVal.str "1"), ("appVersion", .str "5.0"),
            ("cdn", .nil)]
          ++ (["appVersion", "appHash"].filter (fun k => k ∉ OrderedMap.keys
            [("dataVersion", GoVal.str "1"), ("appVersion", .str "5.0"), ("cdn", .nil)])) ∧
      OrderedMap.get W "appVersion" = some (.str "6.0") ∧
      OrderedMap.get W "appHash" = some (.str "abc") ∧
      (∀ k, k ≠ "appVersion" → k ≠ "appHash" → OrderedMap.get W k
        = OrderedMap.get [("dataVersion", GoVal.str "1"), ("appVersion", .str "5.0"),
            ("cdn", .nil)] k) ∧
      (∀ k, k ∈ OrderedMap.keys W ↔
        k ∈ OrderedMap.keys [("dataVersion", GoVal.str "1"), ("appVersion", .str "5.0"),
            ("cdn", .nil)] ∨ k = "appVersion" ∨ k = "appHash") :=
  ⟨rfl, SaveNewAppHash_frame
    ⟨none, .content [1],
      fun _ _ => [("dataVersion", .str "1"), ("appVersion", .str "5.0"), ("cdn", .nil)],
      fun _ => .ok [2], fun _ => none⟩
    ⟨"6.0", "abc"⟩ [1] _ [2] rfl rfl (by decide) rfl rfl⟩

/-! ### The updater tick -/

/-- Claim C25, as amended.  What a tick writes does not depend on whether the
master-data update it starts completes.  A tick that starts a master-data update or an
asset update and whose first `saveFile` succeeds rewrites the version file with the
server's versions set, right after starting the update; a tick that starts neither
writes nothing. -/
theorem CheckSekaiMasterUpdate_version_file (mgr : SekaiClientManager) (lib : UpdaterLibrary)
    (w : UpdaterWorld) :
    (∀ b : Bool,
      (mgr.CheckSekaiMasterUpdate lib { w with masterUpdateSucceeds := b }).written
        = (mgr.CheckSekaiMasterUpdate lib w).written) ∧
    (∀ currentLocalVersion loginResponse,
      w.loadVersionFile = .ok currentLocalVersion → w.login = .ok loginResponse →
      ((mgr.CheckSekaiMasterUpdate lib w).masterUpdateStarted = true ∨
        (mgr.CheckSekaiMasterUpdate lib w).assetUpdateStarted = true) →
      w.saveFile 0 = none →
      ∃ cdn, (mgr.CheckSekaiMasterUpdate lib w).written.head?
        = some (.versionFile,
            newLocalVersion mgr.Server currentLocalVersion loginResponse cdn)) ∧
    ((mgr.CheckSekaiMasterUpdate lib w).masterUpdateStarted = false →
      (mgr.CheckSekaiMasterUpdate lib w).assetUpdateStarted = false →
      (mgr.CheckSekaiMasterUpdate lib w).written = []) := by
  refine ⟨?_, ?_, ?_⟩
  · intro b
    unfold SekaiClientManager.CheckSekaiMasterUpdate
    cases w.loadVersionFile with
    | error e => rfl
    | ok local0 =>
      cases mgr.getClient.1 with
      | none => rfl
      | some cl =>
        cases w.login with
        | error e => rfl
        | ok login =>
          simp only []
          cases mgr.checkServerVersions lib login local0 with
          | error e => rfl
          | ok r => rfl
  · intro local0 login hl hlog hstart hsave
    unfold SekaiClientManager.CheckSekaiMasterUpdate at hstart ⊢
    rw [hl, hlog] at hstart ⊢
    cases hc : mgr.getClient.1 with
    | none =>
      rw [hc] at hstart
      simp [TickOutcome.idle] at hstart
    | some cl =>
      rw [hc] at hstart
      simp only [] at hstart ⊢
      cases hchk : mgr.checkServerVersions lib login local0 with
      | error e =>
        rw [hchk] at hstart
        simp [TickOutcome.idle] at hstart
      | ok r =>
        rw [hchk] at hstart
        simp only [SekaiClientManager.startAndSave] at hstart ⊢
        refine ⟨r.2.2, ?_⟩
        rw [if_pos hstart]
        simp only [saveVersionFiles, hsave]
        cases w.saveFile 1 <;> rfl
  · intro h1 h2
    unfold SekaiClientManager.CheckSekaiMasterUpdate at h1 h2 ⊢
    cases hl : w.loadVersionFile with
    | error e => rfl
    | ok local0 =>
      rw [hl] at h1 h2
      cases hc : mgr.getClient.1 with
      | none => rfl
      | some cl =>
        rw [hc] at h1 h2
        cases hlog : w.login with
        | error e => rfl
        | ok login =>
          rw [hlog] at h1 h2
          simp only [] at h1 h2 ⊢
          cases hchk : mgr.checkServerVersions lib login local0 with
          | error e => rfl
          | ok r =>
            rw [hchk] at h1 h2
            simp only [SekaiClientManager.startAndSave] at h1 h2 ⊢
            rw [if_neg (by simp [h1, h2])]

/-- Counterexample for C25: the tick finds a new data version and starts the
master-data update, that update fails, and the version file and its snapshot are
written with the new data version all the same. -/
theorem CheckSekaiMasterUpdate_writes_despite_failure :
    ((⟨.jp, [exampleClient .jp], 0⟩ : SekaiClientManager).CheckSekaiMasterUpdate
        exampleUpdaterLibrary failingUpdateWorld).masterUpdateStarted = true ∧
    ((⟨.jp, [exampleClient .jp], 0⟩ : SekaiClientManager).CheckSekaiMasterUpdate
        exampleUpdaterLibrary failingUpdateWorld).masterUpdateCompleted = false ∧
    ((⟨.jp, [exampleClient .jp], 0⟩ : SekaiClientManager).CheckSekaiMasterUpdate
        exampleUpdaterLibrary failingUpdateWorld).written
      = [(.versionFile,
            [("dataVersion", .str "2"), ("assetVersion", .str "1"), ("assetHash", .str "h")]),
         (.snapshot "2",
            [("dataVersion", .str "2"), ("assetVersion", .str "1"), ("assetHash", .str "h")])] :=
  ⟨rfl, rfl, rfl⟩

end Sekai
